import Mathlib

/-!
# A shallow embedding of the generational collector of `heap.c`

The C program keeps one `struct heap` and one byte arena obtained from `malloc`.
The embedding below keeps both in one record: the fields of `struct heap`
(with the names of `heap.h`) and `mem`, the bytes of the arena.  The arena is
kept as one number, its little-endian image: the byte at address `heap + i` is
`mem / 256 ^ i % 256` (computed with shifts and masks).  Only addresses inside the arena
`[heap, heap + heap_max_size)` may be read or written; an access anywhere else
is a fault.

* sizes are `uint32_t`: every stored size is reduced modulo `2^32`;
* `age`, `gc`, `mark`, `survivor` are `uint8_t`: reduced modulo `2^8`;
* pointers are 64 bit wide, the null pointer is `0`;
* `chunk_t` is 12 bytes: `mark` at offset 0, `age` at 1, `size` at 4,
  `addr` at 8, the payload `data` at 12;
* `object_t` of `test.c` is `data` at 0, `count` at 4, `refs[i]` at `8 + 8 * i`.

Recursion (`mark_chunk`, `fix_minor`) and the region scans take a budget of
steps; running out of it is reported as `Fault.fuel`.
-/

namespace GC

/-- Ways in which a run of the C code stops without returning. -/
inductive Fault where
  /-- An `assert` failed. -/
  | assertion
  /-- An access outside the arena (or an overlapping `memcpy`). -/
  | segv
  /-- The step budget of the embedding ran out. -/
  | fuel
  deriving DecidableEq, Repr

/-- Results of the embedded C functions. -/
abbrev M := Except Fault

instance {α : Type} [DecidableEq α] : DecidableEq (M α)
  | .ok a, .ok b =>
    if hab : a = b then isTrue (by rw [hab]) else isFalse (by intro e; cases e; exact hab rfl)
  | .error a, .error b =>
    if hab : a = b then isTrue (by rw [hab]) else isFalse (by intro e; cases e; exact hab rfl)
  | .ok _, .error _ => isFalse (by intro e; cases e)
  | .error _, .ok _ => isFalse (by intro e; cases e)

/-- The record `struct heap` of `heap.h`, together with the bytes of the arena. -/
structure Heap where
  eden_max_size : Nat
  survivor_max_size : Nat
  tenured_max_size : Nat
  perm_max_size : Nat
  heap_max_size : Nat
  age_cycles : Nat
  gc_delay : Nat
  eden_size : Nat
  survivor_size : Nat
  tenured_size : Nat
  perm_size : Nat
  heap_size : Nat
  survivor : Nat
  heap : Nat
  gc : Nat
  eden_ptr : Nat
  s_ptr0 : Nat
  s_ptr1 : Nat
  tenured_ptr : Nat
  perm_ptr : Nat
  root : Nat
  mem : Nat
  deriving DecidableEq, Repr

/-- A reference slot (`uint8_t **`): the field `heap->root` or 8 bytes of memory. -/
inductive Slot where
  | root
  | cell (p : Nat)
  deriving DecidableEq, Repr

/-- The type `ref_visitor` of `heap.h`. -/
abbrev RefVisitor := Heap → Slot → M Heap

/-- The type `obj_visitor` of `heap.h`. -/
abbrev ObjVisitor := Heap → Slot → RefVisitor → M Heap

/-- The constant `sizeof(chunk_t)`. -/
def CHUNK : Nat := 12

/-- The range `[p, p + n)` lies inside the arena. -/
def Heap.inArena (h : Heap) (p n : Nat) : Prop :=
  h.heap ≤ p ∧ p + n ≤ h.heap + h.heap_max_size

instance (h : Heap) (p n : Nat) : Decidable (h.inArena p n) := by
  unfold Heap.inArena; infer_instance

/-- The `n` bytes at offset `o` of the arena image `m`, as a little-endian number. -/
def peek (m o n : Nat) : Nat := (m >>> (8 * o)) % 256 ^ n

/-- The arena image `m` with the `n` bytes at offset `o` replaced by the low `n` bytes of `v`. -/
def poke (m o n v : Nat) : Nat :=
  (m &&& (1 <<< (8 * o) - 1)) + ((v % 256 ^ n + ((m >>> (8 * (o + n))) <<< (8 * n))) <<< (8 * o))

/-- The heap with the arena image replaced by `m`. -/
def Heap.withMem (h : Heap) (m : Nat) : Heap := { h with mem := m }

/-- Read a `uint8_t`. -/
def Heap.load8 (h : Heap) (p : Nat) : M Nat :=
  if h.inArena p 1 then .ok (peek h.mem (p - h.heap) 1) else .error .segv

/-- Read a little-endian `uint32_t`. -/
def Heap.load32 (h : Heap) (p : Nat) : M Nat :=
  if h.inArena p 4 then .ok (peek h.mem (p - h.heap) 4) else .error .segv

/-- Read a little-endian 64-bit pointer. -/
def Heap.load64 (h : Heap) (p : Nat) : M Nat :=
  if h.inArena p 8 then .ok (peek h.mem (p - h.heap) 8) else .error .segv

/-- Write a `uint8_t`. -/
def Heap.store8 (h : Heap) (p v : Nat) : M Heap :=
  if h.inArena p 1 then .ok (h.withMem (poke h.mem (p - h.heap) 1 v)) else .error .segv

/-- Write a `uint32_t`. -/
def Heap.store32 (h : Heap) (p v : Nat) : M Heap :=
  if h.inArena p 4 then .ok (h.withMem (poke h.mem (p - h.heap) 4 v)) else .error .segv

/-- Write a 64-bit pointer. -/
def Heap.store64 (h : Heap) (p v : Nat) : M Heap :=
  if h.inArena p 8 then .ok (h.withMem (poke h.mem (p - h.heap) 8 v)) else .error .segv

/-- The call `memcpy(dst, src, n)`: both ranges in the arena and not overlapping. -/
def Heap.memcpy (h : Heap) (dst src n : Nat) : M Heap :=
  if h.inArena dst n ∧ h.inArena src n ∧ (n = 0 ∨ dst + n ≤ src ∨ src + n ≤ dst) then
    .ok (h.withMem (poke h.mem (dst - h.heap) n (peek h.mem (src - h.heap) n)))
  else .error .segv

/-- The call `memset(p, 0, n)`. -/
def Heap.memset0 (h : Heap) (p n : Nat) : M Heap :=
  if h.inArena p n then .ok (h.withMem (poke h.mem (p - h.heap) n 0)) else .error .segv

/-- Read `*ref`. -/
def Heap.loadRef (h : Heap) : Slot → M Nat
  | .root => .ok h.root
  | .cell p => h.load64 p

/-- Write `*ref = v`. -/
def Heap.storeRef (h : Heap) (s : Slot) (v : Nat) : M Heap :=
  match s with
  | .root => .ok { h with root := v }
  | .cell p => h.store64 p v

/-- The expression `(chunk_t*)(*ref - sizeof(chunk_t))`; below address 12 the pointer is wild. -/
def chunk_of (r : Nat) : M Nat :=
  if CHUNK ≤ r then .ok (r - CHUNK) else .error .segv

/-- The array access `heap->s_ptr[i]`. -/
def Heap.s_ptr (h : Heap) (i : Nat) : M Nat :=
  if i = 0 then .ok h.s_ptr0 else if i = 1 then .ok h.s_ptr1 else .error .segv

/-- The function `compute_heap_size`. -/
def compute_heap_size (h : Heap) : Heap :=
  { h with heap_size := (h.eden_size + h.survivor_size + h.tenured_size + h.perm_size) % 4294967296 }

/-- The function `mark_chunk`; `vis` is `heap->visitor`. -/
def mark_chunk (vis : ObjVisitor) : Nat → Heap → Slot → M Heap
  | 0 => fun _ _ => .error .fuel
  | fuel + 1 => fun h ref => do
    let r ← h.loadRef ref
    let chunk ← chunk_of r
    let mark ← h.load8 chunk
    if mark ≠ 0 then
      return h
    let h ← h.store8 chunk (mark ^^^ 1)
    vis h ref (mark_chunk vis fuel)

/-- The function `fix_minor`. -/
def fix_minor (vis : ObjVisitor) : Nat → Heap → Slot → M Heap
  | 0 => fun _ _ => .error .fuel
  | fuel + 1 => fun h ref => do
    let r ← h.loadRef ref
    let chunk ← chunk_of r
    let addr ← h.load32 (chunk + 8)
    let h ← if addr ≠ 0 then h.storeRef ref (h.heap + addr + CHUNK) else pure h
    let mark ← h.load8 chunk
    if mark = 0 then
      return h
    let h ← h.store8 chunk (mark ^^^ 1)
    vis h ref (fix_minor vis fuel)

/-- The function `fix_major`: its body is empty. -/
def fix_major (h : Heap) (_ref : Slot) : M Heap := .ok h

/-- The function `chunk_eden_alloc`; the result `0` is `NULL`. -/
def chunk_eden_alloc (h : Heap) (size : Nat) : M (Nat × Heap) :=
  if (h.eden_size + size) % 4294967296 ≥ h.eden_max_size then
    .ok (0, h)
  else do
    let chunk := h.eden_ptr + h.eden_size
    let h ← h.store32 (chunk + 4) size
    let h ← h.store8 (chunk + 1) 0
    let h ← h.store8 chunk 0
    .ok (chunk, { h with eden_size := (h.eden_size + size) % 4294967296,
                         heap_size := (h.heap_size + size) % 4294967296 })

/-- The function `chunk_tenured_alloc`; the result `0` is `NULL`. -/
def chunk_tenured_alloc (h : Heap) (size : Nat) : M (Nat × Heap) :=
  if (h.tenured_size + size) % 4294967296 ≥ h.tenured_max_size then
    .ok (0, h)
  else do
    let chunk := h.tenured_ptr + h.tenured_size
    let h ← h.store32 (chunk + 4) size
    let h ← h.store8 (chunk + 1) 0
    let h ← h.store8 chunk 0
    .ok (chunk, { h with tenured_size := (h.tenured_size + size) % 4294967296,
                         heap_size := (h.heap_size + size) % 4294967296 })

/-- The function `address_region`: `assert(heap && 0)`. -/
def address_region (_h : Heap) (_start : Nat) : M Heap := .error .assertion

/-- The function `compact_region`: `assert(heap && 0)`. -/
def compact_region (_h : Heap) (_start : Nat) : M Heap := .error .assertion

/-- The function `major_gc`. -/
def major_gc (vis : ObjVisitor) (fuel : Nat) (h : Heap) : M Heap := do
  let h ← mark_chunk vis fuel h .root
  let h ← address_region h h.tenured_ptr
  let h ← address_region h h.perm_ptr
  let h ← fix_major h .root
  let h ← compact_region h h.tenured_ptr
  compact_region h h.perm_ptr

/-- One round of the first `while` of `minor_gc`, for the chunk at `src` (the test of the
`while` is in `survivor_loop`); the result is the heap, the next `src` and `new_size`.
`survivor` is the target space chosen before the loop. -/
def survivor_step (survivor : Nat) (h : Heap) (src new_size : Nat) : M (Heap × Nat × Nat) := do
  let mark ← h.load8 src
  let size ← h.load32 (src + 4)
  if mark = 0 then
    return (h, src + size, new_size)
  let age ← h.load8 (src + 1)
  let (dst, h, new_size) :=
    if age ≥ h.age_cycles ∧ (h.tenured_size + size) % 4294967296 < h.tenured_max_size then
      (h.tenured_ptr + h.tenured_size,
        { h with tenured_size := (h.tenured_size + size) % 4294967296 }, new_size)
    else
      (survivor + new_size,
        { h with gc := (h.gc + (if age ≥ h.age_cycles then 1 else 0)) % 256 },
        (new_size + size) % 4294967296)
  let h ← h.memcpy dst src size
  let dage ← h.load8 (dst + 1)
  let h ← h.store8 (dst + 1) (if dage = 255 then 255 else dage + 1)
  let h ← h.store32 (src + 8) ((dst - h.heap) % 4294967296)
  let h ← h.store8 dst 0
  let dsize ← h.load32 (dst + 4)
  return (h, src + dsize, new_size)

/-- The first `while` of `minor_gc`: the scan of the active survivor space `sfrom`. -/
def survivor_loop (sfrom survivor : Nat) : Nat → Heap → Nat → Nat → M (Heap × Nat)
  | 0 => fun _ _ _ => .error .fuel
  | fuel + 1 => fun h src new_size =>
    if src - sfrom < h.survivor_size then do
      let (h, src, new_size) ← survivor_step survivor h src new_size
      survivor_loop sfrom survivor fuel h src new_size
    else .ok (h, new_size)

/-- One round of the second `while` of `minor_gc`, for the chunk at `src`; `dst` is the
local variable of that name, kept from the round before. -/
def eden_step (vis : ObjVisitor) (fuel survivor : Nat) (h : Heap) (src dst : Nat) :
    M (Heap × Nat × Nat) := do
  let mark ← h.load8 src
  let (h, dst) ←
    if mark ≠ 0 then do
      let size ← h.load32 (src + 4)
      let (h, dst) ←
        if (size + h.survivor_size) % 4294967296 < h.survivor_max_size then
          pure ({ h with survivor_size := (h.survivor_size + size) % 4294967296 },
                survivor + h.survivor_size)
        else if (h.tenured_size + size) % 4294967296 < h.tenured_max_size then
          pure ({ h with tenured_size := (h.tenured_size + size) % 4294967296 },
                h.tenured_ptr + h.tenured_size)
        else do
          let h ← fix_minor vis fuel h .root
          let h ← mark_chunk vis fuel h .root
          let h ← address_region h h.eden_ptr
          let h ← fix_major h .root
          let h ← compact_region h h.eden_ptr
          pure ({ h with gc := (h.gc + h.gc_delay) % 256 }, dst)
      let size ← h.load32 (src + 4)
      let h ← h.memcpy dst src size
      let h ← h.store32 (src + 8) ((dst - h.heap) % 4294967296)
      let h ← h.store8 dst 0
      let h ← h.store8 (dst + 1) 1
      pure (h, dst)
    else pure (h, dst)
  let size ← h.load32 (src + 4)
  return (h, src + size, dst)

/-- The second `while` of `minor_gc`: the scan of Eden.  The local `dst` is only read
after the fallback branch, which never returns. -/
def eden_loop (vis : ObjVisitor) (survivor : Nat) : Nat → Heap → Nat → Nat → M Heap
  | 0 => fun _ _ _ => .error .fuel
  | fuel + 1 => fun h src dst =>
    if src - h.eden_ptr < h.eden_size then do
      let (h, src, dst) ← eden_step vis fuel survivor h src dst
      eden_loop vis survivor fuel h src dst
    else .ok h

/-- The function `minor_gc`. -/
def minor_gc (vis : ObjVisitor) (fuel : Nat) (h : Heap) : M Heap := do
  let h ← mark_chunk vis fuel h .root
  let survivor ← h.s_ptr (h.survivor ^^^ 1)
  let h ←
    if h.survivor_size > 0 then do
      let sfrom ← h.s_ptr h.survivor
      let (h, new_size) ← survivor_loop sfrom survivor fuel h sfrom 0
      pure { h with survivor_size := new_size }
    else pure h
  let h := { h with survivor := h.survivor ^^^ 1 }
  let h ← eden_loop vis survivor fuel h h.eden_ptr 0
  let h ← fix_minor vis fuel h .root
  let h := { h with eden_size := 0 }
  return compute_heap_size h

/-- The block of `chunk_alloc` that runs when the first attempt in Eden failed: the
collections and the later attempts. -/
def chunk_alloc_slow (vis : ObjVisitor) (fuel : Nat) (h : Heap) (size : Nat) : M (Nat × Heap) := do
  let (major_done, h) ←
    if h.gc ≥ h.gc_delay then do
      let h ← major_gc vis fuel h
      pure (true, { h with gc := 0 })
    else pure (false, h)
  let h ← minor_gc vis fuel h
  let (chunk, h) ← chunk_eden_alloc h size
  if chunk ≠ 0 then
    return (chunk, h)
  let h ← if major_done then pure h else major_gc vis fuel h
  chunk_tenured_alloc h size

/-- The function `chunk_alloc`; the result `0` is `NULL`.  The first test of the C code,
`(large) && (chunk = chunk_tenured_alloc(heap, size))`, leaves `chunk` null when the
object is not large. -/
def chunk_alloc (vis : ObjVisitor) (fuel : Nat) (h : Heap) (size : Nat) : M (Nat × Heap) := do
  let (chunk, h) ←
    if size ≥ h.eden_max_size / 2 ∨ size ≥ h.survivor_max_size / 2 then
      chunk_tenured_alloc h size
    else pure (0, h)
  if chunk ≠ 0 then
    return (chunk, h)
  let (chunk, h) ← chunk_eden_alloc h size
  if chunk ≠ 0 then
    return (chunk, h)
  chunk_alloc_slow vis fuel h size

/-- The function `heap_init`: `h` carries the configuration, `base` is what `malloc`
returned (`0` when it failed) and `mem0` the bytes of memory at that moment. -/
def heap_init (h : Heap) (base : Nat) (mem0 : Nat) : M Heap :=
  if h.eden_max_size = 0 then .error .assertion
  else if h.survivor_max_size = 0 then .error .assertion
  else if h.tenured_max_size = 0 then .error .assertion
  else if h.perm_max_size = 0 then .error .assertion
  else
    let heap_max_size := (h.eden_max_size + h.survivor_max_size * 2 % 4294967296
                            + h.tenured_max_size + h.perm_max_size) % 4294967296
    if base = 0 then .error .assertion
    else
      .ok { h with
        heap_max_size := heap_max_size
        heap := base
        mem := mem0
        eden_size := 0
        survivor_size := 0
        tenured_size := 0
        perm_size := 0
        heap_size := 0
        survivor := 0
        eden_ptr := base
        s_ptr0 := base + h.eden_max_size
        s_ptr1 := base + h.eden_max_size + h.survivor_max_size
        tenured_ptr := base + h.eden_max_size + h.survivor_max_size + h.survivor_max_size
        perm_ptr := base + h.eden_max_size + h.survivor_max_size + h.survivor_max_size
                      + h.tenured_max_size }

/-- The function `heap_alloc`; the result `0` is `NULL`. -/
def heap_alloc (vis : ObjVisitor) (fuel : Nat) (h : Heap) (size : Nat) : M (Nat × Heap) := do
  let (chunk, h) ← chunk_alloc vis fuel h ((size + CHUNK) % 4294967296)
  if chunk ≠ 0 then
    let h ← h.memset0 (chunk + CHUNK) size
    return (chunk + CHUNK, h)
  else
    return (0, h)

/-! ## The host program `test.c` -/

/-- The `for` loop of `object_visitor`; `i` is the loop counter and the first argument
bounds the number of rounds (`i` is a `uint32_t`, so `2^32` rounds are never exceeded). -/
def object_visitor_loop (v : RefVisitor) (obj : Nat) : Nat → Nat → Heap → M Heap
  | 0 => fun _ _ => .error .fuel
  | k + 1 => fun i h => do
    let count ← h.load32 (obj + 4)
    if i < count then
      let r ← h.load64 (obj + 8 + 8 * i)
      let h ← if r ≠ 0 then v h (.cell (obj + 8 + 8 * i)) else pure h
      object_visitor_loop v obj k (i + 1) h
    else
      return h

/-- The function `object_visitor` of `test.c`. -/
def object_visitor : ObjVisitor := fun h ref v => do
  let obj ← h.loadRef ref
  if obj = 0 then
    throw .assertion
  let _data ← h.load32 obj
  object_visitor_loop v obj 4294967296 0 h

/-- The `for` loop of `object_alloc` that clears the references. -/
def object_alloc_loop (obj size : Nat) : Nat → Nat → Heap → M Heap
  | 0 => fun _ _ => .error .fuel
  | k + 1 => fun i h =>
    if i < size then do
      let h ← h.store64 (obj + 8 + 8 * i) 0
      object_alloc_loop obj size k (i + 1) h
    else .ok h

/-- The function `object_alloc` of `test.c`. -/
def object_alloc (vis : ObjVisitor) (fuel : Nat) (h : Heap) (data size : Nat) : M (Nat × Heap) := do
  let mem := (8 + size * 8) % 4294967296
  let (obj, h) ← heap_alloc vis fuel h mem
  if obj = 0 then
    return (0, h)
  let h ← h.store32 obj data
  let h ← h.store32 (obj + 4) size
  let h ← object_alloc_loop obj size 4294967296 0 h
  return (obj, h)

/-- The function `object_set` of `test.c`. -/
def object_set (h : Heap) (ref idx val : Nat) : M Heap := do
  if ref = 0 then
    throw .assertion
  let count ← h.load32 (ref + 4)
  if ¬ idx < count then
    throw .assertion
  h.store64 (ref + 8 + 8 * idx) val

/-- The record `heap` of `main` after `memset(&heap, 0, sizeof(heap))` and the six
assignments of capacities, `age_cycles` and `gc_delay`. -/
def config (eden survivor tenured perm age_cycles gc_delay : Nat) : Heap :=
  { eden_max_size := eden, survivor_max_size := survivor, tenured_max_size := tenured,
    perm_max_size := perm, heap_max_size := 0, age_cycles := age_cycles, gc_delay := gc_delay,
    eden_size := 0, survivor_size := 0, tenured_size := 0, perm_size := 0, heap_size := 0,
    survivor := 0, heap := 0, gc := 0, eden_ptr := 0, s_ptr0 := 0, s_ptr1 := 0,
    tenured_ptr := 0, perm_ptr := 0, root := 0, mem := 0 }

/-- The body of the inner `for` of `main`: a new one-reference node with payload word
`data` that points at the old root and becomes the root.  The first component is `1`
when `main` leaves with `EXIT_FAILURE`. -/
def main_body (fuel : Nat) (h : Heap) (data : Nat) : M (Nat × Heap) := do
  let (temp, h) ← object_alloc object_visitor fuel h data 1
  if temp = 0 then
    return (1, h)
  let h ← object_set h temp 0 h.root
  return (0, { h with root := temp })

/-- The inner `for (i = 1; i <= 100; ++i)` of `main`. -/
def main_inner (fuel j : Nat) : Nat → Nat → Heap → M (Nat × Heap)
  | 0 => fun _ _ => .error .fuel
  | k + 1 => fun i h =>
    if i ≤ 100 then do
      let (code, h) ← main_body fuel h (100 * j + i)
      if code ≠ 0 then
        return (code, h)
      main_inner fuel j k (i + 1) h
    else .ok (0, h)

/-- The outer `for (j = 1; j <= 5; ++j)` of `main`. -/
def main_outer (fuel : Nat) : Nat → Nat → Heap → M (Nat × Heap)
  | 0 => fun _ _ => .error .fuel
  | k + 1 => fun j h =>
    if j ≤ 5 then do
      let (root, h) ← object_alloc object_visitor fuel h (100 * j) 1
      let (code, h) ← main_inner fuel j 101 1 { h with root := root }
      if code ≠ 0 then
        return (code, h)
      main_outer fuel k (j + 1) h
    else .ok (0, h)

/-- The function `main` of `test.c`; the result is the exit code and the last heap.
`base` is the address `malloc` returns and `mem0` the content of the fresh arena. -/
def main (fuel base mem0 : Nat) : M (Nat × Heap) := do
  let h ← heap_init (config 1024 512 2048 2560 2 3) base mem0
  main_outer fuel 6 1 h

/-! ## Observations used to state the properties -/

/-- The fault of a run that did not return. -/
def faultOf {α : Type} : M α → Option Fault
  | .ok _ => none
  | .error e => some e

/-- The payload words `data` met when walking the chain `refs[0]` from reference `r`,
at most `k` nodes. -/
def list_data (h : Heap) : Nat → Nat → List Nat
  | 0, _ => []
  | k + 1, r =>
    if r = 0 then []
    else
      match h.load32 r, h.load64 (r + 8) with
      | .ok d, .ok next => d :: list_data h k next
      | _, _ => []

/-- A chain built the way `main` builds it: one node per entry of the list, each new
node pointing at the root before it, on the heap `h`. -/
def build_list (fuel : Nat) : List Nat → Heap → M Heap
  | [], h => .ok h
  | d :: ds, h => do
    let (code, h) ← main_body fuel h d
    if code ≠ 0 then
      throw .assertion
    build_list fuel ds h

/-! ## Well-formed heaps -/

/-- The layout `heap_init` gives the heap when the five capacities add up below `2^32`:
the arena starts at a non-null address and holds the regions one after the other. -/
structure Heap.Layout (h : Heap) : Prop where
  base_pos : 0 < h.heap
  eden_at : h.eden_ptr = h.heap
  s0_at : h.s_ptr0 = h.heap + h.eden_max_size
  s1_at : h.s_ptr1 = h.heap + h.eden_max_size + h.survivor_max_size
  tenured_at : h.tenured_ptr = h.heap + h.eden_max_size + 2 * h.survivor_max_size
  perm_at : h.perm_ptr = h.heap + h.eden_max_size + 2 * h.survivor_max_size + h.tenured_max_size
  total : h.heap_max_size =
    h.eden_max_size + 2 * h.survivor_max_size + h.tenured_max_size + h.perm_max_size
  bound : h.heap_max_size < 4294967296

/-- The heaps the allocator works on: the layout of `heap_init`, used sizes within the
capacities, the total kept in `heap_size`, and the one-byte fields within their type. -/
structure Heap.Valid (h : Heap) : Prop where
  layout : h.Layout
  eden_le : h.eden_size ≤ h.eden_max_size
  survivor_le : h.survivor_size ≤ h.survivor_max_size
  tenured_le : h.tenured_size ≤ h.tenured_max_size
  perm_le : h.perm_size ≤ h.perm_max_size
  heap_size_eq : h.heap_size = h.eden_size + h.survivor_size + h.tenured_size + h.perm_size
  survivor_bit : h.survivor < 2
  gc_byte : h.gc < 256
  age_cycles_byte : h.age_cycles < 256
  gc_delay_byte : h.gc_delay < 256

instance (h : Heap) : Decidable h.Layout :=
  decidable_of_iff
    (0 < h.heap ∧ h.eden_ptr = h.heap ∧ h.s_ptr0 = h.heap + h.eden_max_size ∧
      h.s_ptr1 = h.heap + h.eden_max_size + h.survivor_max_size ∧
      h.tenured_ptr = h.heap + h.eden_max_size + 2 * h.survivor_max_size ∧
      h.perm_ptr = h.heap + h.eden_max_size + 2 * h.survivor_max_size + h.tenured_max_size ∧
      h.heap_max_size =
        h.eden_max_size + 2 * h.survivor_max_size + h.tenured_max_size + h.perm_max_size ∧
      h.heap_max_size < 4294967296)
    ⟨fun ⟨a, b, c, d, e, f, g, i⟩ => ⟨a, b, c, d, e, f, g, i⟩,
     fun ⟨a, b, c, d, e, f, g, i⟩ => ⟨a, b, c, d, e, f, g, i⟩⟩

instance (h : Heap) : Decidable h.Valid :=
  decidable_of_iff
    (h.Layout ∧ h.eden_size ≤ h.eden_max_size ∧ h.survivor_size ≤ h.survivor_max_size ∧
      h.tenured_size ≤ h.tenured_max_size ∧ h.perm_size ≤ h.perm_max_size ∧
      h.heap_size = h.eden_size + h.survivor_size + h.tenured_size + h.perm_size ∧
      h.survivor < 2 ∧ h.gc < 256 ∧ h.age_cycles < 256 ∧ h.gc_delay < 256)
    ⟨fun ⟨a, b, c, d, e, f, g, i, j, k⟩ => ⟨a, b, c, d, e, f, g, i, j, k⟩,
     fun ⟨a, b, c, d, e, f, g, i, j, k⟩ => ⟨a, b, c, d, e, f, g, i, j, k⟩⟩

/-- The heap of `test.c` right after `heap_init`, the arena at address 4096 and
holding the bytes `mem0`. -/
def test_heap (mem0 : Nat) : Heap :=
  { config 1024 512 2048 2560 2 3 with
    heap_max_size := 6656, heap := 4096, mem := mem0, eden_ptr := 4096, s_ptr0 := 5120,
    s_ptr1 := 5632, tenured_ptr := 6144, perm_ptr := 8192 }

/-- A heap whose four capacities are 64 bytes, right after `heap_init`, the arena at
address 4096 and holding zeros. -/
def oom_heap : Heap :=
  { config 64 64 64 64 2 3 with
    heap_max_size := 320, heap := 4096, mem := 0, eden_ptr := 4096, s_ptr0 := 4160,
    s_ptr1 := 4224, tenured_ptr := 4288, perm_ptr := 4352 }

/-- A small heap after nine nodes were chained the way `main` chains them; three
minor collections fit in Eden of 100 bytes with nodes of 28 bytes. -/
def stale_heap : M Heap := do
  let h ← heap_init (config 100 58 2048 64 2 3) 1000 0
  build_list 100 [1, 2, 3, 4, 5, 6, 7, 8, 9] h

/-- The first `k` rounds of the first `while` of `minor_gc`, without its test. -/
def survivor_rounds (survivor : Nat) : Nat → Heap → Nat → Nat → M (Heap × Nat × Nat)
  | 0, h, src, new_size => .ok (h, src, new_size)
  | k + 1, h, src, new_size => do
    let (h, src, new_size) ← survivor_step survivor h src new_size
    survivor_rounds survivor k h src new_size

/-- `k` allocations of `size` bytes whose result the host drops at once. -/
def drop_allocs (fuel size : Nat) : Nat → Heap → M Heap
  | 0, h => .ok h
  | k + 1, h => do
    let (_, h) ← heap_alloc object_visitor fuel h size
    drop_allocs fuel size k h

/-- A heap on which pressure has built up: after `heap_init` (Eden 100 bytes, survivor
spaces 100, Tenured 64, `age_cycles = 2`, `gc_delay = 255`) one allocation of 40 bytes
goes to Tenured and leaves no room there for a 28-byte chunk, a chain of two nodes is
built and kept as the root, and 129 dropped allocations of 60 bytes each run a minor
collection. -/
def pressure_heap : M Heap := do
  let h ← heap_init (config 100 100 64 64 2 255) 4096 0
  let (_, h) ← heap_alloc object_visitor 0 h 40
  let h ← build_list 100 [1, 2] h
  drop_allocs 100 60 129 h

/-- The field `mark` of the chunk at address `c`. -/
def Heap.markOf (h : Heap) (c : Nat) : Nat := peek h.mem (c - h.heap) 1

/-- The field `age` of the chunk at address `c`. -/
def Heap.ageOf (h : Heap) (c : Nat) : Nat := peek h.mem (c + 1 - h.heap) 1

/-- The field `size` of the chunk at address `c`. -/
def Heap.sizeOf (h : Heap) (c : Nat) : Nat := peek h.mem (c + 4 - h.heap) 4

/-- The field `addr` of the chunk at address `c`. -/
def Heap.addrOf (h : Heap) (c : Nat) : Nat := peek h.mem (c + 8 - h.heap) 4

/-- The field `count` of the `object_t` in the chunk at address `c`. -/
def Heap.countOf (h : Heap) (c : Nat) : Nat := peek h.mem (c + 16 - h.heap) 4

/-- The field `refs[i]` of the `object_t` in the chunk at address `c`. -/
def Heap.refOf (h : Heap) (c i : Nat) : Nat := peek h.mem (c + 20 + 8 * i - h.heap) 8

/-- The chunks `cs` of the heap hold objects of `test.c`: every chunk lies in the arena
and is large enough for its header and its `object_t`, two chunks never overlap, and
every reference field that is not nil holds the payload address of a chunk of `cs`. -/
structure Heap.Objects (h : Heap) (cs : List Nat) : Prop where
  inside : ∀ c ∈ cs, h.heap ≤ c ∧ c + h.sizeOf c ≤ h.heap + h.heap_max_size
  fits : ∀ c ∈ cs, 20 + 8 * h.countOf c ≤ h.sizeOf c
  apart : ∀ c ∈ cs, ∀ d ∈ cs, c ≠ d → c + h.sizeOf c ≤ d ∨ d + h.sizeOf d ≤ c
  refs : ∀ c ∈ cs, ∀ i < h.countOf c, h.refOf c i ≠ 0 → ∃ d ∈ cs, h.refOf c i = d + 12

instance (h : Heap) (cs : List Nat) : Decidable (h.Objects cs) :=
  decidable_of_iff
    ((∀ c ∈ cs, h.heap ≤ c ∧ c + h.sizeOf c ≤ h.heap + h.heap_max_size) ∧
      (∀ c ∈ cs, 20 + 8 * h.countOf c ≤ h.sizeOf c) ∧
      (∀ c ∈ cs, ∀ d ∈ cs, c ≠ d → c + h.sizeOf c ≤ d ∨ d + h.sizeOf d ≤ c) ∧
      (∀ c ∈ cs, ∀ i < h.countOf c, h.refOf c i ≠ 0 → ∃ d ∈ cs, h.refOf c i = d + 12))
    ⟨fun ⟨a, b, c, d⟩ => ⟨a, b, c, d⟩, fun ⟨a, b, c, d⟩ => ⟨a, b, c, d⟩⟩

/-- The chunk at `d` can be reached from the chunk at `c` along reference fields. -/
inductive Heap.Path (h : Heap) : Nat → Nat → Prop where
  | refl (c : Nat) : Heap.Path h c c
  | step (c d e i : Nat) : Heap.Path h c d → i < h.countOf d → h.refOf d i = e + 12 →
      Heap.Path h c e

/-- The chunk at `c` is live: it can be reached from the root. -/
def Heap.Reach (h : Heap) (c : Nat) : Prop := ∃ r, h.root = r + 12 ∧ h.Path r c

/-- The heap of `test.c` after three one-reference nodes were allocated (chunks at
4096, 4124 and 4152) and the first two made to point at each other; the root is the
second node, the third node is not referenced. -/
def cyclic_heap : Heap :=
  match (do
    let (a, h) ← object_alloc object_visitor 0 (test_heap 0) 1 1
    let (b, h) ← object_alloc object_visitor 0 h 2 1
    let (_, h) ← object_alloc object_visitor 0 h 3 1
    let h ← object_set h b 0 a
    let h ← object_set h a 0 b
    pure { h with root := b } : M Heap) with
  | .ok h => h
  | .error _ => test_heap 0

/-- The heap of `test.c` after one node was allocated and no root installed. -/
def unrooted_heap : Heap :=
  match object_alloc object_visitor 0 (test_heap 0) 1 1 with
  | .ok p => p.2
  | .error _ => test_heap 0

/-! ## Notions used in the proof of the mark phase -/

/-- The heap `h` comes from `h0` by writing mark bytes of chunks of `cs` only, and every
mark byte is 0 or 1. -/
structure Marked (h0 : Heap) (cs : List Nat) (h : Heap) : Prop where
  same : h = h0.withMem h.mem
  frame : ∀ o n, (∀ c ∈ cs, c - h0.heap < o ∨ o + n ≤ c - h0.heap) →
    peek h.mem o n = peek h0.mem o n
  bit : ∀ c ∈ cs, h.markOf c = 0 ∨ h.markOf c = 1

/-- The number of chunks of `cs` whose mark byte is 0. -/
def unmarked (h : Heap) (cs : List Nat) : Nat := cs.countP (fun c => decide (h.markOf c = 0))

/-- Marks only grow from `h` to `h'`. -/
def Grows (cs : List Nat) (h h' : Heap) : Prop := ∀ c ∈ cs, h.markOf c = 1 → h'.markOf c = 1

/-- The slot `s` is the root slot or a reference field of a chunk of `cs`, and holds the
payload address of the chunk `d`. -/
def SlotAt (h0 : Heap) (cs : List Nat) (s : Slot) (d : Nat) : Prop :=
  (s = .root ∧ h0.root = d + 12) ∨
    ∃ x ∈ cs, ∃ i, i < h0.countOf x ∧ s = .cell (x + 20 + 8 * i) ∧ h0.refOf x i = d + 12

/-- Every reference field of `x` that is not nil points at a chunk marked in `h'`. -/
def Closed (h0 : Heap) (cs : List Nat) (h' : Heap) (x : Nat) : Prop :=
  ∀ i, i < h0.countOf x → h0.refOf x i ≠ 0 → ∃ e ∈ cs, h0.refOf x i = e + 12 ∧ h'.markOf e = 1

/-- What a call of `mark_chunk` with budget `fuel` on a slot that points at `d` does. -/
def MarkSpec (h0 : Heap) (cs : List Nat) (fuel : Nat) : Prop :=
  ∀ (h : Heap) (s : Slot) (d : Nat), Marked h0 cs h → d ∈ cs → SlotAt h0 cs s d →
    unmarked h cs < fuel →
    ∃ h', mark_chunk object_visitor fuel h s = .ok h' ∧ Marked h0 cs h' ∧ Grows cs h h' ∧
      h'.markOf d = 1 ∧
      ∀ x ∈ cs, h'.markOf x = 1 → h.markOf x = 0 → h0.Path d x ∧ Closed h0 cs h' x

/-! ## Runs of a host program -/

/-- What a host does with the heap between two collections: a call of `heap_alloc`
(with the budget the recursive traversals get), a write of the `n` low bytes of `v` at
address `p` of the arena, or an assignment to `heap->root`. -/
inductive Action where
  | alloc (fuel size : Nat)
  | write (p n v : Nat)
  | root (r : Nat)
  deriving DecidableEq, Repr

/-- One action of the host on the heap `h`. -/
def host_step (vis : ObjVisitor) (h : Heap) : Action → M Heap
  | .alloc fuel size => do
    let (_, h) ← heap_alloc vis fuel h size
    pure h
  | .write p n v =>
    if h.inArena p n then .ok (h.withMem (poke h.mem (p - h.heap) n v)) else .error .segv
  | .root r => .ok { h with root := r }

/-- A sequence of actions of the host, from the heap `h`. -/
def run (vis : ObjVisitor) : List Action → Heap → M Heap
  | [], h => .ok h
  | a :: l, h => do
    let h ← host_step vis h a
    run vis l h

/-- The function `heap_init` on the whole `struct heap`: the fields kept in `Heap` and
the field `visitor` (`none` is the null pointer), which the function neither reads nor
writes. -/
def heap_init_struct (visitor : Option ObjVisitor) (h : Heap) (base mem0 : Nat) :
    M (Heap × Option ObjVisitor) :=
  (heap_init h base mem0).map fun h' => (h', visitor)

/-- The sum `eden_size + survivor_size + tenured_size + perm_size` as the code computes
it, in `uint32_t`. -/
def Heap.used_sum (h : Heap) : Nat :=
  (h.eden_size + h.survivor_size + h.tenured_size + h.perm_size) % 4294967296

/-- A short run of a host on a small heap (Eden 100 bytes, survivor spaces 58): four
allocations of 16 bytes, hence chunks of 28 bytes; the first object is installed as the
root (its payload is zero, an object without references); the fourth allocation finds
Eden full and runs a minor collection. -/
def short_run : List Action :=
  [.alloc 100 16, .root 1012, .alloc 100 16, .alloc 100 16, .alloc 100 16]

/-- A configuration whose capacities are positive 32-bit numbers with a sum of
`2^32 + 2`. -/
def wide_config : Heap := config 2147483648 1073741824 1 1 2 3


/-! ## Notions used in the proof of the minor collection -/

/-- The `k` bytes at address `a`, as a little-endian number. -/
def Heap.rd (h : Heap) (a k : Nat) : Nat := peek h.mem (a - h.heap) k

/-- The chunks `l` tile `[a, b)`: the first starts at `a`, each has a size of at least
12 bytes and is followed at once by the next, and the last ends at `b`. -/
def Tiling (h : Heap) : Nat → Nat → List Nat → Prop
  | a, b, [] => a = b
  | a, b, c :: l => c = a ∧ 12 ≤ h.sizeOf a ∧ Tiling h (a + h.sizeOf a) b l

instance (h : Heap) : ∀ (a b : Nat) (l : List Nat), Decidable (Tiling h a b l)
  | a, b, [] => inferInstanceAs (Decidable (a = b))
  | a, b, c :: l =>
    have := instDecidableTiling h (a + h.sizeOf a) b l
    inferInstanceAs (Decidable (c = a ∧ 12 ≤ h.sizeOf a ∧ Tiling h (a + h.sizeOf a) b l))

/-- The active survivor space `s_ptr[survivor]`. -/
def Heap.sfrom (h : Heap) : Nat := if h.survivor = 0 then h.s_ptr0 else h.s_ptr1

/-- The other survivor space `s_ptr[survivor ^ 1]`. -/
def Heap.sto (h : Heap) : Nat := if h.survivor = 0 then h.s_ptr1 else h.s_ptr0

/-- The values of `tenured_size` and `new_size` after the first scan of `minor_gc` over
the chunks `l`, read off the marks, ages and sizes in `h`. -/
def survivor_plan (h : Heap) : List Nat → Nat → Nat → Nat × Nat
  | [], t, n => (t, n)
  | c :: l, t, n =>
    if h.markOf c = 0 then survivor_plan h l t n
    else if h.ageOf c ≥ h.age_cycles ∧ t + h.sizeOf c < h.tenured_max_size then
      survivor_plan h l (t + h.sizeOf c) n
    else survivor_plan h l t (n + h.sizeOf c)

/-- The values of `survivor_size` and `tenured_size` after the second scan of `minor_gc`
over the chunks `l`; `none` when a marked chunk finds room neither in the survivor space
nor in Tenured, the case in which the code enters its compaction fallback. -/
def eden_plan (h : Heap) : List Nat → Nat → Nat → Option (Nat × Nat)
  | [], s, t => some (s, t)
  | c :: l, s, t =>
    if h.markOf c = 0 then eden_plan h l s t
    else if h.sizeOf c + s < h.survivor_max_size then eden_plan h l (s + h.sizeOf c) t
    else if t + h.sizeOf c < h.tenured_max_size then eden_plan h l s (t + h.sizeOf c)
    else none

/-- The heap `h` differs from `h1` at most in the arena and in the fields the two scans
of `minor_gc` write (`tenured_size`, `survivor_size`, `gc`, `survivor`). -/
structure ScanSame (h1 h : Heap) : Prop where
  eden_max_size : h.eden_max_size = h1.eden_max_size
  survivor_max_size : h.survivor_max_size = h1.survivor_max_size
  tenured_max_size : h.tenured_max_size = h1.tenured_max_size
  perm_max_size : h.perm_max_size = h1.perm_max_size
  heap_max_size : h.heap_max_size = h1.heap_max_size
  age_cycles : h.age_cycles = h1.age_cycles
  gc_delay : h.gc_delay = h1.gc_delay
  eden_size : h.eden_size = h1.eden_size
  perm_size : h.perm_size = h1.perm_size
  heap_size : h.heap_size = h1.heap_size
  heap : h.heap = h1.heap
  eden_ptr : h.eden_ptr = h1.eden_ptr
  s_ptr0 : h.s_ptr0 = h1.s_ptr0
  s_ptr1 : h.s_ptr1 = h1.s_ptr1
  tenured_ptr : h.tenured_ptr = h1.tenured_ptr
  perm_ptr : h.perm_ptr = h1.perm_ptr
  root : h.root = h1.root

/-- The chunks `all` (those the scans read, and the objects) and the two areas the
scans write: the survivor target space at `sto` and the free part of Tenured. -/
structure Sources (h1 : Heap) (sto : Nat) (all : List Nat) : Prop where
  valid : h1.Valid
  sto_in : h1.heap ≤ sto ∧ sto + h1.survivor_max_size ≤ h1.tenured_ptr
  size_ge : ∀ c ∈ all, 12 ≤ h1.sizeOf c
  inside : ∀ c ∈ all, h1.heap ≤ c ∧ c + h1.sizeOf c ≤ h1.heap + h1.heap_max_size
  off_s : ∀ c ∈ all, c + h1.sizeOf c ≤ sto ∨ sto + h1.survivor_max_size ≤ c
  off_t : ∀ c ∈ all, c + h1.sizeOf c ≤ h1.tenured_ptr + h1.tenured_size ∨
    h1.tenured_ptr + h1.tenured_max_size ≤ c
  apart : ∀ c ∈ all, ∀ d ∈ all, c ≠ d → c + h1.sizeOf c ≤ d ∨ d + h1.sizeOf d ≤ c

/-- The state of the scans of `minor_gc`: `h1` is the heap after the mark phase, `h` the
current heap, `n` the frontier of the survivor target space and `mv` the chunks moved so
far, each with the address of its copy. -/
structure Scan (h1 : Heap) (sto : Nat) (h : Heap) (n : Nat) (mv : List (Nat × Nat)) : Prop where
  same : ScanSame h1 h
  n_le : n ≤ h1.survivor_max_size
  t_ge : h1.tenured_size ≤ h.tenured_size
  t_le : h.tenured_size ≤ h1.tenured_max_size
  frame : ∀ a k, h1.heap ≤ a → (a + k ≤ sto ∨ sto + n ≤ a) →
    (a + k ≤ h1.tenured_ptr + h1.tenured_size ∨ h1.tenured_ptr + h.tenured_size ≤ a) →
    (∀ p ∈ mv, a + k ≤ p.1 + 8 ∨ p.1 + 12 ≤ a) →
    h.rd a k = h1.rd a k
  moved : ∀ p ∈ mv,
    ((sto ≤ p.2 ∧ p.2 + h1.sizeOf p.1 ≤ sto + n) ∨
      (h1.tenured_ptr + h1.tenured_size ≤ p.2 ∧
        p.2 + h1.sizeOf p.1 ≤ h1.tenured_ptr + h.tenured_size)) ∧
    h.addrOf p.1 + h1.heap = p.2 ∧ h.markOf p.2 = 0 ∧
    ∀ o k, 2 ≤ o → o + k ≤ h1.sizeOf p.1 → h.rd (p.2 + o) k = h1.rd (p.1 + o) k
  apart : ∀ p ∈ mv, ∀ q ∈ mv, p.1 ≠ q.1 →
    p.2 + h1.sizeOf p.1 ≤ q.2 ∨ q.2 + h1.sizeOf q.1 ≤ p.2

/-- One move of the scans of `minor_gc`: the heap `g` comes from `h` by copying the
chunk `c` to `d`, the frontier of the survivor target space (then `n` grows to `n'`) or
of Tenured, with the age `a` in the copy and the forward offset in the source. -/
structure Move (h1 : Heap) (sto : Nat) (h : Heap) (n c d a : Nat) (g : Heap) (n' : Nat) :
    Prop where
  same : ScanSame h g
  dst : (d = sto + n ∧ n' = n + h1.sizeOf c ∧ n' ≤ h1.survivor_max_size ∧
          g.tenured_size = h.tenured_size) ∨
        (d = h1.tenured_ptr + h.tenured_size ∧ n' = n ∧
          g.tenured_size = h.tenured_size + h1.sizeOf c ∧
          g.tenured_size ≤ h1.tenured_max_size)
  body : ∀ o k, 2 ≤ o → o + k ≤ h1.sizeOf c → g.rd (d + o) k = h.rd (c + o) k
  mark : g.rd d 1 = 0
  age : g.rd (d + 1) 1 = a
  addr : g.rd (c + 8) 4 + h1.heap = d
  frame : ∀ x k, h1.heap ≤ x → (x + k ≤ d ∨ d + h1.sizeOf c ≤ x) →
    (x + k ≤ c + 8 ∨ c + 12 ≤ x) → g.rd x k = h.rd x k

/-- Where the copies lie: the copies `sv` tile the used part of the survivor target
space, the copies `tn` tile the part of Tenured used since the scans began, and the copy
of the chunk `c` has the age `ag c`. -/
structure Placed (h1 : Heap) (sto : Nat) (ag : Nat → Nat) (h : Heap) (n : Nat)
    (mv : List (Nat × Nat)) (sv tn : List Nat) : Prop where
  age : ∀ p ∈ mv, h.ageOf p.2 = ag p.1
  size : ∀ p ∈ mv, h.sizeOf p.2 = h1.sizeOf p.1
  tile_s : Tiling h sto (sto + n) sv
  tile_t : Tiling h (h1.tenured_ptr + h1.tenured_size) (h1.tenured_ptr + h.tenured_size) tn
  copies : ∀ p ∈ mv, p.2 ∈ sv ∨ p.2 ∈ tn
  origin : ∀ d, d ∈ sv ∨ d ∈ tn → ∃ p ∈ mv, p.2 = d

/-- The address of the chunk `c` after the collection: where its forward offset points,
or `c` itself when the offset is 0. -/
def Heap.fwd (h : Heap) (c : Nat) : Nat :=
  if h.addrOf c = 0 then c else h.heap + h.addrOf c

/-- The reference `r` after the collection: nil stays nil, any other reference is
rewritten as `fix_minor` does it, from the forward offset of the chunk it points at. -/
def Heap.fwdRef (h : Heap) (r : Nat) : Nat :=
  if r = 0 then 0 else h.fwd (r - 12) + 12

/-- The content of a slot. -/
def Heap.slotVal (h : Heap) : Slot → Nat
  | .root => h.root
  | .cell p => h.rd p 8

/-- The heap `h3` after the two scans, seen from the reference rewrite: `L` are the
live chunks at their old addresses, all marked; the object of `x` is read at `h3.fwd x`
and has the count and the references `x` had in `h0`; headers of old chunks and
objects at their new addresses do not overlap. -/
structure FixWorld (h0 h3 : Heap) (L : List Nat) : Prop where
  wide : h3.heap + h3.heap_max_size < 18446744073709551616
  arena : ∀ x ∈ L, h3.heap ≤ x ∧ x + 12 ≤ h3.heap + h3.heap_max_size ∧ h3.heap ≤ h3.fwd x ∧
    h3.fwd x + h0.sizeOf x ≤ h3.heap + h3.heap_max_size
  fits : ∀ x ∈ L, 20 + 8 * h0.countOf x ≤ h0.sizeOf x
  count : ∀ x ∈ L, h3.countOf (h3.fwd x) = h0.countOf x
  refs : ∀ x ∈ L, ∀ i < h0.countOf x, h3.refOf (h3.fwd x) i = h0.refOf x i
  closed : ∀ x ∈ L, ∀ i < h0.countOf x, h0.refOf x i ≠ 0 → ∃ e ∈ L, h0.refOf x i = e + 12
  marks : ∀ x ∈ L, h3.markOf x = 1
  sep : ∀ x ∈ L, ∀ y ∈ L, x ≠ y → x + 12 ≤ y ∨ y + 12 ≤ x
  head : ∀ x ∈ L, ∀ y ∈ L, x ≤ h3.fwd y ∨ h3.fwd y + h0.sizeOf y ≤ x
  apart : ∀ x ∈ L, ∀ y ∈ L, x ≠ y →
    h3.fwd x + h0.sizeOf x ≤ h3.fwd y ∨ h3.fwd y + h0.sizeOf y ≤ h3.fwd x

/-- The heap `h` differs from `h3` at most in the arena and in the root. -/
structure Kept (h3 h : Heap) : Prop where
  eden_max_size : h.eden_max_size = h3.eden_max_size
  survivor_max_size : h.survivor_max_size = h3.survivor_max_size
  tenured_max_size : h.tenured_max_size = h3.tenured_max_size
  perm_max_size : h.perm_max_size = h3.perm_max_size
  heap_max_size : h.heap_max_size = h3.heap_max_size
  age_cycles : h.age_cycles = h3.age_cycles
  gc_delay : h.gc_delay = h3.gc_delay
  eden_size : h.eden_size = h3.eden_size
  survivor_size : h.survivor_size = h3.survivor_size
  tenured_size : h.tenured_size = h3.tenured_size
  perm_size : h.perm_size = h3.perm_size
  heap_size : h.heap_size = h3.heap_size
  survivor : h.survivor = h3.survivor
  heap : h.heap = h3.heap
  gc : h.gc = h3.gc
  eden_ptr : h.eden_ptr = h3.eden_ptr
  s_ptr0 : h.s_ptr0 = h3.s_ptr0
  s_ptr1 : h.s_ptr1 = h3.s_ptr1
  tenured_ptr : h.tenured_ptr = h3.tenured_ptr
  perm_ptr : h.perm_ptr = h3.perm_ptr

/-- The heap `h` during the reference rewrite: it comes from `h3` by clearing marks of
chunks of `L` and by rewriting reference fields of their objects and the root. -/
structure Fixing (h0 h3 : Heap) (L : List Nat) (h : Heap) : Prop where
  same : Kept h3 h
  frame : ∀ a k, h3.heap ≤ a → (∀ x ∈ L, a + k ≤ x ∨ x + 1 ≤ a) →
    (∀ x ∈ L, a + k ≤ h3.fwd x + 20 ∨ h3.fwd x + 20 + 8 * h0.countOf x ≤ a) →
    h.rd a k = h3.rd a k
  bit : ∀ x ∈ L, h.markOf x = 0 ∨ h.markOf x = 1
  slot : ∀ x ∈ L, ∀ i < h0.countOf x, h.refOf (h3.fwd x) i = h0.refOf x i ∨
    h.refOf (h3.fwd x) i = h3.fwdRef (h0.refOf x i)
  root : h.root = h3.root ∨ h.root = h3.fwdRef h3.root
  fresh : ∀ x ∈ L, h.markOf x = 1 → ∀ i, i < h0.countOf x →
    h.refOf (h3.fwd x) i = h0.refOf x i

/-- The number of chunks of `L` whose mark byte is 1. -/
def pending (h : Heap) (L : List Nat) : Nat := L.countP (fun c => decide (h.markOf c = 1))

/-- Marks only go from 1 to 0 between `h` and `h'`. -/
def Shrinks (L : List Nat) (h h' : Heap) : Prop := ∀ c ∈ L, h.markOf c = 0 → h'.markOf c = 0

/-- The slot `s`, the root or a reference field of a visited object, holds a reference
to the chunk `d` that was not rewritten yet. -/
def FixSlot (h0 h3 : Heap) (L : List Nat) (h : Heap) (s : Slot) (d : Nat) : Prop :=
  (s = .root ∧ h.root = d + 12 ∧ h3.root = d + 12) ∨
    ∃ x ∈ L, ∃ i, i < h0.countOf x ∧ s = .cell (h3.fwd x + 20 + 8 * i) ∧
      h.refOf (h3.fwd x) i = d + 12 ∧ h0.refOf x i = d + 12 ∧ h.markOf x = 0

/-- Every reference field of the object of `x` was rewritten, and every chunk it points
at was visited. -/
def Fixed (h0 h3 : Heap) (L : List Nat) (h : Heap) (x : Nat) : Prop :=
  ∀ i, i < h0.countOf x → h.refOf (h3.fwd x) i = h3.fwdRef (h0.refOf x i) ∧
    (h0.refOf x i ≠ 0 → ∃ e ∈ L, h0.refOf x i = e + 12 ∧ h.markOf e = 0)

/-- What a call of `fix_minor` with budget `fuel` does on a slot that points at `d`. -/
def FixSpec (h0 h3 : Heap) (L : List Nat) (fuel : Nat) : Prop :=
  ∀ (h : Heap) (s : Slot) (d : Nat), Fixing h0 h3 L h → d ∈ L → FixSlot h0 h3 L h s d →
    pending h L < fuel →
    ∃ h', fix_minor object_visitor fuel h s = .ok h' ∧ Fixing h0 h3 L h' ∧ Shrinks L h h' ∧
      h'.markOf d = 0 ∧ h'.slotVal s = h3.fwd d + 12 ∧
      (∀ x ∈ L, h.markOf x = 0 → ∀ i, i < h0.countOf x → s ≠ .cell (h3.fwd x + 20 + 8 * i) →
        h'.refOf (h3.fwd x) i = h.refOf (h3.fwd x) i) ∧
      (s ≠ .root → h'.root = h.root) ∧
      ∀ x ∈ L, h.markOf x = 1 → h'.markOf x = 0 → Fixed h0 h3 L h' x

/-- A heap between two allocations, as the collector expects it: the layout of
`heap_init` with a non-empty Eden inside the 64-bit address space; the chunks `es`,
`ss`, `ts` and `ps` tile the used parts of Eden, the active survivor space, Tenured and
Permanent; the chunks `cs` among them hold objects of `test.c` closed under references,
one of them the root; every chunk has mark 0, and the chunks of `cs` in Tenured and
Permanent have forward offset 0. -/
structure Heap.WellFormed (h : Heap) (es ss ts ps cs : List Nat) : Prop where
  valid : h.Valid
  eden_pos : 0 < h.eden_max_size
  wide : h.heap + h.heap_max_size < 18446744073709551616
  eden : Tiling h h.eden_ptr (h.eden_ptr + h.eden_size) es
  survivor : Tiling h h.sfrom (h.sfrom + h.survivor_size) ss
  tenured : Tiling h h.tenured_ptr (h.tenured_ptr + h.tenured_size) ts
  perm : Tiling h h.perm_ptr (h.perm_ptr + h.perm_size) ps
  objects : h.Objects cs
  sub : ∀ c ∈ cs, c ∈ es ++ ss ++ ts ++ ps
  root : ∃ r ∈ cs, h.root = r + 12
  marks : ∀ c ∈ es ++ ss ++ ts ++ ps, h.markOf c = 0
  addrs : ∀ c ∈ ts ++ ps, c ∈ cs → h.addrOf c = 0

instance (h : Heap) (es ss ts ps cs : List Nat) : Decidable (h.WellFormed es ss ts ps cs) :=
  decidable_of_iff
    (h.Valid ∧ 0 < h.eden_max_size ∧ h.heap + h.heap_max_size < 18446744073709551616 ∧
      Tiling h h.eden_ptr (h.eden_ptr + h.eden_size) es ∧
      Tiling h h.sfrom (h.sfrom + h.survivor_size) ss ∧
      Tiling h h.tenured_ptr (h.tenured_ptr + h.tenured_size) ts ∧
      Tiling h h.perm_ptr (h.perm_ptr + h.perm_size) ps ∧
      h.Objects cs ∧ (∀ c ∈ cs, c ∈ es ++ ss ++ ts ++ ps) ∧ (∃ r ∈ cs, h.root = r + 12) ∧
      (∀ c ∈ es ++ ss ++ ts ++ ps, h.markOf c = 0) ∧
      (∀ c ∈ ts ++ ps, c ∈ cs → h.addrOf c = 0))
    ⟨fun ⟨a, b, c, d, e, f, g, i, j, k, l, m⟩ => ⟨a, b, c, d, e, f, g, i, j, k, l, m⟩,
     fun ⟨a, b, c, d, e, f, g, i, j, k, l, m⟩ => ⟨a, b, c, d, e, f, g, i, j, k, l, m⟩⟩

/-- The age the collection gives the copy of the chunk `c`: one more than before, at
most 255, for a chunk of the active survivor space `ss`, and 1 for a chunk of Eden. -/
def new_age (h : Heap) (ss : List Nat) (c : Nat) : Nat :=
  if c ∈ ss then (if h.ageOf c = 255 then 255 else h.ageOf c + 1) else 1

/-- The chunks of `cs` that the mark phase marked. -/
def live_list (h1 : Heap) (cs : List Nat) : List Nat :=
  cs.filter (fun c => decide (h1.markOf c = 1))

/-- The state of a minor collection before the reference rewrite: `h` is the
well-formed heap it started from, `h1` the heap after the mark phase, `h3` the heap
after the two scans, which moved the chunks `mv` and left `s` bytes in the survivor
target space. -/
structure Scanned (h h1 h3 : Heap) (es ss ts ps cs : List Nat) (s : Nat)
    (mv : List (Nat × Nat)) : Prop where
  wf : h.WellFormed es ss ts ps cs
  kept : Kept h h1
  root_eq : h1.root = h.root
  frame1 : ∀ c ∈ es ++ ss ++ ts ++ ps, ∀ o k, 1 ≤ o → o + k ≤ h.sizeOf c →
    h1.rd (c + o) k = h.rd (c + o) k
  bit : ∀ c ∈ es ++ ss ++ ts ++ ps, h1.markOf c = 0 ∨ h1.markOf c = 1
  live : ∀ c ∈ es ++ ss ++ ts ++ ps, h1.markOf c = 1 → c ∈ cs ∧ Closed h cs h1 c
  src : Sources h1 h1.sto (es ++ ss ++ ts ++ ps)
  scan : Scan h1 h1.sto h3 s mv
  origin : ∀ p ∈ mv, p.1 ∈ es ++ ss ∧ h1.markOf p.1 ≠ 0
  complete : ∀ c ∈ es ++ ss, h1.markOf c ≠ 0 → ∃ d, (c, d) ∈ mv

/-- The heap `h'` has the configuration and the region pointers of `h`. -/
structure SameConfig (h h' : Heap) : Prop where
  eden_max_size : h'.eden_max_size = h.eden_max_size
  survivor_max_size : h'.survivor_max_size = h.survivor_max_size
  tenured_max_size : h'.tenured_max_size = h.tenured_max_size
  perm_max_size : h'.perm_max_size = h.perm_max_size
  heap_max_size : h'.heap_max_size = h.heap_max_size
  age_cycles : h'.age_cycles = h.age_cycles
  gc_delay : h'.gc_delay = h.gc_delay
  perm_size : h'.perm_size = h.perm_size
  heap : h'.heap = h.heap
  eden_ptr : h'.eden_ptr = h.eden_ptr
  s_ptr0 : h'.s_ptr0 = h.s_ptr0
  s_ptr1 : h'.s_ptr1 = h.s_ptr1
  tenured_ptr : h'.tenured_ptr = h.tenured_ptr
  perm_ptr : h'.perm_ptr = h.perm_ptr

/-- What a minor collection of the well-formed heap `h` leaves in `h'`; `h1` is the heap
after the mark phase, `mv` pairs every chunk that was moved with the address of its
copy, `sv` are the copies in the survivor space and `tn` the copies in Tenured. -/
structure Collected (h h1 h' : Heap) (es ss ts ps cs : List Nat) (mv : List (Nat × Nat))
    (sv tn : List Nat) : Prop where
  config : SameConfig h h'
  flip : h'.survivor = h.survivor ^^^ 1
  eden_size : h'.eden_size = 0
  plan : eden_plan h1 es (survivor_plan h1 ss h.tenured_size 0).2
    (survivor_plan h1 ss h.tenured_size 0).1 = some (h'.survivor_size, h'.tenured_size)
  total : h'.heap_size = h'.used_sum
  room_s : h'.survivor_size ≤ h.survivor_max_size
  grow_t : h.tenured_size ≤ h'.tenured_size
  room_t : h'.tenured_size ≤ h.tenured_max_size
  moved : ∀ p ∈ mv, p.1 ∈ es ++ ss ∧ p.1 ∈ cs ∧ h.Reach p.1
  complete : ∀ c ∈ es ++ ss, c ∈ cs → h.Reach c → ∃ d, (c, d) ∈ mv
  forward : ∀ p ∈ mv, h'.addrOf p.1 ≠ 0 ∧ h'.heap + h'.addrOf p.1 = p.2
  stay : ∀ c ∈ ts ++ ps, c ∈ cs → h.Reach c → h'.addrOf c = 0
  copy : ∀ p ∈ mv, h'.markOf p.2 = 0 ∧ h'.ageOf p.2 = new_age h ss p.1 ∧
    h'.sizeOf p.2 = h.sizeOf p.1
  place : ∀ p ∈ mv, p.2 ∈ sv ∨ p.2 ∈ tn
  origin : ∀ d, d ∈ sv ∨ d ∈ tn → ∃ p ∈ mv, p.2 = d
  tile_s : Tiling h' h'.sfrom (h'.sfrom + h'.survivor_size) sv
  tile_t : Tiling h' (h.tenured_ptr + h.tenured_size) (h.tenured_ptr + h'.tenured_size) tn
  payload : ∀ x ∈ cs, h.Reach x → ∀ o k, 12 ≤ o → o + k ≤ h.sizeOf x →
    (o + k ≤ 20 ∨ 20 + 8 * h.countOf x ≤ o) → h'.rd (h'.fwd x + o) k = h.rd (x + o) k
  refs : ∀ x ∈ cs, h.Reach x → ∀ i, i < h.countOf x →
    h'.refOf (h'.fwd x) i = h'.fwdRef (h.refOf x i)
  root : h'.root = h'.fwdRef h.root
  marks : ∀ c ∈ es ++ ss ++ ts ++ ps, h'.markOf c = 0

/-- The second scan of a minor collection of `h` (Eden chunks `es`, Survivor-From chunks
`ss`) does not reach its fallback: after the mark phase, every marked chunk of Eden in
turn fits in the survivor target space or in Tenured. -/
def no_fallback (fuel : Nat) (h : Heap) (es ss : List Nat) : Bool :=
  match mark_chunk object_visitor fuel h .root with
  | .ok h1 =>
    (eden_plan h1 es (survivor_plan h1 ss h.tenured_size 0).2
      (survivor_plan h1 ss h.tenured_size 0).1).isSome
  | .error _ => false

/-- The heap that `minor_gc` returns with the visitor of `test.c` (`h` itself when it
does not return). -/
def collected (fuel : Nat) (h : Heap) : Heap :=
  match minor_gc object_visitor fuel h with
  | .ok g => g
  | .error _ => h

/-- The heap of `test.c` after a node A and a node B were allocated, B made to point
at A and installed as the root (chunks at 4096 and 4124). -/
def pair_heap : Heap :=
  match (do
    let (a, h) ← object_alloc object_visitor 0 (test_heap 0) 1 1
    let (b, h) ← object_alloc object_visitor 0 h 2 1
    let h ← object_set h b 0 a
    pure { h with root := b } : M Heap) with
  | .ok h => h
  | .error _ => test_heap 0

/-- The heap `pair_heap` after a minor collection (the copies of A and B are at 5632 and
5660, in the survivor space 1) and the allocation of a node C in Eden (chunk at 4096)
that points at B and is the root. -/
def aged_heap : Heap :=
  match (do
    let h ← minor_gc object_visitor 4 pair_heap
    let (c, h) ← object_alloc object_visitor 0 h 3 1
    let h ← object_set h c 0 h.root
    pure { h with root := c } : M Heap) with
  | .ok h => h
  | .error _ => test_heap 0

/-- The small heap of `short_run` (Eden 100 bytes, arena at 1000) after three nodes of 28
bytes were allocated and the first installed as the root: a fourth node does not fit in
Eden. -/
def full_heap : Heap :=
  match (do
    let h ← heap_init (config 100 58 2048 64 2 3) 1000 0
    run object_visitor [.alloc 100 16, .root 1012, .alloc 100 16, .alloc 100 16] h : M Heap) with
  | .ok h => h
  | .error _ => test_heap 0

/-- Bytes that `malloc` may hand to `heap_init` for an arena of 2272 bytes at 1000: zero
but for the bytes at offset 224 (where the forward field of the first chunk of Tenured
will lie), which read 2264, and for the bytes at 2280 and 2284 (in Perm), which read 1 and
1232. -/
def torn_mem : Nat := poke (poke (poke 0 224 4 2264) 2280 4 1) 2284 8 1232

/-- A host on the heap `config 100 58 2048 64 2 3`: a large object L (chunk of 32 bytes,
served from Tenured at 1216) becomes the root, three small objects fill Eden, and a
fourth one runs a minor collection. -/
def torn_run : List Action :=
  [.alloc 100 20, .root 1228, .alloc 100 16, .alloc 100 16, .alloc 100 16, .alloc 100 16]

/-- The heap after `torn_run` without its last allocation. -/
def torn_before : Heap :=
  match (heap_init (config 100 58 2048 64 2 3) 1000 torn_mem >>=
    run object_visitor (torn_run.take 5)) with
  | .ok h => h
  | .error _ => test_heap 0

/-- The heap after `torn_run`. -/
def torn_heap : Heap :=
  match (heap_init (config 100 58 2048 64 2 3) 1000 torn_mem >>= run object_visitor torn_run) with
  | .ok h => h
  | .error _ => test_heap 0

/-- Bytes that `malloc` may hand to `heap_init` for an arena of 2772 bytes at 1000: zero
but for the bytes at offset 668 (where the forward field of the first chunk of Tenured
will lie), which read 2708, and for bytes in Perm that read as an object with the three
references 1417, 1412 and 1392. -/
def overfull_mem : Nat :=
  poke (poke (poke (poke (poke 0 668 4 2708) 2724 4 3) 2728 8 1417) 2736 8 1412) 2744 8 1392

/-- A host on the heap `config 100 280 2048 64 2 3`: a large object L (chunk of 52 bytes,
served from Tenured at 1660) becomes the root; two small objects (chunks of 20 bytes at
1000 and 1020) are stored in the two reference fields of L; three more small objects, the
last of which runs the first minor collection; and four more, the last of which runs the
second one. -/
def overfull_run : List Action :=
  [.alloc 100 40, .root 1672, .alloc 100 8, .alloc 100 8, .write 1676 4 2,
    .write 1680 8 1012, .write 1688 8 1032, .alloc 100 8, .alloc 100 8, .alloc 100 8,
    .alloc 100 8, .alloc 100 8, .alloc 100 8, .alloc 100 8]

/-- The heap after `overfull_run` without its last allocation. -/
def overfull_before : Heap :=
  match (heap_init (config 100 280 2048 64 2 3) 1000 overfull_mem >>=
    run object_visitor (overfull_run.take 13)) with
  | .ok h => h
  | .error _ => test_heap 0

/-- The heap after `overfull_run`. -/
def overfull_heap : Heap :=
  match (heap_init (config 100 280 2048 64 2 3) 1000 overfull_mem >>=
    run object_visitor overfull_run) with
  | .ok h => h
  | .error _ => test_heap 0

/-- Bytes that `malloc` may hand to `heap_init` for an arena of 2772 bytes at 1000: zero
but for the bytes at offset 668 (where the forward field of the first chunk of Tenured
will lie), which read 2708, and for bytes in Perm that read as an object with the one
reference 1393. -/
def unaged_mem : Nat := poke (poke (poke 0 668 4 2708) 2724 4 1) 2728 8 1393

/-- A host on the heap `config 100 280 2048 64 2 3`: a large object L (chunk of 52 bytes,
served from Tenured at 1660) becomes the root; a small object (chunk of 20 bytes at 1000)
is stored in the reference field of L; three more small objects fill Eden. -/
def unaged_run : List Action :=
  [.alloc 100 40, .root 1672, .alloc 100 8, .write 1676 4 1, .write 1680 8 1012,
    .alloc 100 8, .alloc 100 8, .alloc 100 8]

/-- The heap after `unaged_run`. -/
def unaged_before : Heap :=
  match (heap_init (config 100 280 2048 64 2 3) 1000 unaged_mem >>=
    run object_visitor unaged_run) with
  | .ok h => h
  | .error _ => test_heap 0

/-- Bytes that `malloc` may hand to `heap_init` for an arena of 2328 bytes at 1000: zero
but for the bytes at offset 224 (where the forward field of the first chunk of Tenured
will lie), which read 2264, and for bytes in Perm that read as an object with the one
reference 20000. -/
def wild_mem : Nat := poke (poke (poke 0 224 4 2264) 2280 4 1) 2284 8 20000

/-- A host on the heap `config 100 58 2048 64 2 3`: a large object (chunk of 32 bytes,
served from Tenured at 1216) becomes the root and three small objects fill Eden. -/
def wild_run : List Action :=
  [.alloc 100 20, .root 1228, .alloc 100 16, .alloc 100 16, .alloc 100 16]

/-- The heap after `wild_run`. -/
def wild_before : Heap :=
  match (heap_init (config 100 58 2048 64 2 3) 1000 wild_mem >>= run object_visitor wild_run) with
  | .ok h => h
  | .error _ => test_heap 0
/-! # Theorems -/

/-! ## Arithmetic of the arena image -/

theorem pow256_pos (n : Nat) : 0 < 256 ^ n := Nat.pow_pos (by norm_num)

theorem two_pow_eight_mul (o : Nat) : 2 ^ (8 * o) = 256 ^ o := by
  rw [Nat.pow_mul]

/-- The value of `peek` in terms of division. -/
theorem peek_eq (m o n : Nat) : peek m o n = m / 256 ^ o % 256 ^ n := by
  unfold peek
  rw [Nat.shiftRight_eq_div_pow, two_pow_eight_mul]

/-- The value of `poke` in terms of division. -/
theorem poke_eq (m o n v : Nat) :
    poke m o n v = m % 256 ^ o + 256 ^ o * (v % 256 ^ n + 256 ^ n * (m / 256 ^ (o + n))) := by
  unfold poke
  rw [Nat.shiftLeft_eq, Nat.shiftLeft_eq, Nat.shiftLeft_eq, Nat.shiftRight_eq_div_pow, Nat.one_mul,
    Nat.and_pow_two_sub_one_eq_mod, two_pow_eight_mul, two_pow_eight_mul, two_pow_eight_mul]
  ring

theorem peek_lt (m o n : Nat) : peek m o n < 256 ^ n := Nat.mod_lt _ (pow256_pos n)

/-- The quotient of a poked image by `256 ^ o`. -/
theorem poke_div (m o n v : Nat) :
    poke m o n v / 256 ^ o = v % 256 ^ n + 256 ^ n * (m / 256 ^ (o + n)) := by
  rw [poke_eq, Nat.add_mul_div_left _ _ (pow256_pos o),
    Nat.div_eq_of_lt (Nat.mod_lt _ (pow256_pos o)), Nat.zero_add]

theorem poke_mod (m o n v : Nat) : poke m o n v % 256 ^ o = m % 256 ^ o := by
  rw [poke_eq, Nat.add_mul_mod_self_left, Nat.mod_mod]

theorem peek_poke_same (m o n v : Nat) : peek (poke m o n v) o n = v % 256 ^ n := by
  simp only [peek_eq]
  rw [poke_div, Nat.add_mul_mod_self_left, Nat.mod_mod]

theorem div_mod_eq (x a b : Nat) : x / a % b = x % (a * b) / a :=
  (Nat.mod_mul_right_div_self x a b).symm

theorem peek_poke_below (m o n v o' n' : Nat) (hle : o' + n' ≤ o) :
    peek (poke m o n v) o' n' = peek m o' n' := by
  simp only [peek_eq]
  rw [div_mod_eq, div_mod_eq m, ← Nat.pow_add]
  have hd : 256 ^ (o' + n') ∣ 256 ^ o := Nat.pow_dvd_pow 256 hle
  rw [← Nat.mod_mod_of_dvd (poke m o n v) hd, poke_mod, Nat.mod_mod_of_dvd m hd]

theorem peek_poke_above (m o n v o' n' : Nat) (hle : o + n ≤ o') :
    peek (poke m o n v) o' n' = peek m o' n' := by
  simp only [peek_eq]
  obtain ⟨d, rfl⟩ := Nat.exists_eq_add_of_le hle
  have h1 : poke m o n v / 256 ^ (o + n + d) = m / 256 ^ (o + n + d) := by
    rw [Nat.pow_add, Nat.pow_add, ← Nat.div_div_eq_div_mul, ← Nat.div_div_eq_div_mul, poke_div,
      Nat.add_mul_div_left _ _ (pow256_pos n), Nat.div_eq_of_lt (Nat.mod_lt _ (pow256_pos n)),
      Nat.zero_add, Nat.div_div_eq_div_mul m, ← Nat.pow_add, Nat.pow_add, Nat.pow_add]
  rw [h1]

theorem peek_poke_inside (m o n v i k : Nat) (hle : i + k ≤ n) :
    peek (poke m o n v) (o + i) k = peek v i k := by
  simp only [peek_eq]
  rw [Nat.pow_add, ← Nat.div_div_eq_div_mul, poke_div, div_mod_eq, div_mod_eq v, ← Nat.pow_add]
  have hd : 256 ^ (i + k) ∣ 256 ^ n := Nat.pow_dvd_pow 256 hle
  obtain ⟨c, hc⟩ := hd
  rw [hc, Nat.mul_assoc, Nat.add_mul_mod_self_left, ← hc, Nat.mod_mod_of_dvd v ⟨c, hc⟩]

theorem peek_peek (m o n i k : Nat) (hle : i + k ≤ n) :
    peek (peek m o n) i k = peek m (o + i) k := by
  simp only [peek_eq]
  rw [div_mod_eq _ _ (256 ^ k), ← Nat.pow_add, Nat.mod_mod_of_dvd _ (Nat.pow_dvd_pow 256 hle),
    Nat.pow_add 256 i k, ← div_mod_eq, Nat.div_div_eq_div_mul, ← Nat.pow_add]

theorem peek_zero (o n : Nat) : peek 0 o n = 0 := by simp [peek_eq]


/-! ## Reading and writing the arena -/

@[simp] theorem withMem_eden_max_size (h : Heap) (m : Nat) : (h.withMem m).eden_max_size = h.eden_max_size := rfl
@[simp] theorem withMem_survivor_max_size (h : Heap) (m : Nat) : (h.withMem m).survivor_max_size = h.survivor_max_size := rfl
@[simp] theorem withMem_tenured_max_size (h : Heap) (m : Nat) : (h.withMem m).tenured_max_size = h.tenured_max_size := rfl
@[simp] theorem withMem_perm_max_size (h : Heap) (m : Nat) : (h.withMem m).perm_max_size = h.perm_max_size := rfl
@[simp] theorem withMem_heap_max_size (h : Heap) (m : Nat) : (h.withMem m).heap_max_size = h.heap_max_size := rfl
@[simp] theorem withMem_age_cycles (h : Heap) (m : Nat) : (h.withMem m).age_cycles = h.age_cycles := rfl
@[simp] theorem withMem_gc_delay (h : Heap) (m : Nat) : (h.withMem m).gc_delay = h.gc_delay := rfl
@[simp] theorem withMem_eden_size (h : Heap) (m : Nat) : (h.withMem m).eden_size = h.eden_size := rfl
@[simp] theorem withMem_survivor_size (h : Heap) (m : Nat) : (h.withMem m).survivor_size = h.survivor_size := rfl
@[simp] theorem withMem_tenured_size (h : Heap) (m : Nat) : (h.withMem m).tenured_size = h.tenured_size := rfl
@[simp] theorem withMem_perm_size (h : Heap) (m : Nat) : (h.withMem m).perm_size = h.perm_size := rfl
@[simp] theorem withMem_heap_size (h : Heap) (m : Nat) : (h.withMem m).heap_size = h.heap_size := rfl
@[simp] theorem withMem_survivor (h : Heap) (m : Nat) : (h.withMem m).survivor = h.survivor := rfl
@[simp] theorem withMem_heap (h : Heap) (m : Nat) : (h.withMem m).heap = h.heap := rfl
@[simp] theorem withMem_gc (h : Heap) (m : Nat) : (h.withMem m).gc = h.gc := rfl
@[simp] theorem withMem_eden_ptr (h : Heap) (m : Nat) : (h.withMem m).eden_ptr = h.eden_ptr := rfl
@[simp] theorem withMem_s_ptr0 (h : Heap) (m : Nat) : (h.withMem m).s_ptr0 = h.s_ptr0 := rfl
@[simp] theorem withMem_s_ptr1 (h : Heap) (m : Nat) : (h.withMem m).s_ptr1 = h.s_ptr1 := rfl
@[simp] theorem withMem_tenured_ptr (h : Heap) (m : Nat) : (h.withMem m).tenured_ptr = h.tenured_ptr := rfl
@[simp] theorem withMem_perm_ptr (h : Heap) (m : Nat) : (h.withMem m).perm_ptr = h.perm_ptr := rfl
@[simp] theorem withMem_root (h : Heap) (m : Nat) : (h.withMem m).root = h.root := rfl
@[simp] theorem withMem_mem (h : Heap) (m : Nat) : (h.withMem m).mem = m := rfl
@[simp] theorem withMem_withMem (h : Heap) (m m' : Nat) : (h.withMem m).withMem m' = h.withMem m' := rfl
@[simp] theorem withMem_self (h : Heap) : h.withMem h.mem = h := rfl

@[simp] theorem withMem_inArena (h : Heap) (m p n : Nat) :
    (h.withMem m).inArena p n ↔ h.inArena p n := Iff.rfl

theorem store8_ok {h h' : Heap} {p v : Nat} :
    h.store8 p v = .ok h' ↔ h.inArena p 1 ∧ h' = h.withMem (poke h.mem (p - h.heap) 1 v) := by
  unfold Heap.store8; split <;> simp [*, eq_comm]

theorem store32_ok {h h' : Heap} {p v : Nat} :
    h.store32 p v = .ok h' ↔ h.inArena p 4 ∧ h' = h.withMem (poke h.mem (p - h.heap) 4 v) := by
  unfold Heap.store32; split <;> simp [*, eq_comm]

theorem store64_ok {h h' : Heap} {p v : Nat} :
    h.store64 p v = .ok h' ↔ h.inArena p 8 ∧ h' = h.withMem (poke h.mem (p - h.heap) 8 v) := by
  unfold Heap.store64; split <;> simp [*, eq_comm]

theorem memset0_ok {h h' : Heap} {p n : Nat} :
    h.memset0 p n = .ok h' ↔ h.inArena p n ∧ h' = h.withMem (poke h.mem (p - h.heap) n 0) := by
  unfold Heap.memset0; split <;> simp [*, eq_comm]

theorem memcpy_ok {h h' : Heap} {dst src n : Nat} :
    h.memcpy dst src n = .ok h' ↔
      (h.inArena dst n ∧ h.inArena src n ∧ (n = 0 ∨ dst + n ≤ src ∨ src + n ≤ dst)) ∧
        h' = h.withMem (poke h.mem (dst - h.heap) n (peek h.mem (src - h.heap) n)) := by
  unfold Heap.memcpy; split <;> simp [*, eq_comm]

theorem load8_ok {h : Heap} {p v : Nat} :
    h.load8 p = .ok v ↔ h.inArena p 1 ∧ v = peek h.mem (p - h.heap) 1 := by
  unfold Heap.load8; split <;> simp [*, eq_comm]

theorem load32_ok {h : Heap} {p v : Nat} :
    h.load32 p = .ok v ↔ h.inArena p 4 ∧ v = peek h.mem (p - h.heap) 4 := by
  unfold Heap.load32; split <;> simp [*, eq_comm]

theorem load64_ok {h : Heap} {p v : Nat} :
    h.load64 p = .ok v ↔ h.inArena p 8 ∧ v = peek h.mem (p - h.heap) 8 := by
  unfold Heap.load64; split <;> simp [*, eq_comm]

/-! ## The allocator -/

theorem bind_ok_iff {α β : Type} (x : M α) (f : α → M β) (b : β) :
    (x >>= f) = .ok b ↔ ∃ a, x = .ok a ∧ f a = .ok b := by
  cases x with
  | error e => simp [bind, Except.bind]
  | ok a => simp [bind, Except.bind]

theorem pure_ok_iff {α : Type} (a b : α) : (pure a : M α) = .ok b ↔ a = b := by
  simp [pure, Except.pure]

theorem major_gc_faults (vis : ObjVisitor) (fuel : Nat) (h : Heap) :
    ∃ e, major_gc vis fuel h = .error e := by
  unfold major_gc
  cases hm : mark_chunk vis fuel h .root with
  | error e => exact ⟨e, rfl⟩
  | ok h1 => exact ⟨.assertion, rfl⟩

theorem major_gc_ne_ok (vis : ObjVisitor) (fuel : Nat) (h h' : Heap) :
    major_gc vis fuel h ≠ .ok h' := by
  obtain ⟨e, he⟩ := major_gc_faults vis fuel h
  simp [he]

theorem chunk_alloc_slow_ok (vis : ObjVisitor) (fuel : Nat) (h : Heap) (n c : Nat) (h' : Heap) :
    chunk_alloc_slow vis fuel h n = .ok (c, h') ↔
      h.gc < h.gc_delay ∧ c ≠ 0 ∧
        ∃ h1, minor_gc vis fuel h = .ok h1 ∧ chunk_eden_alloc h1 n = .ok (c, h') := by
  unfold chunk_alloc_slow
  by_cases hg : h.gc ≥ h.gc_delay
  · simp [hg, bind_ok_iff, major_gc_ne_ok]
  · simp only [hg, if_false, bind_ok_iff, pure_ok_iff, Prod.exists, Prod.mk.injEq]
    constructor
    · rintro ⟨b, h0, ⟨rfl, rfl⟩, h1, hm, c1, h2, he, hr⟩
      by_cases hz : c1 = 0
      · simp [hz, bind_ok_iff, major_gc_ne_ok] at hr
      · simp [hz, pure_ok_iff] at hr
        obtain ⟨rfl, rfl⟩ := hr
        exact ⟨by omega, hz, h1, hm, he⟩
    · rintro ⟨_, hz, h1, hm, he⟩
      exact ⟨false, h, ⟨rfl, rfl⟩, h1, hm, c, h', he, by simp [hz, pure_ok_iff]⟩

theorem chunk_alloc_rest (vis : ObjVisitor) (fuel : Nat) (n c : Nat) (h' : Heap)
    (x : M (Nat × Heap))
    (hc : (x >>= fun p => if p.1 ≠ 0 then pure (p.1, p.2) else do
          pure PUnit.unit
          let q ← chunk_eden_alloc p.2 n
          if q.1 ≠ 0 then pure (q.1, q.2) else do
            pure PUnit.unit
            chunk_alloc_slow vis fuel q.2 n) = .ok (c, h')) :
    c ≠ 0 ∧ ((∃ h0, chunk_eden_alloc h0 n = .ok (c, h')) ∨ x = .ok (c, h')) := by
  simp only [pure_bind] at hc
  cases x with
  | error e => simp [bind, Except.bind] at hc
  | ok p =>
    obtain ⟨c1, h1⟩ := p
    by_cases hz : c1 = 0
    · subst hz
      cases he : chunk_eden_alloc h1 n with
      | error e => simp [bind, Except.bind, he] at hc
      | ok q =>
        obtain ⟨c2, h2⟩ := q
        by_cases hz2 : c2 = 0
        · subst hz2
          simp only [bind, Except.bind, he, ne_eq, not_true_eq_false, if_false] at hc
          rw [chunk_alloc_slow_ok] at hc
          obtain ⟨_, hne, h3, _, he3⟩ := hc
          exact ⟨hne, Or.inl ⟨h3, he3⟩⟩
        · simp [bind, Except.bind, he, hz2, pure, Except.pure] at hc
          obtain ⟨rfl, rfl⟩ := hc
          exact ⟨hz2, Or.inl ⟨h1, he⟩⟩
    · simp [bind, Except.bind, hz, pure, Except.pure] at hc
      obtain ⟨rfl, rfl⟩ := hc
      exact ⟨hz, Or.inr rfl⟩

theorem chunk_alloc_origin (vis : ObjVisitor) (fuel : Nat) (h : Heap) (n c : Nat) (h' : Heap)
    (hc : chunk_alloc vis fuel h n = .ok (c, h')) :
    c ≠ 0 ∧ ∃ h0, chunk_eden_alloc h0 n = .ok (c, h') ∨ chunk_tenured_alloc h0 n = .ok (c, h') := by
  unfold chunk_alloc at hc
  by_cases hb : n ≥ h.eden_max_size / 2 ∨ n ≥ h.survivor_max_size / 2
  · simp only [hb, if_true] at hc
    obtain ⟨hne, ⟨h0, he⟩ | ht⟩ := chunk_alloc_rest vis fuel n c h' _ hc
    · exact ⟨hne, h0, Or.inl he⟩
    · exact ⟨hne, h, Or.inr ht⟩
  · simp only [hb, if_false] at hc
    obtain ⟨hne, ⟨h0, he⟩ | ht⟩ := chunk_alloc_rest vis fuel n c h' _ hc
    · exact ⟨hne, h0, Or.inl he⟩
    · simp [pure, Except.pure] at ht
      exact absurd ht.1.symm hne


/-- What a successful bump allocation leaves in the header of the new chunk. -/
theorem fresh_header (h0 : Heap) (n c : Nat) (h1 : Heap) (hc : c ≠ 0) (hn : n < 4294967296)
    (ha : chunk_eden_alloc h0 n = .ok (c, h1) ∨ chunk_tenured_alloc h0 n = .ok (c, h1)) :
    h1.heap ≤ c ∧ c + 8 ≤ h1.heap + h1.heap_max_size ∧
      peek h1.mem (c - h1.heap + 4) 4 = n ∧ peek h1.mem (c - h1.heap) 1 = 0 ∧
      peek h1.mem (c - h1.heap + 1) 1 = 0 := by
  have main : ∀ (p : Nat) (x1 x2 h2 : Heap), h0.store32 (p + 4) n = .ok x1 →
      x1.store8 (p + 1) 0 = .ok x2 → x2.store8 p 0 = .ok h2 →
      h2.heap ≤ p ∧ p + 8 ≤ h2.heap + h2.heap_max_size ∧
      peek h2.mem (p - h2.heap + 4) 4 = n ∧ peek h2.mem (p - h2.heap) 1 = 0 ∧
      peek h2.mem (p - h2.heap + 1) 1 = 0 := by
    intro p x1 x2 h2 s1 s2 s3
    obtain ⟨a1, rfl⟩ := store32_ok.1 s1
    obtain ⟨a2, rfl⟩ := store8_ok.1 s2
    obtain ⟨a3, rfl⟩ := store8_ok.1 s3
    simp only [Heap.inArena, withMem_heap, withMem_heap_max_size, withMem_mem] at a1 a2 a3 ⊢
    refine ⟨a3.1, a1.2, ?_, ?_, ?_⟩
    · rw [peek_poke_above _ _ _ _ _ _ (by omega), peek_poke_above _ _ _ _ _ _ (by omega)]
      have : p + 4 - h0.heap = p - h0.heap + 4 := by omega
      rw [this, peek_poke_same]
      exact Nat.mod_eq_of_lt hn
    · rw [peek_poke_same, Nat.zero_mod]
    · rw [peek_poke_above _ _ _ _ _ _ (by omega)]
      have : p + 1 - h0.heap = p - h0.heap + 1 := by omega
      rw [this, peek_poke_same, Nat.zero_mod]
  rcases ha with ha | ha
  · unfold chunk_eden_alloc at ha
    split at ha
    · injection ha with ha; injection ha with e1 e2; exact absurd e1.symm hc
    · simp only [bind_ok_iff] at ha
      obtain ⟨x1, s1, x2, s2, x3, s3, hr⟩ := ha
      injection hr with hr; injection hr with e1 e2
      subst e1; subst e2
      exact main _ x1 x2 x3 s1 s2 s3
  · unfold chunk_tenured_alloc at ha
    split at ha
    · injection ha with ha; injection ha with e1 e2; exact absurd e1.symm hc
    · simp only [bind_ok_iff] at ha
      obtain ⟨x1, s1, x2, s2, x3, s3, hr⟩ := ha
      injection hr with hr; injection hr with e1 e2
      subst e1; subst e2
      exact main _ x1 x2 x3 s1 s2 s3

theorem heap_alloc_ok (vis : ObjVisitor) (fuel : Nat) (h : Heap) (size r : Nat) (h' : Heap)
    (hr : heap_alloc vis fuel h size = .ok (r, h')) :
    ∃ c h1, chunk_alloc vis fuel h ((size + CHUNK) % 4294967296) = .ok (c, h1) ∧ c ≠ 0 ∧
      r = c + CHUNK ∧ h1.memset0 (c + CHUNK) size = .ok h' := by
  unfold heap_alloc at hr
  simp only [bind_ok_iff, Prod.exists] at hr
  obtain ⟨c, h1, hc, hr⟩ := hr
  have hne := (chunk_alloc_origin vis fuel h _ c h1 hc).1
  simp only [ne_eq, hne, not_false_eq_true, if_true, bind_ok_iff, pure_ok_iff, Prod.mk.injEq] at hr
  obtain ⟨h2, hm, rfl, rfl⟩ := hr
  exact ⟨c, h1, hc, hne, rfl, hm⟩

/-- Claim C7 (zeroed payload): whenever `heap_alloc` returns a non-nil reference `r`, the
chunk `c` that `chunk_alloc` produced lies 12 bytes below `r`, its header holds the chunk
size `(size + 12) mod 2^32`, age 0 and mark 0, and each of the `size` payload bytes
`r[0] .. r[size - 1]` reads 0, whatever path produced the chunk and whatever the arena
held before. -/
theorem heap_alloc_zeroed (vis : ObjVisitor) (fuel : Nat) (h : Heap) (size r : Nat) (h' : Heap)
    (hr : heap_alloc vis fuel h size = .ok (r, h')) (_hne : r ≠ 0) :
    ∃ c h1, chunk_alloc vis fuel h ((size + CHUNK) % 4294967296) = .ok (c, h1) ∧
      r = c + CHUNK ∧
      h'.load32 (c + 4) = .ok ((size + CHUNK) % 4294967296) ∧
      h'.load8 c = .ok 0 ∧ h'.load8 (c + 1) = .ok 0 ∧
      ∀ i, i < size → h'.load8 (r + i) = .ok 0 := by
  obtain ⟨c, h1, hc, hne, rfl, hm⟩ := heap_alloc_ok vis fuel h size r h' hr
  obtain ⟨_, h0, ho⟩ := chunk_alloc_origin vis fuel h _ c h1 hc
  obtain ⟨b1, b2, f1, f2, f3⟩ :=
    fresh_header h0 _ c h1 hne (Nat.mod_lt _ (by norm_num)) ho
  refine ⟨c, h1, hc, rfl, ?_⟩
  obtain ⟨am, rfl⟩ := memset0_ok.1 hm
  unfold Heap.inArena at am
  simp only [CHUNK] at am f1 ⊢
  refine ⟨?_, ?_, ?_, ?_⟩
  · rw [load32_ok]
    refine ⟨⟨by simp only [withMem_heap]; omega, by simp only [withMem_heap, withMem_heap_max_size]; omega⟩, ?_⟩
    simp only [withMem_heap, withMem_mem]
    rw [peek_poke_below _ _ _ _ _ _ (by omega)]
    have : c + 4 - h1.heap = c - h1.heap + 4 := by omega
    rw [this, f1]
  · rw [load8_ok]
    refine ⟨⟨by simp only [withMem_heap]; omega, by simp only [withMem_heap, withMem_heap_max_size]; omega⟩, ?_⟩
    simp only [withMem_heap, withMem_mem]
    rw [peek_poke_below _ _ _ _ _ _ (by omega), f2]
  · rw [load8_ok]
    refine ⟨⟨by simp only [withMem_heap]; omega, by simp only [withMem_heap, withMem_heap_max_size]; omega⟩, ?_⟩
    simp only [withMem_heap, withMem_mem]
    rw [peek_poke_below _ _ _ _ _ _ (by omega)]
    have : c + 1 - h1.heap = c - h1.heap + 1 := by omega
    rw [this, f3]
  · intro i hi
    rw [load8_ok]
    refine ⟨⟨by simp only [withMem_heap]; omega, by simp only [withMem_heap, withMem_heap_max_size]; omega⟩, ?_⟩
    simp only [withMem_heap, withMem_mem]
    have : c + 12 + i - h1.heap = c + 12 - h1.heap + i := by omega
    rw [this, peek_poke_inside _ _ _ _ _ _ (by omega), peek_zero]


theorem peek_poke_apart (m o n v o' n' : Nat) (hd : o' + n' ≤ o ∨ o + n ≤ o') :
    peek (poke m o n v) o' n' = peek m o' n' := by
  rcases hd with hd | hd
  · exact peek_poke_below m o n v o' n' hd
  · exact peek_poke_above m o n v o' n' hd

theorem Marked.heap_eq {h0 h : Heap} {cs : List Nat} (hm : Marked h0 cs h) : h.heap = h0.heap := by
  rw [hm.same]; rfl

theorem Marked.max_eq {h0 h : Heap} {cs : List Nat} (hm : Marked h0 cs h) :
    h.heap_max_size = h0.heap_max_size := by
  rw [hm.same]; rfl

theorem Marked.root_eq {h0 h : Heap} {cs : List Nat} (hm : Marked h0 cs h) : h.root = h0.root := by
  rw [hm.same]; rfl

/-- A range inside the chunk `c` that starts after its mark byte holds no mark byte. -/
theorem no_mark_inside {h0 : Heap} {cs : List Nat} (ho : h0.Objects cs) {c : Nat} (hc : c ∈ cs)
    {a n : Nat} (ha : 1 ≤ a) (han : a + n ≤ h0.sizeOf c) :
    ∀ d ∈ cs, d - h0.heap < c + a - h0.heap ∨ c + a - h0.heap + n ≤ d - h0.heap := by
  intro d hd
  have h1 := (ho.inside c hc).1
  have h2 := (ho.inside d hd).1
  by_cases hcd : c = d
  · subst hcd; left; omega
  · rcases ho.apart c hc d hd hcd with h3 | h3
    · right; omega
    · left
      have := ho.fits d hd
      omega

theorem Marked.sizeOf_eq {h0 h : Heap} {cs : List Nat} (hm : Marked h0 cs h) (ho : h0.Objects cs)
    {c : Nat} (hc : c ∈ cs) : h.sizeOf c = h0.sizeOf c := by
  unfold Heap.sizeOf
  rw [hm.heap_eq]
  have := ho.fits c hc
  exact hm.frame _ _ (no_mark_inside ho hc (by omega) (by omega))

theorem Marked.countOf_eq {h0 h : Heap} {cs : List Nat} (hm : Marked h0 cs h) (ho : h0.Objects cs)
    {c : Nat} (hc : c ∈ cs) : h.countOf c = h0.countOf c := by
  unfold Heap.countOf
  rw [hm.heap_eq]
  have := ho.fits c hc
  exact hm.frame _ _ (no_mark_inside ho hc (by omega) (by omega))

theorem Marked.refOf_eq {h0 h : Heap} {cs : List Nat} (hm : Marked h0 cs h) (ho : h0.Objects cs)
    {c : Nat} (hc : c ∈ cs) {i : Nat} (hi : i < h0.countOf c) : h.refOf c i = h0.refOf c i := by
  unfold Heap.refOf
  rw [hm.heap_eq]
  have := ho.fits c hc
  have h3 : c + 20 + 8 * i = c + (20 + 8 * i) := by omega
  rw [h3]
  exact hm.frame _ _ (no_mark_inside ho hc (by omega) (by omega))

theorem Marked.start {h0 : Heap} {cs : List Nat} (hz : ∀ c ∈ cs, h0.markOf c = 0) :
    Marked h0 cs h0 :=
  ⟨rfl, fun _ _ _ => rfl, fun c hc => Or.inl (hz c hc)⟩

/-- Setting the mark byte of a chunk of `cs`. -/
theorem Marked.set {h0 h : Heap} {cs : List Nat} (hm : Marked h0 cs h) (ho : h0.Objects cs)
    {d : Nat} (hd : d ∈ cs) :
    Marked h0 cs (h.withMem (poke h.mem (d - h.heap) 1 1)) ∧
      (h.withMem (poke h.mem (d - h.heap) 1 1)).markOf d = 1 ∧
      ∀ c ∈ cs, c ≠ d → (h.withMem (poke h.mem (d - h.heap) 1 1)).markOf c = h.markOf c := by
  have hh := hm.heap_eq
  have hdin := (ho.inside d hd).1
  have other : ∀ c ∈ cs, c ≠ d →
      (h.withMem (poke h.mem (d - h.heap) 1 1)).markOf c = h.markOf c := by
    intro c hc hcd
    have hcin := (ho.inside c hc).1
    unfold Heap.markOf
    simp only [withMem_mem, withMem_heap]
    apply peek_poke_apart
    omega
  have self : (h.withMem (poke h.mem (d - h.heap) 1 1)).markOf d = 1 := by
    unfold Heap.markOf
    simp only [withMem_mem, withMem_heap]
    rw [peek_poke_same]
    norm_num
  refine ⟨⟨?_, ?_, ?_⟩, self, other⟩
  · rw [hm.same]; rfl
  · intro o n hon
    simp only [withMem_mem]
    rw [peek_poke_apart _ _ _ _ _ _ (by have := hon d hd; omega)]
    exact hm.frame o n hon
  · intro c hc
    by_cases hcd : c = d
    · subst hcd; right; exact self
    · rw [other c hc hcd]; exact hm.bit c hc

theorem unmarked_le_length (h : Heap) (cs : List Nat) : unmarked h cs ≤ cs.length :=
  List.countP_le_length _

theorem countP_le_of_imp {α : Type} (p q : α → Bool) (l : List α)
    (hpq : ∀ x ∈ l, p x = true → q x = true) : l.countP p ≤ l.countP q := by
  induction l with
  | nil => simp
  | cons a l ih =>
    have ih' := ih (fun x hx => hpq x (List.mem_cons_of_mem a hx))
    have ha := hpq a (List.mem_cons_self a l)
    simp only [List.countP_cons]
    cases hp : p a <;> cases hq : q a <;> simp [hp, hq] at ha ⊢ <;> omega

theorem countP_lt_of_imp {α : Type} (p q : α → Bool) (l : List α)
    (hpq : ∀ x ∈ l, p x = true → q x = true) (a : α) (ha : a ∈ l) (hqa : q a = true)
    (hpa : ¬ p a = true) : l.countP p < l.countP q := by
  induction l with
  | nil => cases ha
  | cons b l ih =>
    simp only [List.countP_cons]
    have hle := countP_le_of_imp p q l (fun x hx => hpq x (List.mem_cons_of_mem b hx))
    have hb := hpq b (List.mem_cons_self b l)
    rcases List.mem_cons.1 ha with rfl | hal
    · simp only [Bool.not_eq_true] at hpa
      simp [hqa, hpa]
      omega
    · have ih' := ih (fun x hx => hpq x (List.mem_cons_of_mem b hx)) hal
      cases hp : p b <;> cases hq : q b <;> simp [hp, hq] at hb ⊢ <;> omega

theorem unmarked_mono {h0 h h' : Heap} {cs : List Nat} (hm : Marked h0 cs h)
    (hg : Grows cs h h') : unmarked h' cs ≤ unmarked h cs := by
  apply countP_le_of_imp
  intro c hc h1
  simp only [decide_eq_true_eq] at h1 ⊢
  rcases hm.bit c hc with h2 | h2
  · exact h2
  · rw [hg c hc h2] at h1; cases h1

theorem unmarked_set {h0 h h1 : Heap} {cs : List Nat} (hm : Marked h0 cs h)
    (hg : Grows cs h h1) {d : Nat} (hd : d ∈ cs) (hd0 : h.markOf d = 0) (hd1 : h1.markOf d = 1) :
    unmarked h1 cs < unmarked h cs := by
  apply countP_lt_of_imp _ _ _ _ d hd
  · simp only [decide_eq_true_eq]; exact hd0
  · simp only [decide_eq_true_eq, hd1]; omega
  · intro c hc h1'
    simp only [decide_eq_true_eq] at h1' ⊢
    rcases hm.bit c hc with h2 | h2
    · exact h2
    · rw [hg c hc h2] at h1'; cases h1'

theorem slot_load {h0 h : Heap} {cs : List Nat} (hm : Marked h0 cs h) (ho : h0.Objects cs)
    {s : Slot} {d : Nat} (hs : SlotAt h0 cs s d) : h.loadRef s = .ok (d + 12) := by
  rcases hs with ⟨rfl, hr⟩ | ⟨x, hx, i, hi, rfl, hr⟩
  · simp only [Heap.loadRef, hm.root_eq, hr]
  · have h1 := ho.inside x hx
    have h2 := ho.fits x hx
    simp only [Heap.loadRef]
    rw [load64_ok]
    refine ⟨⟨by rw [hm.heap_eq]; omega, by rw [hm.heap_eq, hm.max_eq]; omega⟩, ?_⟩
    have := hm.refOf_eq ho hx hi
    unfold Heap.refOf at this
    rw [this]
    exact hr.symm

theorem Closed.mono {h0 h h' : Heap} {cs : List Nat} {x : Nat} (hc : Closed h0 cs h x)
    (hg : Grows cs h h') : Closed h0 cs h' x := by
  intro i hi hr
  obtain ⟨e, he, h1, h2⟩ := hc i hi hr
  exact ⟨e, he, h1, hg e he h2⟩

theorem Path.trans {h : Heap} {a b c : Nat} (hab : h.Path a b) (hbc : h.Path b c) : h.Path a c := by
  induction hbc with
  | refl => exact hab
  | step d e i _ hi hr ih => exact Heap.Path.step a d e i ih hi hr

theorem visitor_loop_spec (h0 : Heap) (cs : List Nat) (ho : h0.Objects cs) (fuel : Nat)
    (ih : MarkSpec h0 cs fuel) (x : Nat) (hx : x ∈ cs) :
    ∀ (n i k : Nat) (h : Heap), Marked h0 cs h → unmarked h cs < fuel →
      i + n = h0.countOf x → n < k →
      ∃ h', object_visitor_loop (mark_chunk object_visitor fuel) (x + 12) k i h = .ok h' ∧
        Marked h0 cs h' ∧ Grows cs h h' ∧
        (∀ j, i ≤ j → j < h0.countOf x → h0.refOf x j ≠ 0 →
          ∃ e ∈ cs, h0.refOf x j = e + 12 ∧ h'.markOf e = 1) ∧
        ∀ y ∈ cs, h'.markOf y = 1 → h.markOf y = 0 → h0.Path x y ∧ Closed h0 cs h' y := by
  have hin := ho.inside x hx
  have hfit := ho.fits x hx
  intro n
  induction n with
  | zero =>
    intro i k h hm _ hcount hk
    obtain ⟨k, rfl⟩ : ∃ k', k = k' + 1 := ⟨k - 1, by omega⟩
    have hc : h.load32 (x + 12 + 4) = .ok (h0.countOf x) := by
      rw [load32_ok]
      refine ⟨⟨by rw [hm.heap_eq]; omega, by rw [hm.heap_eq, hm.max_eq]; omega⟩, ?_⟩
      rw [← hm.countOf_eq ho hx]; rfl
    refine ⟨h, ?_, hm, fun _ _ hh => hh, ?_, ?_⟩
    · simp only [object_visitor_loop, bind, Except.bind, hc]
      rw [if_neg (by omega)]
      rfl
    · intro j h1 h2; omega
    · intro y _ h1 h2; rw [h1] at h2; cases h2
  | succ n ihn =>
    intro i k h hm hfuel hcount hk
    obtain ⟨k, rfl⟩ : ∃ k', k = k' + 1 := ⟨k - 1, by omega⟩
    have hi : i < h0.countOf x := by omega
    have hc : h.load32 (x + 12 + 4) = .ok (h0.countOf x) := by
      rw [load32_ok]
      refine ⟨⟨by rw [hm.heap_eq]; omega, by rw [hm.heap_eq, hm.max_eq]; omega⟩, ?_⟩
      rw [← hm.countOf_eq ho hx]; rfl
    have hr : h.load64 (x + 12 + 8 + 8 * i) = .ok (h0.refOf x i) := by
      rw [load64_ok]
      refine ⟨⟨by rw [hm.heap_eq]; omega, by rw [hm.heap_eq, hm.max_eq]; omega⟩, ?_⟩
      rw [← hm.refOf_eq ho hx hi]; rfl
    by_cases hz : h0.refOf x i = 0
    · -- a nil field is skipped
      obtain ⟨h', hl, hm', hg, hch, hnew⟩ := ihn (i + 1) k h hm hfuel (by omega) (by omega)
      refine ⟨h', ?_, hm', hg, ?_, hnew⟩
      · simp only [object_visitor_loop, bind, Except.bind, hc, hr]
        rw [if_pos hi]
        simp only [hz, ne_eq, not_true_eq_false, if_false, pure, Except.pure]
        exact hl
      · intro j h1 h2 h3
        rcases Nat.eq_or_lt_of_le h1 with rfl | h4
        · exact absurd hz h3
        · exact hch j h4 h2 h3
    · obtain ⟨e, he, hre⟩ := ho.refs x hx i hi hz
      have hslot : SlotAt h0 cs (.cell (x + 20 + 8 * i)) e :=
        Or.inr ⟨x, hx, i, hi, rfl, hre⟩
      obtain ⟨h1, hcall, hm1, hg1, hme, hnew1⟩ := ih h (.cell (x + 20 + 8 * i)) e hm he hslot hfuel
      have hfuel1 : unmarked h1 cs < fuel := lt_of_le_of_lt (unmarked_mono hm hg1) hfuel
      obtain ⟨h', hl, hm', hg, hch, hnew⟩ := ihn (i + 1) k h1 hm1 hfuel1 (by omega) (by omega)
      have hxe : h0.Path x e := Heap.Path.step x x e i (Heap.Path.refl x) hi hre
      refine ⟨h', ?_, hm', fun c hc hh => hg c hc (hg1 c hc hh), ?_, ?_⟩
      · simp only [object_visitor_loop, bind, Except.bind, hc, hr]
        rw [if_pos hi]
        simp only [hz, ne_eq, not_false_eq_true, if_true]
        have e1 : x + 12 + 8 + 8 * i = x + 20 + 8 * i := by omega
        rw [e1, hcall]
        exact hl
      · intro j h2 h3 h4
        rcases Nat.eq_or_lt_of_le h2 with rfl | h5
        · exact ⟨e, he, hre, hg e he hme⟩
        · exact hch j h5 h3 h4
      · intro y hy hy1 hy0
        rcases hm1.bit y hy with h6 | h6
        · obtain ⟨p1, p2⟩ := hnew y hy hy1 h6
          exact ⟨p1, p2⟩
        · obtain ⟨p1, p2⟩ := hnew1 y hy h6 hy0
          exact ⟨Path.trans hxe p1, p2.mono hg⟩

theorem mark_chunk_spec (h0 : Heap) (cs : List Nat) (ho : h0.Objects cs) :
    ∀ fuel, MarkSpec h0 cs fuel := by
  intro fuel
  induction fuel with
  | zero => intro h s d _ _ _ hf; omega
  | succ fuel ih =>
    intro h s d hm hd hs hf
    have hin := ho.inside d hd
    have hfit := ho.fits d hd
    have hload := slot_load hm ho hs
    have hchunk : chunk_of (d + 12) = .ok d := by
      simp [chunk_of, CHUNK]
    have hmark : h.load8 d = .ok (h.markOf d) := by
      rw [load8_ok]
      exact ⟨⟨by rw [hm.heap_eq]; omega, by rw [hm.heap_eq, hm.max_eq]; omega⟩, rfl⟩
    rcases hm.bit d hd with h0m | h1m
    · -- the chunk is not marked yet
      obtain ⟨hm1, hself, hother⟩ := hm.set ho hd
      have hg1 : Grows cs h (h.withMem (poke h.mem (d - h.heap) 1 1)) := by
        intro c hc hc1
        by_cases hcd : c = d
        · subst hcd; exact hself
        · rw [hother c hc hcd]; exact hc1
      have hf1 : unmarked (h.withMem (poke h.mem (d - h.heap) 1 1)) cs < fuel := by
        have := unmarked_set hm hg1 hd h0m hself
        omega
      have hstore : h.store8 d (0 ^^^ 1) = .ok (h.withMem (poke h.mem (d - h.heap) 1 1)) := by
        rw [store8_ok]
        exact ⟨⟨by rw [hm.heap_eq]; omega, by rw [hm.heap_eq, hm.max_eq]; omega⟩, rfl⟩
      have hload1 := slot_load hm1 ho hs
      have hdata : ∃ v, (h.withMem (poke h.mem (d - h.heap) 1 1)).load32 (d + 12) = .ok v := by
        refine ⟨_, load32_ok.2 ⟨⟨?_, ?_⟩, rfl⟩⟩
        · rw [hm1.heap_eq]; omega
        · rw [hm1.heap_eq, hm1.max_eq]; omega
      obtain ⟨v, hdata⟩ := hdata
      have hcnt : h0.countOf d < 4294967296 := by
        unfold Heap.countOf
        exact peek_lt _ _ 4
      obtain ⟨h', hl, hm', hg, hch, hnew⟩ :=
        visitor_loop_spec h0 cs ho fuel ih d hd (h0.countOf d) 0 4294967296 _ hm1 hf1
          (by omega) hcnt
      refine ⟨h', ?_, hm', fun c hc hh => hg c hc (hg1 c hc hh), hg d hd hself, ?_⟩
      · simp only [mark_chunk, bind, Except.bind, hload, hchunk, hmark, h0m, ne_eq,
          not_true_eq_false, if_false, hstore, pure, Except.pure]
        simp only [object_visitor, bind, Except.bind, hload1, hdata, if_false,
          Nat.add_eq_zero, OfNat.ofNat_ne_zero, and_false]
        exact hl
      · intro x hx hx1 hx0
        by_cases hxd : x = d
        · subst hxd
          exact ⟨Heap.Path.refl x, fun i hi hr => hch i (Nat.zero_le i) hi hr⟩
        · exact hnew x hx hx1 (by rw [hother x hx hxd]; exact hx0)
    · -- the chunk is marked: return at once
      refine ⟨h, ?_, hm, fun _ _ hh => hh, h1m, ?_⟩
      · simp only [mark_chunk, bind, Except.bind, hload, hchunk, hmark, h1m, ne_eq,
          one_ne_zero, not_false_eq_true, if_true, pure, Except.pure]
      · intro x _ hx1 hx0; rw [hx1] at hx0; cases hx0

/-- Claim C8, amended (mark phase): on a heap whose chunks `cs` hold objects of `test.c`,
all with mark 0, and whose root is not nil and points at a chunk of `cs`, `mark_chunk`
on the root slot returns for every budget above the number of chunks (cyclic and shared
graphs included); afterwards a chunk of `cs` has mark 1 exactly when it is reachable
from the root, every other chunk of `cs` has mark 0, no field of the heap record
changes, and no byte of the arena changes except mark bytes of chunks of `cs`. -/
theorem mark_phase_marks_live (h : Heap) (cs : List Nat) (ho : h.Objects cs)
    (hz : ∀ c ∈ cs, h.markOf c = 0) (hroot : ∃ r ∈ cs, h.root = r + 12)
    (fuel : Nat) (hfuel : cs.length < fuel) :
    ∃ h', mark_chunk object_visitor fuel h .root = .ok h' ∧
      (∀ c ∈ cs, h'.markOf c = 1 ↔ h.Reach c) ∧
      (∀ c ∈ cs, h'.markOf c = 0 ∨ h'.markOf c = 1) ∧
      h' = h.withMem h'.mem ∧
      ∀ o n, (∀ c ∈ cs, c - h.heap < o ∨ o + n ≤ c - h.heap) →
        peek h'.mem o n = peek h.mem o n := by
  obtain ⟨r, hr, hrr⟩ := hroot
  have hm0 : Marked h cs h := Marked.start hz
  obtain ⟨h', hrun, hm', _, hmr, hnew⟩ :=
    mark_chunk_spec h cs ho fuel h .root r hm0 hr (Or.inl ⟨rfl, hrr⟩)
      (lt_of_le_of_lt (unmarked_le_length h cs) hfuel)
  refine ⟨h', hrun, ?_, hm'.bit, hm'.same, hm'.frame⟩
  intro c hc
  constructor
  · intro hc1
    exact ⟨r, hrr, (hnew c hc hc1 (hz c hc)).1⟩
  · rintro ⟨r', hr', hp⟩
    have hrr' : r' = r := by omega
    subst hrr'
    have key : ∀ x, h.Path r' x → x ∈ cs ∧ h'.markOf x = 1 := by
      intro x hpx
      induction hpx with
      | refl => exact ⟨hr, hmr⟩
      | step d e i _ hi hre ihd =>
        obtain ⟨hd, hd1⟩ := ihd
        obtain ⟨e2, he2, h2, h3⟩ := (hnew d hd hd1 (hz d hd)).2 i hi (by omega)
        have : e2 = e := by omega
        subst this
        exact ⟨he2, h3⟩
    exact (key c hp).2

theorem ok_bind {α β : Type} (a : α) (f : α → M β) : ((Except.ok a : M α) >>= f) = f a := rfl

/-! ## Properties kept by an allocation -/

/-- A property of heaps that both bump allocators keep and that every completed minor
collection establishes is kept by `chunk_alloc`. -/
theorem chunk_alloc_keeps (vis : ObjVisitor) (fuel : Nat) (P : Heap → Prop)
    (hE : ∀ h n c h', P h → chunk_eden_alloc h n = .ok (c, h') → P h')
    (hT : ∀ h n c h', P h → chunk_tenured_alloc h n = .ok (c, h') → P h')
    (hG : ∀ h hg, P h → minor_gc vis fuel h = .ok hg → P hg)
    (h : Heap) (n c : Nat) (h' : Heap) (hP : P h)
    (hc : chunk_alloc vis fuel h n = .ok (c, h')) : P h' := by
  have rest : ∀ (x : M (Nat × Heap)), (∀ c1 h1, x = .ok (c1, h1) → P h1) →
      (x >>= fun p => if p.1 ≠ 0 then pure (p.1, p.2) else do
          pure PUnit.unit
          let q ← chunk_eden_alloc p.2 n
          if q.1 ≠ 0 then pure (q.1, q.2) else do
            pure PUnit.unit
            chunk_alloc_slow vis fuel q.2 n) = .ok (c, h') → P h' := by
    intro x hx hc
    simp only [pure_bind] at hc
    cases x with
    | error e => simp [bind, Except.bind] at hc
    | ok p =>
      obtain ⟨c1, h1⟩ := p
      have hP1 := hx c1 h1 rfl
      by_cases hz : c1 = 0
      · subst hz
        cases he : chunk_eden_alloc h1 n with
        | error e => simp [bind, Except.bind, he] at hc
        | ok q =>
          obtain ⟨c2, h2⟩ := q
          have hP2 := hE h1 n c2 h2 hP1 he
          by_cases hz2 : c2 = 0
          · subst hz2
            simp only [bind, Except.bind, he, ne_eq, not_true_eq_false, if_false] at hc
            rw [chunk_alloc_slow_ok] at hc
            obtain ⟨_, _, h3, hm, he3⟩ := hc
            exact hE h3 n c h' (hG h2 h3 hP2 hm) he3
          · simp [bind, Except.bind, he, hz2, pure, Except.pure] at hc
            obtain ⟨rfl, rfl⟩ := hc
            exact hP2
      · simp [bind, Except.bind, hz, pure, Except.pure] at hc
        obtain ⟨rfl, rfl⟩ := hc
        exact hP1
  unfold chunk_alloc at hc
  by_cases hb : n ≥ h.eden_max_size / 2 ∨ n ≥ h.survivor_max_size / 2
  · simp only [hb, if_true] at hc
    exact rest _ (fun c1 h1 hx => hT h n c1 h1 hP hx) hc
  · simp only [hb, if_false] at hc
    refine rest _ (fun c1 h1 hx => ?_) hc
    simp only [pure, Except.pure] at hx
    injection hx with hx; injection hx with e1 e2
    subst e2; exact hP

/-- A property of heaps that does not depend on the arena, and that both bump
allocators keep and every completed minor collection establishes, is kept by
`heap_alloc`. -/
theorem heap_alloc_keeps (vis : ObjVisitor) (fuel : Nat) (P : Heap → Prop)
    (hM : ∀ h m, P h → P (h.withMem m))
    (hE : ∀ h n c h', P h → chunk_eden_alloc h n = .ok (c, h') → P h')
    (hT : ∀ h n c h', P h → chunk_tenured_alloc h n = .ok (c, h') → P h')
    (hG : ∀ h hg, P h → minor_gc vis fuel h = .ok hg → P hg)
    (h : Heap) (size r : Nat) (h' : Heap) (hP : P h)
    (hr : heap_alloc vis fuel h size = .ok (r, h')) : P h' := by
  obtain ⟨c, h1, hc, _, _, hm⟩ := heap_alloc_ok vis fuel h size r h' hr
  obtain ⟨_, rfl⟩ := memset0_ok.1 hm
  exact hM _ _ (chunk_alloc_keeps vis fuel P hE hT hG h _ c h1 hP hc)

/-- The same for a run of the host, when the property does not depend on the root. -/
theorem run_keeps (vis : ObjVisitor) (P : Heap → Prop)
    (hM : ∀ h m, P h → P (h.withMem m))
    (hR : ∀ (h : Heap) (r : Nat), P h → P { h with root := r })
    (hE : ∀ h n c h', P h → chunk_eden_alloc h n = .ok (c, h') → P h')
    (hT : ∀ h n c h', P h → chunk_tenured_alloc h n = .ok (c, h') → P h')
    (hG : ∀ fuel h hg, P h → minor_gc vis fuel h = .ok hg → P hg) :
    ∀ (l : List Action) (h h' : Heap), P h → run vis l h = .ok h' → P h' := by
  intro l
  induction l with
  | nil =>
    intro h h' hP hr
    simp only [run] at hr
    injection hr with hr; subst hr; exact hP
  | cons a l ih =>
    intro h h' hP hr
    simp only [run, bind_ok_iff] at hr
    obtain ⟨h1, hs, hr⟩ := hr
    refine ih h1 h' ?_ hr
    cases a with
    | alloc fuel size =>
      simp only [host_step, bind_ok_iff, pure_ok_iff, Prod.exists] at hs
      obtain ⟨r, h2, ha, rfl⟩ := hs
      exact heap_alloc_keeps vis fuel P hM hE hT (hG fuel) h size r h2 hP ha
    | write p n v =>
      simp only [host_step] at hs
      split at hs
      · injection hs with hs; subst hs; exact hM _ _ hP
      · cases hs
    | root r =>
      simp only [host_step] at hs
      injection hs with hs; subst hs; exact hR _ _ hP

/-! ## The total size -/

theorem eden_alloc_sum (h : Heap) (n c : Nat) (h' : Heap) (hP : h.heap_size = h.used_sum)
    (ha : chunk_eden_alloc h n = .ok (c, h')) : h'.heap_size = h'.used_sum := by
  unfold chunk_eden_alloc at ha
  split at ha
  · injection ha with ha; injection ha with _ e2; subst e2; exact hP
  · simp only [bind_ok_iff] at ha
    obtain ⟨x1, s1, x2, s2, x3, s3, hr⟩ := ha
    injection hr with hr; injection hr with e1 e2
    obtain ⟨-, rfl⟩ := store32_ok.1 s1
    obtain ⟨-, rfl⟩ := store8_ok.1 s2
    obtain ⟨-, rfl⟩ := store8_ok.1 s3
    subst e2
    unfold Heap.used_sum at hP ⊢
    simp only [withMem_eden_size, withMem_heap_size, withMem_survivor_size,
      withMem_tenured_size, withMem_perm_size, withMem_withMem]
    show (h.heap_size + n) % 4294967296 =
      ((h.eden_size + n) % 4294967296 + h.survivor_size + h.tenured_size + h.perm_size) % 4294967296
    omega

theorem tenured_alloc_sum (h : Heap) (n c : Nat) (h' : Heap) (hP : h.heap_size = h.used_sum)
    (ha : chunk_tenured_alloc h n = .ok (c, h')) : h'.heap_size = h'.used_sum := by
  unfold chunk_tenured_alloc at ha
  split at ha
  · injection ha with ha; injection ha with _ e2; subst e2; exact hP
  · simp only [bind_ok_iff] at ha
    obtain ⟨x1, s1, x2, s2, x3, s3, hr⟩ := ha
    injection hr with hr; injection hr with e1 e2
    obtain ⟨-, rfl⟩ := store32_ok.1 s1
    obtain ⟨-, rfl⟩ := store8_ok.1 s2
    obtain ⟨-, rfl⟩ := store8_ok.1 s3
    subst e2
    unfold Heap.used_sum at hP ⊢
    simp only [withMem_eden_size, withMem_heap_size, withMem_survivor_size,
      withMem_tenured_size, withMem_perm_size, withMem_withMem]
    show (h.heap_size + n) % 4294967296 =
      (h.eden_size + h.survivor_size + (h.tenured_size + n) % 4294967296 + h.perm_size) % 4294967296
    omega

/-- The function `minor_gc` as a chain of its five phases. -/
theorem minor_gc_eq (vis : ObjVisitor) (fuel : Nat) (h : Heap) :
    minor_gc vis fuel h =
      (mark_chunk vis fuel h .root >>= fun h1 =>
        h1.s_ptr (h1.survivor ^^^ 1) >>= fun sv =>
        (if h1.survivor_size > 0 then
            (h1.s_ptr h1.survivor >>= fun sfrom =>
              survivor_loop sfrom sv fuel h1 sfrom 0 >>= fun p =>
              pure { p.1 with survivor_size := p.2 })
          else pure h1) >>= fun h2 =>
        eden_loop vis sv fuel { h2 with survivor := h2.survivor ^^^ 1 } h2.eden_ptr 0 >>= fun h3 =>
        fix_minor vis fuel h3 .root >>= fun h4 =>
        pure (compute_heap_size { h4 with eden_size := 0 })) := by
  unfold minor_gc
  cases mark_chunk vis fuel h .root with
  | error e => rfl
  | ok h1 =>
    simp only [ok_bind]
    cases h1.s_ptr (h1.survivor ^^^ 1) with
    | error e => rfl
    | ok sv =>
      simp only [ok_bind]
      by_cases hs : h1.survivor_size > 0
      · simp only [hs, if_true]
        cases h1.s_ptr h1.survivor with
        | error e => rfl
        | ok sfrom =>
          simp only [ok_bind]
          cases survivor_loop sfrom sv fuel h1 sfrom 0 with
          | error e => rfl
          | ok p => rfl
      · simp only [hs, if_false]

/-- The phases of a minor collection that completed. -/
theorem minor_gc_ok (vis : ObjVisitor) (fuel : Nat) (h hg : Heap)
    (hm : minor_gc vis fuel h = .ok hg) :
    ∃ h1 sv h2 h3 h4, mark_chunk vis fuel h .root = .ok h1 ∧
      h1.s_ptr (h1.survivor ^^^ 1) = .ok sv ∧
      ((h1.survivor_size = 0 ∧ h2 = h1) ∨
        (0 < h1.survivor_size ∧ ∃ sfrom hs n, h1.s_ptr h1.survivor = .ok sfrom ∧
          survivor_loop sfrom sv fuel h1 sfrom 0 = .ok (hs, n) ∧
          h2 = { hs with survivor_size := n })) ∧
      eden_loop vis sv fuel { h2 with survivor := h2.survivor ^^^ 1 } h2.eden_ptr 0 = .ok h3 ∧
      fix_minor vis fuel h3 .root = .ok h4 ∧
      hg = compute_heap_size { h4 with eden_size := 0 } := by
  rw [minor_gc_eq] at hm
  simp only [bind_ok_iff, pure_ok_iff] at hm
  obtain ⟨h1, e1, sv, e2, h2, e3, h3, e4, h4, e5, rfl⟩ := hm
  refine ⟨h1, sv, h2, h3, h4, e1, e2, ?_, e4, e5, rfl⟩
  by_cases hs : h1.survivor_size > 0
  · simp only [hs, if_true, bind_ok_iff, pure_ok_iff] at e3
    obtain ⟨sfrom, f1, p, f2, rfl⟩ := e3
    exact Or.inr ⟨hs, sfrom, p.1, p.2, f1, f2, rfl⟩
  · simp only [hs, if_false, pure_ok_iff] at e3
    exact Or.inl ⟨by omega, e3.symm⟩

/-- The last two statements of `minor_gc` leave `heap_size` equal to the sum. -/
theorem minor_gc_sum (vis : ObjVisitor) (fuel : Nat) (h hg : Heap)
    (hm : minor_gc vis fuel h = .ok hg) : hg.heap_size = hg.used_sum := by
  obtain ⟨h1, sv, h2, h3, h4, _, _, _, _, _, rfl⟩ := minor_gc_ok vis fuel h hg hm
  rfl

theorem heap_init_sum (cfg : Heap) (base mem0 : Nat) (h : Heap)
    (hi : heap_init cfg base mem0 = .ok h) : h.heap_size = h.used_sum := by
  unfold heap_init at hi
  split at hi; · cases hi
  split at hi; · cases hi
  split at hi; · cases hi
  split at hi; · cases hi
  simp only at hi
  split at hi; · cases hi
  injection hi with hi; subst hi; rfl

/-! ## The two scans of the minor collection -/

theorem ScanSame.same_refl (h : Heap) : ScanSame h h := ⟨rfl, rfl, rfl, rfl, rfl, rfl, rfl, rfl, rfl, rfl, rfl, rfl, rfl, rfl, rfl, rfl, rfl⟩

theorem ScanSame.same_trans {h1 h2 h3 : Heap} (a : ScanSame h1 h2) (b : ScanSame h2 h3) : ScanSame h1 h3 :=
  ⟨b.eden_max_size.trans a.eden_max_size, b.survivor_max_size.trans a.survivor_max_size, b.tenured_max_size.trans a.tenured_max_size, b.perm_max_size.trans a.perm_max_size, b.heap_max_size.trans a.heap_max_size, b.age_cycles.trans a.age_cycles, b.gc_delay.trans a.gc_delay, b.eden_size.trans a.eden_size, b.perm_size.trans a.perm_size, b.heap_size.trans a.heap_size, b.heap.trans a.heap, b.eden_ptr.trans a.eden_ptr, b.s_ptr0.trans a.s_ptr0, b.s_ptr1.trans a.s_ptr1, b.tenured_ptr.trans a.tenured_ptr, b.perm_ptr.trans a.perm_ptr, b.root.trans a.root⟩

theorem ScanSame.same_withMem (h : Heap) (m : Nat) : ScanSame h (h.withMem m) := ⟨rfl, rfl, rfl, rfl, rfl, rfl, rfl, rfl, rfl, rfl, rfl, rfl, rfl, rfl, rfl, rfl, rfl⟩

theorem ScanSame.set_tenured_size (h : Heap) (v : Nat) : ScanSame h { h with tenured_size := v } := ⟨rfl, rfl, rfl, rfl, rfl, rfl, rfl, rfl, rfl, rfl, rfl, rfl, rfl, rfl, rfl, rfl, rfl⟩

theorem ScanSame.set_survivor_size (h : Heap) (v : Nat) : ScanSame h { h with survivor_size := v } := ⟨rfl, rfl, rfl, rfl, rfl, rfl, rfl, rfl, rfl, rfl, rfl, rfl, rfl, rfl, rfl, rfl, rfl⟩

theorem ScanSame.set_gc (h : Heap) (v : Nat) : ScanSame h { h with gc := v } := ⟨rfl, rfl, rfl, rfl, rfl, rfl, rfl, rfl, rfl, rfl, rfl, rfl, rfl, rfl, rfl, rfl, rfl⟩

theorem ScanSame.set_survivor (h : Heap) (v : Nat) : ScanSame h { h with survivor := v } := ⟨rfl, rfl, rfl, rfl, rfl, rfl, rfl, rfl, rfl, rfl, rfl, rfl, rfl, rfl, rfl, rfl, rfl⟩

/-! ## Copying a chunk -/

/-- The arena after the first scan of `minor_gc` moved the chunk at offset `s` to
offset `d`: `memcpy`, the new age, the forward offset in the source, the cleared mark. -/
theorem copy_survivor_facts (m s d size age v : Nat) (hsize : 12 ≤ size)
    (hd : d + size ≤ s ∨ s + size ≤ d) :
    let m' := poke (poke (poke (poke m d size (peek m s size)) (d + 1) 1 age) (s + 8) 4 v) d 1 0
    (∀ o k, 2 ≤ o → o + k ≤ size → peek m' (d + o) k = peek m (s + o) k) ∧
      peek m' d 1 = 0 ∧ peek m' (d + 1) 1 = age % 256 ∧
      peek m' (s + 8) 4 = v % 4294967296 ∧
      ∀ o k, (o + k ≤ d ∨ d + size ≤ o) → (o + k ≤ s + 8 ∨ s + 12 ≤ o) →
        peek m' o k = peek m o k := by
  intro m'
  refine ⟨?_, ?_, ?_, ?_, ?_⟩
  · intro o k ho hok
    show peek (poke _ _ _ _) _ _ = _
    rw [peek_poke_apart _ _ _ _ _ _ (by omega), peek_poke_apart _ _ _ _ _ _ (by omega),
      peek_poke_apart _ _ _ _ _ _ (by omega), peek_poke_inside _ _ _ _ _ _ hok,
      peek_peek _ _ _ _ _ hok]
  · show peek (poke _ _ _ _) _ _ = _
    rw [peek_poke_same]; norm_num
  · show peek (poke _ _ _ _) _ _ = _
    rw [peek_poke_apart _ _ _ _ _ _ (by omega), peek_poke_apart _ _ _ _ _ _ (by omega),
      peek_poke_same]
    norm_num
  · show peek (poke _ _ _ _) _ _ = _
    rw [peek_poke_apart _ _ _ _ _ _ (by omega), peek_poke_same]
    norm_num
  · intro o k h1 h2
    show peek (poke _ _ _ _) _ _ = _
    rw [peek_poke_apart _ _ _ _ _ _ (by omega), peek_poke_apart _ _ _ _ _ _ (by omega),
      peek_poke_apart _ _ _ _ _ _ (by omega), peek_poke_apart _ _ _ _ _ _ (by omega)]

/-- The arena after the second scan of `minor_gc` moved the chunk at offset `s` to
offset `d`: `memcpy`, the forward offset in the source, the cleared mark, age 1. -/
theorem copy_eden_facts (m s d size v : Nat) (hsize : 12 ≤ size)
    (hd : d + size ≤ s ∨ s + size ≤ d) :
    let m' := poke (poke (poke (poke m d size (peek m s size)) (s + 8) 4 v) d 1 0) (d + 1) 1 1
    (∀ o k, 2 ≤ o → o + k ≤ size → peek m' (d + o) k = peek m (s + o) k) ∧
      peek m' d 1 = 0 ∧ peek m' (d + 1) 1 = 1 ∧
      peek m' (s + 8) 4 = v % 4294967296 ∧
      ∀ o k, (o + k ≤ d ∨ d + size ≤ o) → (o + k ≤ s + 8 ∨ s + 12 ≤ o) →
        peek m' o k = peek m o k := by
  intro m'
  refine ⟨?_, ?_, ?_, ?_, ?_⟩
  · intro o k ho hok
    show peek (poke _ _ _ _) _ _ = _
    rw [peek_poke_apart _ _ _ _ _ _ (by omega), peek_poke_apart _ _ _ _ _ _ (by omega),
      peek_poke_apart _ _ _ _ _ _ (by omega), peek_poke_inside _ _ _ _ _ _ hok,
      peek_peek _ _ _ _ _ hok]
  · show peek (poke _ _ _ _) _ _ = _
    rw [peek_poke_apart _ _ _ _ _ _ (by omega), peek_poke_same]; norm_num
  · show peek (poke _ _ _ _) _ _ = _
    rw [peek_poke_same]; norm_num
  · show peek (poke _ _ _ _) _ _ = _
    rw [peek_poke_apart _ _ _ _ _ _ (by omega), peek_poke_apart _ _ _ _ _ _ (by omega),
      peek_poke_same]
    norm_num
  · intro o k h1 h2
    show peek (poke _ _ _ _) _ _ = _
    rw [peek_poke_apart _ _ _ _ _ _ (by omega), peek_poke_apart _ _ _ _ _ _ (by omega),
      peek_poke_apart _ _ _ _ _ _ (by omega), peek_poke_apart _ _ _ _ _ _ (by omega)]

theorem markOf_eq_rd (h : Heap) (c : Nat) : h.markOf c = h.rd c 1 := rfl
theorem ageOf_eq_rd (h : Heap) (c : Nat) : h.ageOf c = h.rd (c + 1) 1 := rfl
theorem sizeOf_eq_rd (h : Heap) (c : Nat) : h.sizeOf c = h.rd (c + 4) 4 := rfl
theorem addrOf_eq_rd (h : Heap) (c : Nat) : h.addrOf c = h.rd (c + 8) 4 := rfl
theorem countOf_eq_rd (h : Heap) (c : Nat) : h.countOf c = h.rd (c + 16) 4 := rfl
theorem refOf_eq_rd (h : Heap) (c i : Nat) : h.refOf c i = h.rd (c + 20 + 8 * i) 8 := rfl

/-- Reading away from a write. -/
theorem rd_poke_apart (h : Heap) (p n v a k : Nat) (hp : h.heap ≤ p) (ha : h.heap ≤ a)
    (hd : a + k ≤ p ∨ p + n ≤ a) :
    (h.withMem (poke h.mem (p - h.heap) n v)).rd a k = h.rd a k := by
  unfold Heap.rd
  simp only [withMem_mem, withMem_heap]
  apply peek_poke_apart
  omega

/-- Reading a part of what was written. -/
theorem rd_poke_inside (h : Heap) (p n v i k : Nat) (hp : h.heap ≤ p) (hik : i + k ≤ n) :
    (h.withMem (poke h.mem (p - h.heap) n v)).rd (p + i) k = peek v i k := by
  unfold Heap.rd
  simp only [withMem_mem, withMem_heap]
  have : p + i - h.heap = p - h.heap + i := by omega
  rw [this, peek_poke_inside _ _ _ _ _ _ hik]

/-- Reading what was written. -/
theorem rd_poke_same (h : Heap) (p n v : Nat) :
    (h.withMem (poke h.mem (p - h.heap) n v)).rd p n = v % 256 ^ n := by
  unfold Heap.rd
  simp only [withMem_mem, withMem_heap]
  rw [peek_poke_same]

theorem rd_peek (h : Heap) (a n i k : Nat) (ha : h.heap ≤ a) (hik : i + k ≤ n) :
    peek (peek h.mem (a - h.heap) n) i k = h.rd (a + i) k := by
  unfold Heap.rd
  have : a + i - h.heap = a - h.heap + i := by omega
  rw [this, peek_peek _ _ _ _ _ hik]

theorem load8_rd {h : Heap} {p : Nat} (hp : h.inArena p 1) : h.load8 p = .ok (h.rd p 1) :=
  load8_ok.2 ⟨hp, rfl⟩

theorem load32_rd {h : Heap} {p : Nat} (hp : h.inArena p 4) : h.load32 p = .ok (h.rd p 4) :=
  load32_ok.2 ⟨hp, rfl⟩

theorem load64_rd {h : Heap} {p : Nat} (hp : h.inArena p 8) : h.load64 p = .ok (h.rd p 8) :=
  load64_ok.2 ⟨hp, rfl⟩

/-- A range inside a chunk of `all` reads the same in `h` as in `h1`, unless it meets
the forward field of a chunk that was moved. -/
theorem Scan.field {h1 h : Heap} {sto n : Nat} {mv : List (Nat × Nat)} {all : List Nat}
    (hsc : Scan h1 sto h n mv) (hS : Sources h1 sto all) (hsrc : ∀ p ∈ mv, p.1 ∈ all)
    {c : Nat} (hc : c ∈ all) {a k : Nat} (hak : a + k ≤ h1.sizeOf c)
    (hcase : ∀ p ∈ mv, p.1 = c → a + k ≤ 8 ∨ 12 ≤ a) :
    h.rd (c + a) k = h1.rd (c + a) k := by
  have hin := hS.inside c hc
  have hoS := hS.off_s c hc
  have hoT := hS.off_t c hc
  have hn := hsc.n_le
  have ht := hsc.t_le
  have htg := hsc.t_ge
  apply hsc.frame
  · omega
  · omega
  · omega
  · intro p hp
    by_cases hpc : p.1 = c
    · have := hcase p hp hpc
      rw [hpc]; omega
    · have hpin := hS.inside p.1 (hsrc p hp)
      have hps := hS.size_ge p.1 (hsrc p hp)
      rcases hS.apart p.1 (hsrc p hp) c hc hpc with h3 | h3
      · right; omega
      · left; omega


/-- The arena after the first scan of `minor_gc` moved the chunk at `s` to `d`. -/
theorem copy_survivor_rd (h : Heap) (s d size age v : Nat) (hs : h.heap ≤ s) (hd : h.heap ≤ d)
    (hsize : 12 ≤ size) (hv : v < 4294967296) (hage : age < 256)
    (hapart : d + size ≤ s ∨ s + size ≤ d) :
    let g := h.withMem (poke (poke (poke (poke h.mem (d - h.heap) size (peek h.mem (s - h.heap) size))
      (d + 1 - h.heap) 1 age) (s + 8 - h.heap) 4 v) (d - h.heap) 1 0)
    (∀ o k, 2 ≤ o → o + k ≤ size → g.rd (d + o) k = h.rd (s + o) k) ∧
      g.rd d 1 = 0 ∧ g.rd (d + 1) 1 = age ∧ g.rd (s + 8) 4 = v ∧
      ∀ a k, h.heap ≤ a → (a + k ≤ d ∨ d + size ≤ a) → (a + k ≤ s + 8 ∨ s + 12 ≤ a) →
        g.rd a k = h.rd a k := by
  intro g
  have e1 : d + 1 - h.heap = d - h.heap + 1 := by omega
  have e2 : s + 8 - h.heap = s - h.heap + 8 := by omega
  obtain ⟨f1, f2, f3, f4, f5⟩ :=
    copy_survivor_facts h.mem (s - h.heap) (d - h.heap) size age v hsize (by omega)
  have hg : g.mem = poke (poke (poke (poke h.mem (d - h.heap) size (peek h.mem (s - h.heap) size))
      (d - h.heap + 1) 1 age) (s - h.heap + 8) 4 v) (d - h.heap) 1 0 := by
    show poke _ _ _ _ = _
    rw [e1, e2]
  have hgh : g.heap = h.heap := rfl
  refine ⟨?_, ?_, ?_, ?_, ?_⟩
  · intro o k ho hok
    have e3 : d + o - h.heap = d - h.heap + o := by omega
    have e4 : s + o - h.heap = s - h.heap + o := by omega
    unfold Heap.rd
    rw [hg, hgh, e3, e4]
    exact f1 o k ho hok
  · unfold Heap.rd
    rw [hg, hgh]; exact f2
  · unfold Heap.rd
    rw [hg, hgh, e1, f3]
    exact Nat.mod_eq_of_lt hage
  · unfold Heap.rd
    rw [hg, hgh, e2, f4]
    exact Nat.mod_eq_of_lt hv
  · intro a k ha h1 h2
    unfold Heap.rd
    rw [hg, hgh]
    exact f5 _ _ (by omega) (by omega)

/-- The arena after the second scan of `minor_gc` moved the chunk at `s` to `d`. -/
theorem copy_eden_rd (h : Heap) (s d size v : Nat) (hs : h.heap ≤ s) (hd : h.heap ≤ d)
    (hsize : 12 ≤ size) (hv : v < 4294967296)
    (hapart : d + size ≤ s ∨ s + size ≤ d) :
    let g := h.withMem (poke (poke (poke (poke h.mem (d - h.heap) size (peek h.mem (s - h.heap) size))
      (s + 8 - h.heap) 4 v) (d - h.heap) 1 0) (d + 1 - h.heap) 1 1)
    (∀ o k, 2 ≤ o → o + k ≤ size → g.rd (d + o) k = h.rd (s + o) k) ∧
      g.rd d 1 = 0 ∧ g.rd (d + 1) 1 = 1 ∧ g.rd (s + 8) 4 = v ∧
      ∀ a k, h.heap ≤ a → (a + k ≤ d ∨ d + size ≤ a) → (a + k ≤ s + 8 ∨ s + 12 ≤ a) →
        g.rd a k = h.rd a k := by
  intro g
  have e1 : d + 1 - h.heap = d - h.heap + 1 := by omega
  have e2 : s + 8 - h.heap = s - h.heap + 8 := by omega
  obtain ⟨f1, f2, f3, f4, f5⟩ :=
    copy_eden_facts h.mem (s - h.heap) (d - h.heap) size v hsize (by omega)
  have hg : g.mem = poke (poke (poke (poke h.mem (d - h.heap) size (peek h.mem (s - h.heap) size))
      (s - h.heap + 8) 4 v) (d - h.heap) 1 0) (d - h.heap + 1) 1 1 := by
    show poke _ _ _ _ = _
    rw [e1, e2]
  have hgh : g.heap = h.heap := rfl
  refine ⟨?_, ?_, ?_, ?_, ?_⟩
  · intro o k ho hok
    have e3 : d + o - h.heap = d - h.heap + o := by omega
    have e4 : s + o - h.heap = s - h.heap + o := by omega
    unfold Heap.rd
    rw [hg, hgh, e3, e4]
    exact f1 o k ho hok
  · unfold Heap.rd
    rw [hg, hgh]; exact f2
  · unfold Heap.rd
    rw [hg, hgh, e1, f3]
  · unfold Heap.rd
    rw [hg, hgh, e2, f4]
    exact Nat.mod_eq_of_lt hv
  · intro a k ha h1 h2
    unfold Heap.rd
    rw [hg, hgh]
    exact f5 _ _ (by omega) (by omega)

/-! ## Tilings -/

theorem Tiling.tiling_congr {h g : Heap} : ∀ {l : List Nat} {a b : Nat},
    (∀ c ∈ l, g.sizeOf c = h.sizeOf c) → Tiling h a b l → Tiling g a b l := by
  intro l
  induction l with
  | nil => intro a b _ ht; exact ht
  | cons c l ih =>
    intro a b hs ht
    obtain ⟨rfl, h12, ht⟩ := ht
    have hc := hs c (List.mem_cons_self _ _)
    refine ⟨rfl, by omega, ?_⟩
    rw [hc]
    exact ih (fun x hx => hs x (List.mem_cons_of_mem _ hx)) ht

theorem Tiling.le {h : Heap} : ∀ {l : List Nat} {a b : Nat}, Tiling h a b l → a ≤ b := by
  intro l
  induction l with
  | nil => intro a b ht; exact Nat.le_of_eq ht
  | cons c l ih =>
    intro a b ht
    obtain ⟨rfl, h12, ht⟩ := ht
    have := ih ht
    omega

theorem Tiling.mem {h : Heap} : ∀ {l : List Nat} {a b : Nat}, Tiling h a b l →
    ∀ c ∈ l, a ≤ c ∧ c + h.sizeOf c ≤ b ∧ 12 ≤ h.sizeOf c := by
  intro l
  induction l with
  | nil => intro a b _ c hc; cases hc
  | cons x l ih =>
    intro a b ht c hc
    obtain ⟨rfl, h12, ht⟩ := ht
    rcases List.mem_cons.1 hc with rfl | hc
    · exact ⟨Nat.le_refl _, ht.le, h12⟩
    · have := ih ht c hc
      omega

theorem Tiling.apart {h : Heap} : ∀ {l : List Nat} {a b : Nat}, Tiling h a b l →
    ∀ c ∈ l, ∀ d ∈ l, c ≠ d → c + h.sizeOf c ≤ d ∨ d + h.sizeOf d ≤ c := by
  intro l
  induction l with
  | nil => intro a b _ c hc; cases hc
  | cons x l ih =>
    intro a b ht c hc d hd hne
    obtain ⟨hxa, h12, ht⟩ := ht
    rcases List.mem_cons.1 hc with hcx | hc' <;> rcases List.mem_cons.1 hd with hdx | hd'
    · omega
    · left
      have := (ht.mem d hd').1
      rw [hcx, hxa]; exact this
    · right
      have := (ht.mem c hc').1
      rw [hdx, hxa]; exact this
    · exact ih ht c hc' d hd' hne

theorem Tiling.snoc {h : Heap} : ∀ {l : List Nat} {a b : Nat}, Tiling h a b l →
    12 ≤ h.sizeOf b → Tiling h a (b + h.sizeOf b) (l ++ [b]) := by
  intro l
  induction l with
  | nil =>
    intro a b ht h12
    have : a = b := ht
    subst this
    exact ⟨rfl, h12, rfl⟩
  | cons x l ih =>
    intro a b ht h12
    obtain ⟨rfl, hx, ht⟩ := ht
    exact ⟨rfl, hx, ih ht h12⟩

/-- The first chunk of a tiling does not occur in the rest. -/
theorem Tiling.head_fresh {h : Heap} {c : Nat} {l : List Nat} {a b : Nat}
    (ht : Tiling h a b (c :: l)) : c ∉ l := by
  obtain ⟨rfl, h12, ht⟩ := ht
  intro hc
  have := (ht.mem c hc).1
  omega

theorem Tiling.nodup {h : Heap} : ∀ {l : List Nat} {a b : Nat}, Tiling h a b l → l.Nodup := by
  intro l
  induction l with
  | nil => intro a b _; exact List.nodup_nil
  | cons c l ih =>
    intro a b ht
    have hf := ht.head_fresh
    obtain ⟨rfl, h12, ht⟩ := ht
    exact List.nodup_cons.2 ⟨hf, ih ht⟩
/-- A range inside an older copy is not touched by a move. -/
theorem Move.older {h1 h g : Heap} {sto n n' c d a : Nat} {mv : List (Nat × Nat)}
    {all : List Nat} (hm : Move h1 sto h n c d a g n') (hsc : Scan h1 sto h n mv)
    (hS : Sources h1 sto all) (hc : c ∈ all)
    {p : Nat × Nat} (hp : p ∈ mv) {o k : Nat} (hok : o + k ≤ h1.sizeOf p.1) :
    g.rd (p.2 + o) k = h.rd (p.2 + o) k := by
  have hoS := hS.off_s c hc
  have hoT := hS.off_t c hc
  have hsz := hS.size_ge c hc
  have hsto := hS.sto_in
  have hn := hsc.n_le
  have ht := hsc.t_le
  have htg := hsc.t_ge
  obtain ⟨hz, -, -, -⟩ := hsc.moved p hp
  have hdz : (sto + n ≤ d ∧ d + h1.sizeOf c ≤ sto + n' ∧ n' ≤ h1.survivor_max_size) ∨
      (h1.tenured_ptr + h.tenured_size ≤ d ∧
        d + h1.sizeOf c ≤ h1.tenured_ptr + g.tenured_size) := by
    rcases hm.dst with ⟨e1, e2, _, e4⟩ | ⟨e1, e2, e3, _⟩
    · left; omega
    · right; omega
  apply hm.frame
  · rcases hz with hz | hz <;> omega
  · rcases hdz with hdz | hdz <;> rcases hz with hz | hz <;> omega
  · rcases hz with hz | hz <;> omega

/-- The scan state after one more chunk `c` was copied to `d`. -/
theorem scan_move {h1 h g : Heap} {sto n n' c d a : Nat} {mv : List (Nat × Nat)}
    {all : List Nat} (hm : Move h1 sto h n c d a g n') (hsc : Scan h1 sto h n mv)
    (hS : Sources h1 sto all) (hsrc : ∀ p ∈ mv, p.1 ∈ all) (hc : c ∈ all)
    (hfresh : ∀ p ∈ mv, p.1 ≠ c) :
    Scan h1 sto g n' ((c, d) :: mv) := by
  have hin := hS.inside c hc
  have hoS := hS.off_s c hc
  have hoT := hS.off_t c hc
  have hsz := hS.size_ge c hc
  have hsto := hS.sto_in
  have hn := hsc.n_le
  have ht := hsc.t_le
  have htg := hsc.t_ge
  have hdst := hm.dst
  refine ⟨hsc.same.same_trans hm.same, ?_, ?_, ?_, ?_, ?_, ?_⟩
  · rcases hdst with ⟨_, _, h3, _⟩ | ⟨_, h3, _, _⟩ <;> omega
  · rcases hdst with ⟨_, _, _, h3⟩ | ⟨_, _, h3, _⟩ <;> omega
  · rcases hdst with ⟨_, _, _, h3⟩ | ⟨_, _, _, h3⟩ <;> omega
  · intro x k ha0 ha hb hmv
    have hcm := hmv (c, d) (List.mem_cons_self _ _)
    simp only at hcm
    rw [hm.frame x k ha0 (by rcases hdst with ⟨e1, e2, _, e4⟩ | ⟨e1, e2, e3, _⟩ <;> omega) hcm]
    apply hsc.frame x k ha0
    · rcases hdst with ⟨e1, e2, _, e4⟩ | ⟨e1, e2, e3, _⟩ <;> omega
    · rcases hdst with ⟨e1, e2, _, e4⟩ | ⟨e1, e2, e3, _⟩ <;> omega
    · intro p hp; exact hmv p (List.mem_cons_of_mem _ hp)
  · intro p hp
    rcases List.mem_cons.1 hp with rfl | hp
    · simp only
      refine ⟨?_, ?_, ?_, ?_⟩
      · rcases hdst with ⟨e1, e2, _, e4⟩ | ⟨e1, e2, e3, _⟩
        · left; omega
        · right; omega
      · rw [addrOf_eq_rd, hm.addr]
      · rw [markOf_eq_rd, hm.mark]
      · intro o k ho hok
        rw [hm.body o k ho hok]
        exact hsc.field hS hsrc hc hok (fun p hp hpc => absurd hpc (hfresh p hp))
    · obtain ⟨hz, ha, hmk, hcp⟩ := hsc.moved p hp
      have hpc := hfresh p hp
      have hpall := hsrc p hp
      have hpin := hS.inside p.1 hpall
      have hpsz := hS.size_ge p.1 hpall
      have hap := hS.apart p.1 hpall c hc hpc
      have hn' : n' ≤ h1.survivor_max_size ∧ n ≤ n' ∧ h.tenured_size ≤ g.tenured_size ∧
          g.tenured_size ≤ h1.tenured_max_size := by
        rcases hdst with ⟨e1, e2, e3, e4⟩ | ⟨e1, e2, e3, e4⟩ <;> omega
      refine ⟨?_, ?_, ?_, ?_⟩
      · clear hdst hap
        rcases hz with hz | hz
        · left; omega
        · right; omega
      · rw [← ha, addrOf_eq_rd, addrOf_eq_rd]
        congr 1
        have hpS := hS.off_s p.1 hpall
        have hpT := hS.off_t p.1 hpall
        have hdz : (sto ≤ d ∧ d + h1.sizeOf c ≤ sto + n') ∨
            (h1.tenured_ptr + h.tenured_size ≤ d ∧
              d + h1.sizeOf c ≤ h1.tenured_ptr + g.tenured_size) := by
          rcases hdst with ⟨e1, e2, _, e4⟩ | ⟨e1, e2, e3, _⟩
          · left; omega
          · right; omega
        clear hdst
        apply hm.frame
        · omega
        · clear hap; rcases hdz with hdz | hdz <;> omega
        · omega
      · rw [← hmk, markOf_eq_rd, markOf_eq_rd]
        have := hm.older hsc hS hc hp (show 0 + 1 ≤ h1.sizeOf p.1 by omega)
        simpa using this
      · intro o k ho hok
        rw [← hcp o k ho hok]
        exact hm.older hsc hS hc hp hok
  · have hdz : (sto + n ≤ d ∧ d + h1.sizeOf c ≤ sto + n' ∧ n' ≤ h1.survivor_max_size) ∨
        (h1.tenured_ptr + h.tenured_size ≤ d ∧
          d + h1.sizeOf c ≤ h1.tenured_ptr + g.tenured_size) := by
      rcases hdst with ⟨e1, e2, _, e4⟩ | ⟨e1, e2, e3, _⟩
      · left; omega
      · right; omega
    have key : ∀ p ∈ mv, p.2 + h1.sizeOf p.1 ≤ d ∨ d + h1.sizeOf c ≤ p.2 := by
      intro p hp
      obtain ⟨hz, -, -, -⟩ := hsc.moved p hp
      clear hdst
      rcases hdz with hdz | hdz <;> rcases hz with hz | hz <;> omega
    intro p hp q hq hpq
    rcases List.mem_cons.1 hp with rfl | hp <;> rcases List.mem_cons.1 hq with rfl | hq
    · exact absurd rfl hpq
    · exact (key q hq).symm
    · exact key p hp
    · exact hsc.apart p hp q hq hpq

/-- The copies after one more chunk was copied. -/
theorem placed_move {h1 h g : Heap} {sto n n' c d a : Nat} {mv : List (Nat × Nat)}
    {all sv tn : List Nat} {ag : Nat → Nat} (hm : Move h1 sto h n c d a g n')
    (hsc : Scan h1 sto h n mv) (hpl : Placed h1 sto ag h n mv sv tn)
    (hS : Sources h1 sto all) (hsrc : ∀ p ∈ mv, p.1 ∈ all) (hc : c ∈ all)
    (hfresh : ∀ p ∈ mv, p.1 ≠ c) (hag : ag c = a) :
    (d = sto + n ∧ Placed h1 sto ag g n' ((c, d) :: mv) (sv ++ [d]) tn) ∨
      (d = h1.tenured_ptr + h.tenured_size ∧ Placed h1 sto ag g n' ((c, d) :: mv) sv (tn ++ [d])) := by
  have hsz := hS.size_ge c hc
  have hszd : g.sizeOf d = h1.sizeOf c := by
    rw [sizeOf_eq_rd, hm.body 4 4 (by omega) (by omega)]
    have := hsc.field hS hsrc hc (show 4 + 4 ≤ h1.sizeOf c by omega)
      (fun p hp hpc => absurd hpc (hfresh p hp))
    rw [this, ← sizeOf_eq_rd]
  have hold : ∀ p ∈ mv, g.sizeOf p.2 = h.sizeOf p.2 := by
    intro p hp
    have hps := hS.size_ge p.1 (hsrc p hp)
    rw [sizeOf_eq_rd, sizeOf_eq_rd]
    exact hm.older hsc hS hc hp (by omega)
  have hage : ∀ p ∈ (c, d) :: mv, g.ageOf p.2 = ag p.1 := by
    intro p hp
    rcases List.mem_cons.1 hp with rfl | hp
    · simp only; rw [ageOf_eq_rd, hm.age, hag]
    · have hps := hS.size_ge p.1 (hsrc p hp)
      rw [← hpl.age p hp, ageOf_eq_rd, ageOf_eq_rd]
      exact hm.older hsc hS hc hp (by omega)
  have hsize : ∀ p ∈ (c, d) :: mv, g.sizeOf p.2 = h1.sizeOf p.1 := by
    intro p hp
    rcases List.mem_cons.1 hp with rfl | hp
    · exact hszd
    · rw [hold p hp, hpl.size p hp]
  have hts : Tiling g sto (sto + n) sv := by
    apply Tiling.tiling_congr _ hpl.tile_s
    intro x hx
    obtain ⟨p, hp, rfl⟩ := hpl.origin x (Or.inl hx)
    exact hold p hp
  have htt : Tiling g (h1.tenured_ptr + h1.tenured_size) (h1.tenured_ptr + h.tenured_size) tn := by
    apply Tiling.tiling_congr _ hpl.tile_t
    intro x hx
    obtain ⟨p, hp, rfl⟩ := hpl.origin x (Or.inr hx)
    exact hold p hp
  rcases hm.dst with ⟨e1, e2, e3, e4⟩ | ⟨e1, e2, e3, e4⟩
  · left
    refine ⟨e1, hage, hsize, ?_, ?_, ?_, ?_⟩
    · have := hts.snoc (by rw [← e1, hszd]; exact hsz)
      rw [← e1, hszd] at this
      rw [e2, ← Nat.add_assoc, ← e1]
      exact this
    · rw [e4]; exact htt
    · intro p hp
      rcases List.mem_cons.1 hp with rfl | hp
      · left; simp
      · rcases hpl.copies p hp with h' | h'
        · left; exact List.mem_append_left _ h'
        · right; exact h'
    · intro x hx
      rcases hx with hx | hx
      · rcases List.mem_append.1 hx with hx | hx
        · obtain ⟨p, hp, rfl⟩ := hpl.origin x (Or.inl hx)
          exact ⟨p, List.mem_cons_of_mem _ hp, rfl⟩
        · simp only [List.mem_singleton] at hx
          exact ⟨(c, d), List.mem_cons_self _ _, hx.symm⟩
      · obtain ⟨p, hp, rfl⟩ := hpl.origin x (Or.inr hx)
        exact ⟨p, List.mem_cons_of_mem _ hp, rfl⟩
  · right
    refine ⟨e1, hage, hsize, ?_, ?_, ?_, ?_⟩
    · rw [e2]; exact hts
    · have := htt.snoc (by rw [← e1, hszd]; exact hsz)
      rw [← e1, hszd] at this
      rw [e3, ← Nat.add_assoc, ← e1]
      exact this
    · intro p hp
      rcases List.mem_cons.1 hp with rfl | hp
      · right; simp
      · rcases hpl.copies p hp with h' | h'
        · left; exact h'
        · right; exact List.mem_append_left _ h'
    · intro x hx
      rcases hx with hx | hx
      · obtain ⟨p, hp, rfl⟩ := hpl.origin x (Or.inl hx)
        exact ⟨p, List.mem_cons_of_mem _ hp, rfl⟩
      · rcases List.mem_append.1 hx with hx | hx
        · obtain ⟨p, hp, rfl⟩ := hpl.origin x (Or.inr hx)
          exact ⟨p, List.mem_cons_of_mem _ hp, rfl⟩
        · simp only [List.mem_singleton] at hx
          exact ⟨(c, d), List.mem_cons_self _ _, hx.symm⟩

/-- A round of the first scan on a chunk that is not marked. -/
theorem survivor_step_dead (h : Heap) (sto c n : Nat) (hmark : h.rd c 1 = 0)
    (hc : h.heap ≤ c) (hcin : c + 12 ≤ h.heap + h.heap_max_size) :
    survivor_step sto h c n = .ok (h, c + h.rd (c + 4) 4, n) := by
  unfold survivor_step
  rw [load8_rd ⟨hc, by omega⟩, ok_bind, load32_rd ⟨by omega, by omega⟩, ok_bind]
  simp only [hmark, if_true]
  rfl

/-- The copy made by a round of the first scan: `memcpy`, the new age, the forward
offset, the cleared mark, and the size read back from the copy. -/
theorem survivor_copy_eval (ha : Heap) (c d nn : Nat)
    (h12 : 12 ≤ ha.rd (c + 4) 4) (hc : ha.heap ≤ c)
    (hcin : c + ha.rd (c + 4) 4 ≤ ha.heap + ha.heap_max_size)
    (hmax : ha.heap_max_size < 4294967296)
    (hd : ha.heap ≤ d) (hdin : d + ha.rd (c + 4) 4 ≤ ha.heap + ha.heap_max_size)
    (hapart : d + ha.rd (c + 4) 4 ≤ c ∨ c + ha.rd (c + 4) 4 ≤ d) :
    ∃ g, (do
        let h_1 ← ha.memcpy d c (ha.rd (c + 4) 4)
        let dage ← h_1.load8 (d + 1)
        let h_2 ← h_1.store8 (d + 1) (if dage = 255 then 255 else dage + 1)
        let h_3 ← h_2.store32 (c + 8) ((d - h_2.heap) % 4294967296)
        let h_4 ← h_3.store8 d 0
        let dsize ← h_4.load32 (d + 4)
        pure (h_4, c + dsize, nn) : M (Heap × Nat × Nat)) = .ok (g, c + ha.rd (c + 4) 4, nn) ∧
      (∃ m, g = ha.withMem m) ∧
      (∀ o k, 2 ≤ o → o + k ≤ ha.rd (c + 4) 4 → g.rd (d + o) k = ha.rd (c + o) k) ∧
      g.rd d 1 = 0 ∧
      g.rd (d + 1) 1 = (if ha.rd (c + 1) 1 = 255 then 255 else ha.rd (c + 1) 1 + 1) ∧
      g.rd (c + 8) 4 + ha.heap = d ∧
      ∀ x k, ha.heap ≤ x → (x + k ≤ d ∨ d + ha.rd (c + 4) 4 ≤ x) →
        (x + k ≤ c + 8 ∨ c + 12 ≤ x) → g.rd x k = ha.rd x k := by
  have hage : ha.rd (c + 1) 1 < 256 := by
    unfold Heap.rd; exact peek_lt _ _ 1
  have hage' : (if ha.rd (c + 1) 1 = 255 then 255 else ha.rd (c + 1) 1 + 1) < 256 := by
    split <;> omega
  obtain ⟨f1, f2, f3, f4, f5⟩ := copy_survivor_rd ha c d (ha.rd (c + 4) 4)
    (if ha.rd (c + 1) 1 = 255 then 255 else ha.rd (c + 1) 1 + 1) ((d - ha.heap) % 4294967296)
    hc hd h12 (Nat.mod_lt _ (by norm_num)) hage' hapart
  refine ⟨_, ?_, ⟨_, rfl⟩, f1, f2, f3, ?_, f5⟩
  · have e1 : ha.memcpy d c (ha.rd (c + 4) 4) = .ok (ha.withMem
        (poke ha.mem (d - ha.heap) (ha.rd (c + 4) 4) (peek ha.mem (c - ha.heap) (ha.rd (c + 4) 4)))) :=
      memcpy_ok.2 ⟨⟨⟨hd, hdin⟩, ⟨hc, hcin⟩, Or.inr hapart⟩, rfl⟩
    rw [e1, ok_bind]
    have e2 : (ha.withMem (poke ha.mem (d - ha.heap) (ha.rd (c + 4) 4)
        (peek ha.mem (c - ha.heap) (ha.rd (c + 4) 4)))).rd (d + 1) 1 = ha.rd (c + 1) 1 := by
      rw [rd_poke_inside _ _ _ _ _ _ hd (by omega), rd_peek _ _ _ _ _ hc (by omega)]
    rw [load8_rd ⟨by simp only [withMem_heap]; omega,
      by simp only [withMem_heap, withMem_heap_max_size]; omega⟩, ok_bind, e2]
    rw [store8_ok.2 ⟨⟨by simp only [withMem_heap]; omega,
      by simp only [withMem_heap, withMem_heap_max_size]; omega⟩, rfl⟩, ok_bind]
    rw [store32_ok.2 ⟨⟨by simp only [withMem_heap]; omega,
      by simp only [withMem_heap, withMem_heap_max_size]; omega⟩, rfl⟩, ok_bind]
    rw [store8_ok.2 ⟨⟨by simp only [withMem_heap]; omega,
      by simp only [withMem_heap, withMem_heap_max_size]; omega⟩, rfl⟩, ok_bind]
    simp only [withMem_withMem, withMem_mem, withMem_heap]
    rw [load32_rd ⟨by simp only [withMem_heap]; omega,
      by simp only [withMem_heap, withMem_heap_max_size]; omega⟩, ok_bind]
    have e3 := f1 4 4 (by omega) (by omega)
    rw [e3]
    rfl
  · rw [f4, Nat.mod_eq_of_lt (by omega)]
    omega

/-- A round of the first scan on a marked chunk. -/
theorem survivor_step_live (h : Heap) (sto c n : Nat)
    (hmark : h.rd c 1 ≠ 0) (h12 : 12 ≤ h.rd (c + 4) 4) (hc : h.heap ≤ c)
    (hcin : c + h.rd (c + 4) 4 ≤ h.heap + h.heap_max_size)
    (hmax : h.heap_max_size < 4294967296)
    (hsum : h.tenured_size + h.rd (c + 4) 4 < 4294967296)
    (hn : n + h.rd (c + 4) 4 < 4294967296)
    (hsto : h.heap ≤ sto) (hst : sto + n + h.rd (c + 4) 4 ≤ h.heap + h.heap_max_size)
    (hten : h.heap ≤ h.tenured_ptr)
    (htin : h.tenured_ptr + h.tenured_max_size ≤ h.heap + h.heap_max_size)
    (hd1 : sto + n + h.rd (c + 4) 4 ≤ c ∨ c + h.rd (c + 4) 4 ≤ sto + n)
    (hd2 : h.tenured_size + h.rd (c + 4) 4 < h.tenured_max_size →
      (h.tenured_ptr + h.tenured_size + h.rd (c + 4) 4 ≤ c ∨
        c + h.rd (c + 4) 4 ≤ h.tenured_ptr + h.tenured_size)) :
    ∃ g d n', survivor_step sto h c n = .ok (g, c + h.rd (c + 4) 4, n') ∧
      ScanSame h g ∧ g.survivor_size = h.survivor_size ∧ g.survivor = h.survivor ∧
      ((h.rd (c + 1) 1 ≥ h.age_cycles ∧ h.tenured_size + h.rd (c + 4) 4 < h.tenured_max_size ∧
          d = h.tenured_ptr + h.tenured_size ∧ n' = n ∧
          g.tenured_size = h.tenured_size + h.rd (c + 4) 4) ∨
        (¬ (h.rd (c + 1) 1 ≥ h.age_cycles ∧
            h.tenured_size + h.rd (c + 4) 4 < h.tenured_max_size) ∧
          d = sto + n ∧ n' = n + h.rd (c + 4) 4 ∧ g.tenured_size = h.tenured_size)) ∧
      (∀ o k, 2 ≤ o → o + k ≤ h.rd (c + 4) 4 → g.rd (d + o) k = h.rd (c + o) k) ∧
      g.rd d 1 = 0 ∧
      g.rd (d + 1) 1 = (if h.rd (c + 1) 1 = 255 then 255 else h.rd (c + 1) 1 + 1) ∧
      g.rd (c + 8) 4 + h.heap = d ∧
      ∀ x k, h.heap ≤ x → (x + k ≤ d ∨ d + h.rd (c + 4) 4 ≤ x) →
        (x + k ≤ c + 8 ∨ c + 12 ≤ x) → g.rd x k = h.rd x k := by
  have hsz : h.rd (c + 4) 4 < 4294967296 := by unfold Heap.rd; exact peek_lt _ _ 4
  by_cases hp : h.rd (c + 1) 1 ≥ h.age_cycles ∧ h.tenured_size + h.rd (c + 4) 4 < h.tenured_max_size
  · obtain ⟨g, e, ⟨m, hg⟩, f1, f2, f3, f4, f5⟩ := survivor_copy_eval
      { h with tenured_size := (h.tenured_size + h.rd (c + 4) 4) % 4294967296 } c
      (h.tenured_ptr + h.tenured_size) n h12 hc hcin hmax (by show h.heap ≤ h.tenured_ptr + h.tenured_size; omega)
      (by show h.tenured_ptr + h.tenured_size + h.rd (c + 4) 4 ≤ h.heap + h.heap_max_size
          have := hp.2; omega) (hd2 hp.2)
    refine ⟨g, h.tenured_ptr + h.tenured_size, n, ?_, ?_, ?_, ?_, Or.inl ⟨hp.1, hp.2, rfl, rfl, ?_⟩,
      f1, f2, f3, f4, f5⟩
    · unfold survivor_step
      rw [load8_rd ⟨hc, by omega⟩, ok_bind, load32_rd ⟨by omega, by omega⟩, ok_bind]
      simp only [hmark, if_false]
      rw [load8_rd ⟨by omega, by omega⟩, ok_bind]
      have hp' : h.rd (c + 1) 1 ≥ h.age_cycles ∧
          (h.tenured_size + h.rd (c + 4) 4) % 4294967296 < h.tenured_max_size := by
        rw [Nat.mod_eq_of_lt hsum]; exact hp
      simp only [hp', and_self, if_true, pure_bind]
      exact e
    · rw [hg]; exact (ScanSame.set_tenured_size h _).same_trans (ScanSame.same_withMem _ _)
    · rw [hg]; rfl
    · rw [hg]; rfl
    · rw [hg]; exact Nat.mod_eq_of_lt hsum
  · obtain ⟨g, e, ⟨m, hg⟩, f1, f2, f3, f4, f5⟩ := survivor_copy_eval
      { h with gc := (h.gc + (if h.rd (c + 1) 1 ≥ h.age_cycles then 1 else 0)) % 256 } c
      (sto + n) ((n + h.rd (c + 4) 4) % 4294967296) h12 hc hcin hmax
      (by show h.heap ≤ sto + n; omega)
      (by show sto + n + h.rd (c + 4) 4 ≤ h.heap + h.heap_max_size; omega) hd1
    refine ⟨g, sto + n, n + h.rd (c + 4) 4, ?_, ?_, ?_, ?_, Or.inr ⟨hp, rfl, rfl, ?_⟩,
      f1, f2, f3, f4, f5⟩
    · unfold survivor_step
      rw [load8_rd ⟨hc, by omega⟩, ok_bind, load32_rd ⟨by omega, by omega⟩, ok_bind]
      simp only [hmark, if_false]
      rw [load8_rd ⟨by omega, by omega⟩, ok_bind]
      have hp' : ¬ (h.rd (c + 1) 1 ≥ h.age_cycles ∧
          (h.tenured_size + h.rd (c + 4) 4) % 4294967296 < h.tenured_max_size) := by
        rw [Nat.mod_eq_of_lt hsum]; exact hp
      simp only [hp', if_false, pure_bind]
      rw [Nat.mod_eq_of_lt hn] at e ⊢
      exact e
    · rw [hg]; exact (ScanSame.set_gc h _).same_trans (ScanSame.same_withMem _ _)
    · rw [hg]; rfl
    · rw [hg]; rfl
    · rw [hg]; rfl

/-- The header fields of a chunk not moved yet read the same as after the mark phase. -/
theorem Scan.header {h1 h : Heap} {sto n : Nat} {mv : List (Nat × Nat)} {all : List Nat}
    (hsc : Scan h1 sto h n mv) (hS : Sources h1 sto all) (hsrc : ∀ p ∈ mv, p.1 ∈ all)
    {c : Nat} (hc : c ∈ all) (hfresh : ∀ p ∈ mv, p.1 ≠ c) :
    h.rd c 1 = h1.markOf c ∧ h.rd (c + 1) 1 = h1.ageOf c ∧ h.rd (c + 4) 4 = h1.sizeOf c := by
  have hsz := hS.size_ge c hc
  have hf : ∀ p ∈ mv, p.1 = c → ∀ a k : Nat, a + k ≤ 8 ∨ 12 ≤ a :=
    fun p hp hpc => absurd hpc (hfresh p hp)
  refine ⟨?_, ?_, ?_⟩
  · have := hsc.field hS hsrc hc (show 0 + 1 ≤ h1.sizeOf c by omega) (fun p hp hpc => hf p hp hpc _ _)
    simpa [markOf_eq_rd] using this
  · have := hsc.field hS hsrc hc (show 1 + 1 ≤ h1.sizeOf c by omega) (fun p hp hpc => hf p hp hpc _ _)
    simpa [ageOf_eq_rd] using this
  · have := hsc.field hS hsrc hc (show 4 + 4 ≤ h1.sizeOf c by omega) (fun p hp hpc => hf p hp hpc _ _)
    simpa [sizeOf_eq_rd] using this

/-- A round of the first scan, in the scan state. -/
theorem survivor_round {h1 h : Heap} {sto n : Nat} {mv : List (Nat × Nat)} {all : List Nat}
    (hsc : Scan h1 sto h n mv) (hS : Sources h1 sto all) (hsrc : ∀ p ∈ mv, p.1 ∈ all)
    {c : Nat} (hc : c ∈ all) (hfresh : ∀ p ∈ mv, p.1 ≠ c)
    (hs1 : h.survivor_size = h1.survivor_size) (hs2 : h.survivor = h1.survivor)
    (hroom : n + h1.sizeOf c ≤ h1.survivor_max_size) :
    (h1.markOf c = 0 ∧ survivor_step sto h c n = .ok (h, c + h1.sizeOf c, n)) ∨
    (h1.markOf c ≠ 0 ∧ ∃ g d n', survivor_step sto h c n = .ok (g, c + h1.sizeOf c, n') ∧
      Move h1 sto h n c d (if h1.ageOf c = 255 then 255 else h1.ageOf c + 1) g n' ∧
      g.survivor_size = h1.survivor_size ∧ g.survivor = h1.survivor ∧
      (g.tenured_size, n') =
        (if h1.ageOf c ≥ h1.age_cycles ∧ h.tenured_size + h1.sizeOf c < h1.tenured_max_size
          then (h.tenured_size + h1.sizeOf c, n) else (h.tenured_size, n + h1.sizeOf c))) := by
  obtain ⟨em, ea, es⟩ := hsc.header hS hsrc hc hfresh
  have hin := hS.inside c hc
  have hoS := hS.off_s c hc
  have hoT := hS.off_t c hc
  have hsz := hS.size_ge c hc
  have hsto := hS.sto_in
  have hn := hsc.n_le
  have ht := hsc.t_le
  have htg := hsc.t_ge
  have hl := hS.valid.layout
  have hb := hl.bound
  have htot := hl.total
  have hta := hl.tenured_at
  have e1 := hsc.same.heap
  have e2 := hsc.same.heap_max_size
  have e3 := hsc.same.tenured_ptr
  have e4 := hsc.same.tenured_max_size
  have e5 := hsc.same.age_cycles
  by_cases hm : h1.markOf c = 0
  · left
    refine ⟨hm, ?_⟩
    have := survivor_step_dead h sto c n (by rw [em]; exact hm) (by omega) (by omega)
    rw [es] at this
    exact this
  · right
    refine ⟨hm, ?_⟩
    obtain ⟨g, d, n', e, hsame, g1, g2, hcase, f1, f2, f3, f4, f5⟩ :=
      survivor_step_live h sto c n (by rw [em]; exact hm) (by omega) (by omega) (by omega)
        (by omega) (by omega) (by omega) (by omega) (by omega) (by omega) (by omega)
        (by omega) (by intro hlt; omega)
    rw [es] at e f1 f5 hcase
    rw [ea] at f3 hcase
    rw [e1] at f4 f5
    rw [e3, e4, e5] at hcase
    refine ⟨g, d, n', e, ⟨hsame, ?_, f1, f2, f3, f4, f5⟩, by rw [g1, hs1], by rw [g2, hs2], ?_⟩
    · rcases hcase with ⟨c1, c2, c3, c4, c5⟩ | ⟨c1, c2, c3, c4⟩
      · right; exact ⟨c3, c4, c5, by omega⟩
      · left; exact ⟨c2, c3, by omega, c4⟩
    · rcases hcase with ⟨c1, c2, c3, c4, c5⟩ | ⟨c1, c2, c3, c4⟩
      · rw [if_pos ⟨c1, c2⟩, c4, c5]
      · rw [if_neg c1, c3, c4]

/-- The first scan of `minor_gc` over the chunks `l` that tile the rest of the active
survivor space. -/
theorem survivor_loop_spec {h1 : Heap} {sto sfrom : Nat} {all : List Nat} {ag : Nat → Nat}
    (hS : Sources h1 sto all) :
    ∀ (l : List Nat) (fuel : Nat) (h : Heap) (src n : Nat) (mv : List (Nat × Nat))
      (sv tn : List Nat),
      l.length < fuel → Tiling h1 src (sfrom + h1.survivor_size) l → (∀ c ∈ l, c ∈ all) →
      Scan h1 sto h n mv → Placed h1 sto ag h n mv sv tn →
      (∀ p ∈ mv, p.1 ∈ all) → (∀ c ∈ l, ∀ p ∈ mv, p.1 ≠ c) →
      h.survivor_size = h1.survivor_size → h.survivor = h1.survivor →
      sfrom + n ≤ src →
      (∀ c ∈ l, ag c = if h1.ageOf c = 255 then 255 else h1.ageOf c + 1) →
      ∃ h' n' mv' sv' tn', survivor_loop sfrom sto fuel h src n = .ok (h', n') ∧
        Scan h1 sto h' n' mv' ∧ Placed h1 sto ag h' n' mv' sv' tn' ∧
        h'.survivor_size = h1.survivor_size ∧ h'.survivor = h1.survivor ∧
        (h'.tenured_size, n') = survivor_plan h1 l h.tenured_size n ∧
        (∀ p ∈ mv', p ∈ mv ∨ (p.1 ∈ l ∧ h1.markOf p.1 ≠ 0)) ∧ (∀ p ∈ mv, p ∈ mv') ∧
        (∀ c ∈ l, h1.markOf c ≠ 0 → ∃ d, (c, d) ∈ mv') ∧
        sfrom + n' ≤ sfrom + h1.survivor_size := by
  intro l
  induction l with
  | nil =>
    intro fuel h src n mv sv tn hf ht hl hsc hpl hsrc hfresh hs1 hs2 hle hag
    have hsrc' : src = sfrom + h1.survivor_size := ht
    obtain ⟨k, rfl⟩ : ∃ k, fuel = k + 1 := ⟨fuel - 1, by simp at hf; omega⟩
    refine ⟨h, n, mv, sv, tn, ?_, hsc, hpl, hs1, hs2, rfl, fun p hp => Or.inl hp,
      fun p hp => hp, fun c hc _ => absurd hc (List.not_mem_nil c), by omega⟩
    unfold survivor_loop
    rw [if_neg (by rw [hs1]; omega)]
  | cons c l ih =>
    intro fuel h src n mv sv tn hf ht hl hsc hpl hsrc hfresh hs1 hs2 hle hag
    have hnd := ht.head_fresh
    obtain ⟨hcs, h12, ht'⟩ := ht
    subst hcs
    have hend := ht'.le
    obtain ⟨k, rfl⟩ : ∃ k, fuel = k + 1 := ⟨fuel - 1, by simp at hf; omega⟩
    have hc : c ∈ all := hl c (List.mem_cons_self _ _)
    have hfc : ∀ p ∈ mv, p.1 ≠ c := hfresh c (List.mem_cons_self _ _)
    have hsl := hS.valid.survivor_le
    have hcond : c - sfrom < h.survivor_size := by rw [hs1]; omega
    unfold survivor_loop
    rw [if_pos hcond]
    rcases survivor_round hsc hS hsrc hc hfc hs1 hs2 (by omega) with ⟨hm, e⟩ | ⟨hm, g, d, n', e, hmv, g1, g2, hplan⟩
    · rw [e, ok_bind]
      obtain ⟨h', n', mv', sv', tn', r1, r2, r3, r4, r5, r6, r7, r8, r9, r10⟩ :=
        ih k h (c + h1.sizeOf c) n mv sv tn (by simp at hf; omega) ht'
          (fun x hx => hl x (List.mem_cons_of_mem _ hx)) hsc hpl hsrc
          (fun x hx => hfresh x (List.mem_cons_of_mem _ hx)) hs1 hs2 (by omega)
          (fun x hx => hag x (List.mem_cons_of_mem _ hx))
      refine ⟨h', n', mv', sv', tn', r1, r2, r3, r4, r5, ?_, ?_, r8, ?_, r10⟩
      · rw [r6]; simp only [survivor_plan, hm, if_true]
      · intro p hp
        rcases r7 p hp with h0 | ⟨h0, h0'⟩
        · exact Or.inl h0
        · exact Or.inr ⟨List.mem_cons_of_mem _ h0, h0'⟩
      · intro x hx hxm
        rcases List.mem_cons.1 hx with rfl | hx
        · exact absurd hm hxm
        · exact r9 x hx hxm
    · rw [e, ok_bind]
      have hsc' := scan_move hmv hsc hS hsrc hc hfc
      have hsrc' : ∀ p ∈ (c, d) :: mv, p.1 ∈ all := by
        intro p hp
        rcases List.mem_cons.1 hp with rfl | hp
        · exact hc
        · exact hsrc p hp
      have hfresh' : ∀ x ∈ l, ∀ p ∈ (c, d) :: mv, p.1 ≠ x := by
        intro x hx p hp
        rcases List.mem_cons.1 hp with rfl | hp
        · intro hxc
          have hxc' : c = x := hxc
          exact hnd (hxc' ▸ hx)
        · exact hfresh x (List.mem_cons_of_mem _ hx) p hp
      have hn' : sfrom + n' ≤ c + h1.sizeOf c := by
        rcases hmv.dst with ⟨_, e2, _, _⟩ | ⟨_, e2, _, _⟩ <;> omega
      have hagc := hag c (List.mem_cons_self _ _)
      have hstep : ∀ sv2 tn2, Placed h1 sto ag g n' ((c, d) :: mv) sv2 tn2 →
          ∃ h' n'' mv' sv' tn', survivor_loop sfrom sto k g (c + h1.sizeOf c) n' = .ok (h', n'') ∧
            Scan h1 sto h' n'' mv' ∧ Placed h1 sto ag h' n'' mv' sv' tn' ∧
            h'.survivor_size = h1.survivor_size ∧ h'.survivor = h1.survivor ∧
            (h'.tenured_size, n'') = survivor_plan h1 (c :: l) h.tenured_size n ∧
            (∀ p ∈ mv', p ∈ mv ∨ (p.1 ∈ c :: l ∧ h1.markOf p.1 ≠ 0)) ∧ (∀ p ∈ mv, p ∈ mv') ∧
            (∀ x ∈ c :: l, h1.markOf x ≠ 0 → ∃ d, (x, d) ∈ mv') ∧
            sfrom + n'' ≤ sfrom + h1.survivor_size := by
        intro sv2 tn2 hpl2
        obtain ⟨h', n'', mv', sv', tn', r1, r2, r3, r4, r5, r6, r7, r8, r9, r10⟩ :=
          ih k g (c + h1.sizeOf c) n' ((c, d) :: mv) sv2 tn2 (by simp at hf; omega) ht'
            (fun x hx => hl x (List.mem_cons_of_mem _ hx)) hsc' hpl2 hsrc' hfresh' g1 g2 hn'
            (fun x hx => hag x (List.mem_cons_of_mem _ hx))
        refine ⟨h', n'', mv', sv', tn', r1, r2, r3, r4, r5, ?_, ?_, ?_, ?_, r10⟩
        · rw [r6]
          simp only [survivor_plan, hm, if_false]
          by_cases hp : h1.ageOf c ≥ h1.age_cycles ∧ h.tenured_size + h1.sizeOf c < h1.tenured_max_size
          · rw [if_pos hp] at hplan ⊢
            injection hplan with p1 p2
            rw [p1, p2]
          · rw [if_neg hp] at hplan ⊢
            injection hplan with p1 p2
            rw [p1, p2]
        · intro p hp
          rcases r7 p hp with h0 | ⟨h0, h0'⟩
          · rcases List.mem_cons.1 h0 with rfl | h0
            · exact Or.inr ⟨List.mem_cons_self _ _, hm⟩
            · exact Or.inl h0
          · exact Or.inr ⟨List.mem_cons_of_mem _ h0, h0'⟩
        · intro p hp
          exact r8 p (List.mem_cons_of_mem _ hp)
        · intro x hx hxm
          rcases List.mem_cons.1 hx with rfl | hx
          · exact ⟨d, r8 _ (List.mem_cons_self _ _)⟩
          · exact r9 x hx hxm
      rcases placed_move hmv hsc hpl hS hsrc hc hfc hagc with ⟨_, hpl2⟩ | ⟨_, hpl2⟩
      · exact hstep _ _ hpl2
      · exact hstep _ _ hpl2

/-- A round of the second scan on a chunk that is not marked. -/
theorem eden_step_dead (vis : ObjVisitor) (fuel : Nat) (h : Heap) (sto c dst : Nat)
    (hmark : h.rd c 1 = 0) (hc : h.heap ≤ c) (hcin : c + 12 ≤ h.heap + h.heap_max_size) :
    eden_step vis fuel sto h c dst = .ok (h, c + h.rd (c + 4) 4, dst) := by
  unfold eden_step
  rw [load8_rd ⟨hc, by omega⟩, ok_bind]
  simp only [hmark, ne_eq, not_true_eq_false, if_false, pure_bind]
  rw [load32_rd ⟨by omega, by omega⟩, ok_bind]
  rfl

/-- The copy made by a round of the second scan. -/
theorem eden_copy_eval (ha : Heap) (c d : Nat)
    (h12 : 12 ≤ ha.rd (c + 4) 4) (hc : ha.heap ≤ c)
    (hcin : c + ha.rd (c + 4) 4 ≤ ha.heap + ha.heap_max_size)
    (hmax : ha.heap_max_size < 4294967296)
    (hd : ha.heap ≤ d) (hdin : d + ha.rd (c + 4) 4 ≤ ha.heap + ha.heap_max_size)
    (hapart : d + ha.rd (c + 4) 4 ≤ c ∨ c + ha.rd (c + 4) 4 ≤ d) :
    ∃ g, (do
        let size ← ha.load32 (c + 4)
        let h_1 ← ha.memcpy d c size
        let h_2 ← h_1.store32 (c + 8) ((d - h_1.heap) % 4294967296)
        let h_3 ← h_2.store8 d 0
        let h_4 ← h_3.store8 (d + 1) 1
        let size ← h_4.load32 (c + 4)
        pure (h_4, c + size, d) : M (Heap × Nat × Nat)) = .ok (g, c + ha.rd (c + 4) 4, d) ∧
      (∃ m, g = ha.withMem m) ∧
      (∀ o k, 2 ≤ o → o + k ≤ ha.rd (c + 4) 4 → g.rd (d + o) k = ha.rd (c + o) k) ∧
      g.rd d 1 = 0 ∧ g.rd (d + 1) 1 = 1 ∧
      g.rd (c + 8) 4 + ha.heap = d ∧
      ∀ x k, ha.heap ≤ x → (x + k ≤ d ∨ d + ha.rd (c + 4) 4 ≤ x) →
        (x + k ≤ c + 8 ∨ c + 12 ≤ x) → g.rd x k = ha.rd x k := by
  obtain ⟨f1, f2, f3, f4, f5⟩ := copy_eden_rd ha c d (ha.rd (c + 4) 4)
    ((d - ha.heap) % 4294967296) hc hd h12 (Nat.mod_lt _ (by norm_num)) hapart
  refine ⟨_, ?_, ⟨_, rfl⟩, f1, f2, f3, ?_, f5⟩
  · rw [load32_rd ⟨by omega, by omega⟩, ok_bind]
    have e1 : ha.memcpy d c (ha.rd (c + 4) 4) = .ok (ha.withMem
        (poke ha.mem (d - ha.heap) (ha.rd (c + 4) 4) (peek ha.mem (c - ha.heap) (ha.rd (c + 4) 4)))) :=
      memcpy_ok.2 ⟨⟨⟨hd, hdin⟩, ⟨hc, hcin⟩, Or.inr hapart⟩, rfl⟩
    rw [e1, ok_bind]
    rw [store32_ok.2 ⟨⟨by simp only [withMem_heap]; omega,
      by simp only [withMem_heap, withMem_heap_max_size]; omega⟩, rfl⟩, ok_bind]
    rw [store8_ok.2 ⟨⟨by simp only [withMem_heap]; omega,
      by simp only [withMem_heap, withMem_heap_max_size]; omega⟩, rfl⟩, ok_bind]
    rw [store8_ok.2 ⟨⟨by simp only [withMem_heap]; omega,
      by simp only [withMem_heap, withMem_heap_max_size]; omega⟩, rfl⟩, ok_bind]
    simp only [withMem_withMem, withMem_mem, withMem_heap]
    rw [load32_rd ⟨by simp only [withMem_heap]; omega,
      by simp only [withMem_heap, withMem_heap_max_size]; omega⟩, ok_bind]
    have e3 := f5 (c + 4) 4 (by omega) (by omega) (by omega)
    rw [e3]
    rfl
  · rw [f4, Nat.mod_eq_of_lt (by omega)]
    omega

/-- A round of the second scan on a marked chunk, when the survivor target space or
Tenured has room. -/
theorem eden_step_live (vis : ObjVisitor) (fuel : Nat) (h : Heap) (sto c dst : Nat)
    (hmark : h.rd c 1 ≠ 0) (h12 : 12 ≤ h.rd (c + 4) 4) (hc : h.heap ≤ c)
    (hcin : c + h.rd (c + 4) 4 ≤ h.heap + h.heap_max_size)
    (hmax : h.heap_max_size < 4294967296)
    (hsum : h.tenured_size + h.rd (c + 4) 4 < 4294967296)
    (hn : h.survivor_size + h.rd (c + 4) 4 < 4294967296)
    (hsto : h.heap ≤ sto)
    (hst : sto + h.survivor_max_size ≤ h.heap + h.heap_max_size)
    (hten : h.heap ≤ h.tenured_ptr)
    (htin : h.tenured_ptr + h.tenured_max_size ≤ h.heap + h.heap_max_size)
    (hd1 : h.rd (c + 4) 4 + h.survivor_size < h.survivor_max_size →
      (sto + h.survivor_size + h.rd (c + 4) 4 ≤ c ∨ c + h.rd (c + 4) 4 ≤ sto + h.survivor_size))
    (hd2 : h.tenured_size + h.rd (c + 4) 4 < h.tenured_max_size →
      (h.tenured_ptr + h.tenured_size + h.rd (c + 4) 4 ≤ c ∨
        c + h.rd (c + 4) 4 ≤ h.tenured_ptr + h.tenured_size))
    (hroom : h.rd (c + 4) 4 + h.survivor_size < h.survivor_max_size ∨
      h.tenured_size + h.rd (c + 4) 4 < h.tenured_max_size) :
    ∃ g d, eden_step vis fuel sto h c dst = .ok (g, c + h.rd (c + 4) 4, d) ∧
      ScanSame h g ∧ g.survivor = h.survivor ∧
      ((h.rd (c + 4) 4 + h.survivor_size < h.survivor_max_size ∧
          d = sto + h.survivor_size ∧ g.survivor_size = h.survivor_size + h.rd (c + 4) 4 ∧
          g.tenured_size = h.tenured_size) ∨
        (¬ h.rd (c + 4) 4 + h.survivor_size < h.survivor_max_size ∧
          h.tenured_size + h.rd (c + 4) 4 < h.tenured_max_size ∧
          d = h.tenured_ptr + h.tenured_size ∧ g.survivor_size = h.survivor_size ∧
          g.tenured_size = h.tenured_size + h.rd (c + 4) 4)) ∧
      (∀ o k, 2 ≤ o → o + k ≤ h.rd (c + 4) 4 → g.rd (d + o) k = h.rd (c + o) k) ∧
      g.rd d 1 = 0 ∧ g.rd (d + 1) 1 = 1 ∧
      g.rd (c + 8) 4 + h.heap = d ∧
      ∀ x k, h.heap ≤ x → (x + k ≤ d ∨ d + h.rd (c + 4) 4 ≤ x) →
        (x + k ≤ c + 8 ∨ c + 12 ≤ x) → g.rd x k = h.rd x k := by
  by_cases hp : h.rd (c + 4) 4 + h.survivor_size < h.survivor_max_size
  · obtain ⟨g, e, ⟨m, hg⟩, f1, f2, f3, f4, f5⟩ := eden_copy_eval
      { h with survivor_size := (h.survivor_size + h.rd (c + 4) 4) % 4294967296 } c
      (sto + h.survivor_size) h12 hc hcin hmax (by show h.heap ≤ sto + h.survivor_size; omega)
      (by show sto + h.survivor_size + h.rd (c + 4) 4 ≤ h.heap + h.heap_max_size; omega) (hd1 hp)
    refine ⟨g, sto + h.survivor_size, ?_, ?_, ?_, Or.inl ⟨hp, rfl, ?_, ?_⟩, f1, f2, f3, f4, f5⟩
    · unfold eden_step
      rw [load8_rd ⟨hc, by omega⟩, ok_bind]
      simp only [hmark, ne_eq, not_false_eq_true, if_true]
      rw [load32_rd ⟨by omega, by omega⟩]
      simp only [ok_bind]
      have hr' : (h.rd (c + 4) 4 + h.survivor_size) % 4294967296 < h.survivor_max_size := by
        rw [Nat.mod_eq_of_lt (by omega)]; exact hp
      simp only [hr', if_true, pure_bind]
      exact e
    · rw [hg]; exact (ScanSame.set_survivor_size h _).same_trans (ScanSame.same_withMem _ _)
    · rw [hg]; rfl
    · rw [hg]; exact Nat.mod_eq_of_lt hn
    · rw [hg]; rfl
  · have hp2 : h.tenured_size + h.rd (c + 4) 4 < h.tenured_max_size := by
      rcases hroom with h' | h'
      · exact absurd h' hp
      · exact h'
    obtain ⟨g, e, ⟨m, hg⟩, f1, f2, f3, f4, f5⟩ := eden_copy_eval
      { h with tenured_size := (h.tenured_size + h.rd (c + 4) 4) % 4294967296 } c
      (h.tenured_ptr + h.tenured_size) h12 hc hcin hmax
      (by show h.heap ≤ h.tenured_ptr + h.tenured_size; omega)
      (by show h.tenured_ptr + h.tenured_size + h.rd (c + 4) 4 ≤ h.heap + h.heap_max_size; omega)
      (hd2 hp2)
    refine ⟨g, h.tenured_ptr + h.tenured_size, ?_, ?_, ?_, Or.inr ⟨hp, hp2, rfl, ?_, ?_⟩,
      f1, f2, f3, f4, f5⟩
    · unfold eden_step
      rw [load8_rd ⟨hc, by omega⟩, ok_bind]
      simp only [hmark, ne_eq, not_false_eq_true, if_true]
      rw [load32_rd ⟨by omega, by omega⟩]
      simp only [ok_bind]
      have hr' : ¬ (h.rd (c + 4) 4 + h.survivor_size) % 4294967296 < h.survivor_max_size := by
        rw [Nat.mod_eq_of_lt (by omega)]; exact hp
      have hr2 : (h.tenured_size + h.rd (c + 4) 4) % 4294967296 < h.tenured_max_size := by
        rw [Nat.mod_eq_of_lt hsum]; exact hp2
      simp only [hr', hr2, if_true, if_false, pure_bind]
      exact e
    · rw [hg]; exact (ScanSame.set_tenured_size h _).same_trans (ScanSame.same_withMem _ _)
    · rw [hg]; rfl
    · rw [hg]; rfl
    · rw [hg]; exact Nat.mod_eq_of_lt hsum

/-- A round of the second scan, in the scan state. -/
theorem eden_round (vis : ObjVisitor) (fuel dst : Nat) {h1 h : Heap} {sto : Nat}
    {mv : List (Nat × Nat)} {all : List Nat}
    (hsc : Scan h1 sto h h.survivor_size mv) (hS : Sources h1 sto all)
    (hsrc : ∀ p ∈ mv, p.1 ∈ all) {c : Nat} (hc : c ∈ all) (hfresh : ∀ p ∈ mv, p.1 ≠ c)
    (hsize : h1.sizeOf c ≤ h1.eden_max_size) :
    (h1.markOf c = 0 ∧ eden_step vis fuel sto h c dst = .ok (h, c + h1.sizeOf c, dst)) ∨
    (h1.markOf c ≠ 0 ∧
      ((h1.sizeOf c + h.survivor_size < h1.survivor_max_size ∨
          h.tenured_size + h1.sizeOf c < h1.tenured_max_size) →
        ∃ g d, eden_step vis fuel sto h c dst = .ok (g, c + h1.sizeOf c, d) ∧
          Move h1 sto h h.survivor_size c d 1 g g.survivor_size ∧
          g.survivor = h.survivor ∧
          (g.survivor_size, g.tenured_size) =
            (if h1.sizeOf c + h.survivor_size < h1.survivor_max_size
              then (h.survivor_size + h1.sizeOf c, h.tenured_size)
              else (h.survivor_size, h.tenured_size + h1.sizeOf c)))) := by
  obtain ⟨em, ea, es⟩ := hsc.header hS hsrc hc hfresh
  have hin := hS.inside c hc
  have hoS := hS.off_s c hc
  have hoT := hS.off_t c hc
  have hsz := hS.size_ge c hc
  have hsto := hS.sto_in
  have hn := hsc.n_le
  have ht := hsc.t_le
  have htg := hsc.t_ge
  have hl := hS.valid.layout
  have hb := hl.bound
  have htot := hl.total
  have hta := hl.tenured_at
  have e1 := hsc.same.heap
  have e2 := hsc.same.heap_max_size
  have e3 := hsc.same.tenured_ptr
  have e4 := hsc.same.tenured_max_size
  have e5 := hsc.same.survivor_max_size
  by_cases hm : h1.markOf c = 0
  · left
    refine ⟨hm, ?_⟩
    have := eden_step_dead vis fuel h sto c dst (by rw [em]; exact hm) (by omega) (by omega)
    rw [es] at this
    exact this
  · right
    refine ⟨hm, ?_⟩
    intro hroom
    obtain ⟨g, d, e, hsame, g2, hcase, f1, f2, f3, f4, f5⟩ :=
      eden_step_live vis fuel h sto c dst (by rw [em]; exact hm) (by omega) (by omega) (by omega)
        (by omega) (by omega) (by omega) (by omega) (by omega) (by omega) (by omega)
        (by intro hlt; omega) (by intro hlt; omega) (by omega)
    rw [es] at e f1 f5 hcase
    rw [e1] at f4 f5
    rw [e3, e4, e5] at hcase
    refine ⟨g, d, e, ⟨hsame, ?_, f1, f2, f3, f4, f5⟩, g2, ?_⟩
    · rcases hcase with ⟨c1, c2, c3, c4⟩ | ⟨c1, c2, c3, c4, c5⟩
      · left; exact ⟨c2, by omega, by omega, c4⟩
      · right; exact ⟨c3, c4, c5, by omega⟩
    · rcases hcase with ⟨c1, c2, c3, c4⟩ | ⟨c1, c2, c3, c4, c5⟩
      · rw [if_pos c1, c3, c4]
      · rw [if_neg c1, c4, c5]

/-- The second scan of `minor_gc` over the chunks `l` that tile the rest of Eden, when
the fallback is not reached. -/
theorem eden_loop_spec (vis : ObjVisitor) {h1 : Heap} {sto : Nat} {all : List Nat}
    {ag : Nat → Nat} (hS : Sources h1 sto all) :
    ∀ (l : List Nat) (fuel : Nat) (h : Heap) (src dst : Nat) (mv : List (Nat × Nat))
      (sv tn : List Nat) (s t : Nat),
      l.length < fuel → Tiling h1 src (h1.eden_ptr + h1.eden_size) l → (∀ c ∈ l, c ∈ all) →
      Scan h1 sto h h.survivor_size mv → Placed h1 sto ag h h.survivor_size mv sv tn →
      (∀ p ∈ mv, p.1 ∈ all) → (∀ c ∈ l, ∀ p ∈ mv, p.1 ≠ c) →
      h1.eden_ptr ≤ src → (∀ c ∈ l, ag c = 1) →
      eden_plan h1 l h.survivor_size h.tenured_size = some (s, t) →
      ∃ h' mv' sv' tn', eden_loop vis sto fuel h src dst = .ok h' ∧
        Scan h1 sto h' h'.survivor_size mv' ∧ Placed h1 sto ag h' h'.survivor_size mv' sv' tn' ∧
        h'.survivor = h.survivor ∧ h'.survivor_size = s ∧ h'.tenured_size = t ∧
        (∀ p ∈ mv', p ∈ mv ∨ (p.1 ∈ l ∧ h1.markOf p.1 ≠ 0)) ∧ (∀ p ∈ mv, p ∈ mv') ∧
        (∀ c ∈ l, h1.markOf c ≠ 0 → ∃ d, (c, d) ∈ mv') := by
  intro l
  induction l with
  | nil =>
    intro fuel h src dst mv sv tn s t hf ht hl hsc hpl hsrc hfresh hle hag hplan
    have hsrc' : src = h1.eden_ptr + h1.eden_size := ht
    obtain ⟨k, rfl⟩ : ∃ k, fuel = k + 1 := ⟨fuel - 1, by simp at hf; omega⟩
    simp only [eden_plan, Option.some.injEq, Prod.mk.injEq] at hplan
    refine ⟨h, mv, sv, tn, ?_, hsc, hpl, rfl, hplan.1, hplan.2, fun p hp => Or.inl hp,
      fun p hp => hp, fun c hc _ => absurd hc (List.not_mem_nil c)⟩
    unfold eden_loop
    rw [if_neg (by rw [hsc.same.eden_ptr, hsc.same.eden_size]; omega)]
  | cons c l ih =>
    intro fuel h src dst mv sv tn s t hf ht hl hsc hpl hsrc hfresh hle hag hplan
    have hnd := ht.head_fresh
    obtain ⟨hcs, h12, ht'⟩ := ht
    subst hcs
    have hend := ht'.le
    obtain ⟨k, rfl⟩ : ∃ k, fuel = k + 1 := ⟨fuel - 1, by simp at hf; omega⟩
    have hc : c ∈ all := hl c (List.mem_cons_self _ _)
    have hfc : ∀ p ∈ mv, p.1 ≠ c := hfresh c (List.mem_cons_self _ _)
    have hel := hS.valid.eden_le
    have hcond : c - h.eden_ptr < h.eden_size := by
      rw [hsc.same.eden_ptr, hsc.same.eden_size]; omega
    unfold eden_loop
    rw [if_pos hcond]
    rcases eden_round vis k dst hsc hS hsrc hc hfc (by omega) with ⟨hm, e⟩ | ⟨hm, hlive⟩
    · rw [e, ok_bind]
      simp only [eden_plan, hm, if_true] at hplan
      obtain ⟨h', mv', sv', tn', r1, r2, r3, r4, r5, r6, r7, r8, r9⟩ :=
        ih k h (c + h1.sizeOf c) dst mv sv tn s t (by simp at hf; omega) ht'
          (fun x hx => hl x (List.mem_cons_of_mem _ hx)) hsc hpl hsrc
          (fun x hx => hfresh x (List.mem_cons_of_mem _ hx)) (by omega)
          (fun x hx => hag x (List.mem_cons_of_mem _ hx)) hplan
      refine ⟨h', mv', sv', tn', r1, r2, r3, r4, r5, r6, ?_, r8, ?_⟩
      · intro p hp
        rcases r7 p hp with h0 | ⟨h0, h0'⟩
        · exact Or.inl h0
        · exact Or.inr ⟨List.mem_cons_of_mem _ h0, h0'⟩
      · intro x hx hxm
        rcases List.mem_cons.1 hx with rfl | hx
        · exact absurd hm hxm
        · exact r9 x hx hxm
    · simp only [eden_plan, hm, if_false] at hplan
      have hroom : h1.sizeOf c + h.survivor_size < h1.survivor_max_size ∨
          h.tenured_size + h1.sizeOf c < h1.tenured_max_size := by
        by_cases ha : h1.sizeOf c + h.survivor_size < h1.survivor_max_size
        · exact Or.inl ha
        · rw [if_neg ha] at hplan
          by_cases hb : h.tenured_size + h1.sizeOf c < h1.tenured_max_size
          · exact Or.inr hb
          · rw [if_neg hb] at hplan; cases hplan
      obtain ⟨g, d, e, hmv, g2, hres⟩ := hlive hroom
      rw [e, ok_bind]
      have hsc' := scan_move hmv hsc hS hsrc hc hfc
      have hsrc' : ∀ p ∈ (c, d) :: mv, p.1 ∈ all := by
        intro p hp
        rcases List.mem_cons.1 hp with rfl | hp
        · exact hc
        · exact hsrc p hp
      have hfresh' : ∀ x ∈ l, ∀ p ∈ (c, d) :: mv, p.1 ≠ x := by
        intro x hx p hp
        rcases List.mem_cons.1 hp with rfl | hp
        · intro hxc
          have hxc' : c = x := hxc
          exact hnd (hxc' ▸ hx)
        · exact hfresh x (List.mem_cons_of_mem _ hx) p hp
      have hagc := hag c (List.mem_cons_self _ _)
      have hplan' : eden_plan h1 l g.survivor_size g.tenured_size = some (s, t) := by
        by_cases ha : h1.sizeOf c + h.survivor_size < h1.survivor_max_size
        · rw [if_pos ha] at hplan hres
          injection hres with p1 p2
          rw [p1, p2]; exact hplan
        · rw [if_neg ha] at hplan hres
          have hb : h.tenured_size + h1.sizeOf c < h1.tenured_max_size := by
            rcases hroom with h' | h'
            · exact absurd h' ha
            · exact h'
          rw [if_pos hb] at hplan
          injection hres with p1 p2
          rw [p1, p2]; exact hplan
      have hstep : ∀ sv2 tn2, Placed h1 sto ag g g.survivor_size ((c, d) :: mv) sv2 tn2 →
          ∃ h' mv' sv' tn', eden_loop vis sto k g (c + h1.sizeOf c) d = .ok h' ∧
            Scan h1 sto h' h'.survivor_size mv' ∧
            Placed h1 sto ag h' h'.survivor_size mv' sv' tn' ∧
            h'.survivor = h.survivor ∧ h'.survivor_size = s ∧ h'.tenured_size = t ∧
            (∀ p ∈ mv', p ∈ mv ∨ (p.1 ∈ c :: l ∧ h1.markOf p.1 ≠ 0)) ∧ (∀ p ∈ mv, p ∈ mv') ∧
            (∀ x ∈ c :: l, h1.markOf x ≠ 0 → ∃ d, (x, d) ∈ mv') := by
        intro sv2 tn2 hpl2
        obtain ⟨h', mv', sv', tn', r1, r2, r3, r4, r5, r6, r7, r8, r9⟩ :=
          ih k g (c + h1.sizeOf c) d ((c, d) :: mv) sv2 tn2 s t (by simp at hf; omega) ht'
            (fun x hx => hl x (List.mem_cons_of_mem _ hx)) hsc' hpl2 hsrc' hfresh' (by omega)
            (fun x hx => hag x (List.mem_cons_of_mem _ hx)) hplan'
        refine ⟨h', mv', sv', tn', r1, r2, r3, by rw [r4, g2], r5, r6, ?_, ?_, ?_⟩
        · intro p hp
          rcases r7 p hp with h0 | ⟨h0, h0'⟩
          · rcases List.mem_cons.1 h0 with rfl | h0
            · exact Or.inr ⟨List.mem_cons_self _ _, hm⟩
            · exact Or.inl h0
          · exact Or.inr ⟨List.mem_cons_of_mem _ h0, h0'⟩
        · intro p hp
          exact r8 p (List.mem_cons_of_mem _ hp)
        · intro x hx hxm
          rcases List.mem_cons.1 hx with rfl | hx
          · exact ⟨d, r8 _ (List.mem_cons_self _ _)⟩
          · exact r9 x hx hxm
      rcases placed_move hmv hsc hpl hS hsrc hc hfc hagc with ⟨_, hpl2⟩ | ⟨_, hpl2⟩
      · exact hstep _ _ hpl2
      · exact hstep _ _ hpl2

/-! ## The reference rewrite -/

theorem Kept.kept_refl (h : Heap) : Kept h h := ⟨rfl, rfl, rfl, rfl, rfl, rfl, rfl, rfl, rfl, rfl, rfl, rfl, rfl, rfl, rfl, rfl, rfl, rfl, rfl, rfl⟩

theorem Kept.kept_withMem {h3 h : Heap} (k : Kept h3 h) (m : Nat) : Kept h3 (h.withMem m) :=
  ⟨k.eden_max_size, k.survivor_max_size, k.tenured_max_size, k.perm_max_size, k.heap_max_size, k.age_cycles, k.gc_delay, k.eden_size, k.survivor_size, k.tenured_size, k.perm_size, k.heap_size, k.survivor, k.heap, k.gc, k.eden_ptr, k.s_ptr0, k.s_ptr1, k.tenured_ptr, k.perm_ptr⟩

theorem Kept.kept_set_root {h3 h : Heap} (k : Kept h3 h) (r : Nat) : Kept h3 { h with root := r } :=
  ⟨k.eden_max_size, k.survivor_max_size, k.tenured_max_size, k.perm_max_size, k.heap_max_size, k.age_cycles, k.gc_delay, k.eden_size, k.survivor_size, k.tenured_size, k.perm_size, k.heap_size, k.survivor, k.heap, k.gc, k.eden_ptr, k.s_ptr0, k.s_ptr1, k.tenured_ptr, k.perm_ptr⟩

theorem Kept.kept_trans {h1 h2 h3 : Heap} (a : Kept h1 h2) (b : Kept h2 h3) : Kept h1 h3 :=
  ⟨b.eden_max_size.trans a.eden_max_size, b.survivor_max_size.trans a.survivor_max_size, b.tenured_max_size.trans a.tenured_max_size, b.perm_max_size.trans a.perm_max_size, b.heap_max_size.trans a.heap_max_size, b.age_cycles.trans a.age_cycles, b.gc_delay.trans a.gc_delay, b.eden_size.trans a.eden_size, b.survivor_size.trans a.survivor_size, b.tenured_size.trans a.tenured_size, b.perm_size.trans a.perm_size, b.heap_size.trans a.heap_size, b.survivor.trans a.survivor, b.heap.trans a.heap, b.gc.trans a.gc, b.eden_ptr.trans a.eden_ptr, b.s_ptr0.trans a.s_ptr0, b.s_ptr1.trans a.s_ptr1, b.tenured_ptr.trans a.tenured_ptr, b.perm_ptr.trans a.perm_ptr⟩

theorem Fixing.fixing_start {h0 h3 : Heap} {L : List Nat} (hw : FixWorld h0 h3 L) :
    Fixing h0 h3 L h3 :=
  ⟨Kept.kept_refl h3, fun _ _ _ _ _ => rfl, fun x hx => Or.inr (hw.marks x hx),
    fun x hx i hi => Or.inl (hw.refs x hx i hi), Or.inl rfl,
    fun x hx _ i hi => hw.refs x hx i hi⟩

theorem Fixing.addrOf_eq {h0 h3 h : Heap} {L : List Nat} (hw : FixWorld h0 h3 L)
    (hf : Fixing h0 h3 L h) {x : Nat} (hx : x ∈ L) : h.addrOf x = h3.addrOf x := by
  rw [addrOf_eq_rd, addrOf_eq_rd]
  have ha := hw.arena x hx
  apply hf.frame _ _ (by omega)
  · intro y hy
    by_cases hxy : x = y
    · right; omega
    · rcases hw.sep x hx y hy hxy with h1 | h1
      · left; omega
      · right; omega
  · intro y hy
    have hfit := hw.fits y hy
    rcases hw.head x hx y hy with h1 | h1
    · left; omega
    · right; omega

theorem Fixing.fixing_countOf_eq {h0 h3 h : Heap} {L : List Nat} (hw : FixWorld h0 h3 L)
    (hf : Fixing h0 h3 L h) {x : Nat} (hx : x ∈ L) : h.countOf (h3.fwd x) = h0.countOf x := by
  rw [← hw.count x hx, countOf_eq_rd, countOf_eq_rd]
  have ha := hw.arena x hx
  have hfx := hw.fits x hx
  apply hf.frame _ _ (by omega)
  · intro y hy
    rcases hw.head y hy x hx with h1 | h1
    · right; omega
    · left; omega
  · intro y hy
    by_cases hxy : x = y
    · left; subst hxy; omega
    · have hfy := hw.fits y hy
      rcases hw.apart x hx y hy hxy with h1 | h1
      · left; omega
      · right; omega

/-- Writing the mark byte of a chunk of `L`. -/
theorem Fixing.poke_mark {h0 h3 h : Heap} {L : List Nat} (hw : FixWorld h0 h3 L)
    (hf : Fixing h0 h3 L h) {d : Nat} (hd : d ∈ L) (g : Heap)
    (hg : g = h.withMem (poke h.mem (d - h.heap) 1 0)) :
    Fixing h0 h3 L g ∧ g.markOf d = 0 ∧ (∀ c ∈ L, c ≠ d → g.markOf c = h.markOf c) ∧
      (∀ x ∈ L, ∀ i, i < h0.countOf x → g.refOf (h3.fwd x) i = h.refOf (h3.fwd x) i) ∧
      g.root = h.root := by
  subst hg
  have had := hw.arena d hd
  have hh : h.heap = h3.heap := hf.same.heap
  have hdh : h.heap ≤ d := by omega
  have hmd : (h.withMem (poke h.mem (d - h.heap) 1 0)).markOf d = 0 := by
    rw [markOf_eq_rd, rd_poke_same, Nat.zero_mod]
  have hmo : ∀ c ∈ L, c ≠ d →
      (h.withMem (poke h.mem (d - h.heap) 1 0)).markOf c = h.markOf c := by
    intro c hc hcd
    have hac := hw.arena c hc
    rw [markOf_eq_rd, markOf_eq_rd]
    apply rd_poke_apart _ _ _ _ _ _ hdh (by omega)
    rcases hw.sep c hc d hd hcd with h1 | h1
    · left; omega
    · right; omega
  have hso : ∀ x ∈ L, ∀ i, i < h0.countOf x →
      (h.withMem (poke h.mem (d - h.heap) 1 0)).refOf (h3.fwd x) i = h.refOf (h3.fwd x) i := by
    intro x hx i hi
    have hax := hw.arena x hx
    have hfx := hw.fits x hx
    rw [refOf_eq_rd, refOf_eq_rd]
    apply rd_poke_apart _ _ _ _ _ _ hdh (by omega)
    rcases hw.head d hd x hx with h1 | h1
    · right; omega
    · left; omega
  refine ⟨⟨hf.same.kept_withMem _, ?_, ?_, ?_, hf.root, ?_⟩, hmd, hmo, hso, rfl⟩
  · intro a k ha c1 c2
    rw [← hf.frame a k ha c1 c2]
    apply rd_poke_apart _ _ _ _ _ _ hdh (by omega)
    rcases c1 d hd with h1 | h1
    · left; omega
    · right; omega
  · intro x hx
    by_cases hxd : x = d
    · left; rw [hxd]; exact hmd
    · rw [hmo x hx hxd]; exact hf.bit x hx
  · intro x hx i hi
    rw [hso x hx i hi]; exact hf.slot x hx i hi
  · intro x hx hx1 i hi
    by_cases hxd : x = d
    · rw [hxd, hmd] at hx1; cases hx1
    · rw [hso x hx i hi]
      exact hf.fresh x hx (by rw [← hmo x hx hxd]; exact hx1) i hi

/-- Rewriting a reference field of the object of a chunk of `L`. -/
theorem Fixing.poke_slot {h0 h3 h : Heap} {L : List Nat} (hw : FixWorld h0 h3 L)
    (hf : Fixing h0 h3 L h) {x : Nat} (hx : x ∈ L) {i : Nat} (hi : i < h0.countOf x)
    {d : Nat} (hd : d ∈ L) (hr : h0.refOf x i = d + 12) (hx0 : h.markOf x = 0) (g : Heap)
    (hg : g = h.withMem (poke h.mem (h3.fwd x + 20 + 8 * i - h.heap) 8 (h3.fwd d + 12))) :
    Fixing h0 h3 L g ∧ (∀ c ∈ L, g.markOf c = h.markOf c) ∧
      g.refOf (h3.fwd x) i = h3.fwd d + 12 ∧
      (∀ y ∈ L, ∀ j, j < h0.countOf y → (y ≠ x ∨ j ≠ i) →
        g.refOf (h3.fwd y) j = h.refOf (h3.fwd y) j) ∧
      g.root = h.root := by
  subst hg
  have hax := hw.arena x hx
  have had := hw.arena d hd
  have hfx := hw.fits x hx
  have hfd := hw.fits d hd
  have hwide := hw.wide
  have hh : h.heap = h3.heap := hf.same.heap
  have hph : h.heap ≤ h3.fwd x + 20 + 8 * i := by omega
  have hval : (h.withMem (poke h.mem (h3.fwd x + 20 + 8 * i - h.heap) 8
      (h3.fwd d + 12))).refOf (h3.fwd x) i = h3.fwd d + 12 := by
    rw [refOf_eq_rd, rd_poke_same]
    apply Nat.mod_eq_of_lt
    norm_num
    omega
  have hmo : ∀ c ∈ L, (h.withMem (poke h.mem (h3.fwd x + 20 + 8 * i - h.heap) 8
      (h3.fwd d + 12))).markOf c = h.markOf c := by
    intro c hc
    have hac := hw.arena c hc
    rw [markOf_eq_rd, markOf_eq_rd]
    apply rd_poke_apart _ _ _ _ _ _ hph (by omega)
    rcases hw.head c hc x hx with h1 | h1
    · left; omega
    · right; omega
  have hso : ∀ y ∈ L, ∀ j, j < h0.countOf y → (y ≠ x ∨ j ≠ i) →
      (h.withMem (poke h.mem (h3.fwd x + 20 + 8 * i - h.heap) 8
        (h3.fwd d + 12))).refOf (h3.fwd y) j = h.refOf (h3.fwd y) j := by
    intro y hy j hj hne
    have hay := hw.arena y hy
    have hfy := hw.fits y hy
    rw [refOf_eq_rd, refOf_eq_rd]
    apply rd_poke_apart _ _ _ _ _ _ hph (by omega)
    by_cases hyx : y = x
    · subst hyx
      have : j ≠ i := by
        rcases hne with h1 | h1
        · exact absurd rfl h1
        · exact h1
      omega
    · rcases hw.apart y hy x hx hyx with h1 | h1
      · left; omega
      · right; omega
  refine ⟨⟨hf.same.kept_withMem _, ?_, ?_, ?_, hf.root, ?_⟩, hmo, hval, hso, rfl⟩
  rotate_right
  · intro y hy hy1 j hj
    rw [hmo y hy] at hy1
    have hyx : y ≠ x := by
      intro e; rw [e, hx0] at hy1; cases hy1
    rw [hso y hy j hj (Or.inl hyx)]
    exact hf.fresh y hy hy1 j hj
  · intro a k ha c1 c2
    rw [← hf.frame a k ha c1 c2]
    apply rd_poke_apart _ _ _ _ _ _ hph (by omega)
    rcases c2 x hx with h1 | h1
    · left; omega
    · right; omega
  · intro y hy
    rw [hmo y hy]; exact hf.bit y hy
  · intro y hy j hj
    by_cases hyx : y = x ∧ j = i
    · obtain ⟨rfl, rfl⟩ := hyx
      right
      rw [hval, hr]
      simp [Heap.fwdRef]
    · rw [hso y hy j hj (by by_contra hc; push_neg at hc; exact hyx hc)]
      exact hf.slot y hy j hj

/-- Rewriting the root. -/
theorem Fixing.fixing_set_root {h0 h3 h : Heap} {L : List Nat} (hf : Fixing h0 h3 L h) {d : Nat}
    (hr : h3.root = d + 12) :
    Fixing h0 h3 L { h with root := h3.fwd d + 12 } := by
  refine ⟨hf.same.kept_set_root _, hf.frame, hf.bit, hf.slot, Or.inr ?_, hf.fresh⟩
  rw [hr]
  simp [Heap.fwdRef]

theorem pending_mono {h0 h3 h h' : Heap} {L : List Nat} (hf : Fixing h0 h3 L h)
    (hs : Shrinks L h h') : pending h' L ≤ pending h L := by
  apply countP_le_of_imp
  intro c hc h1
  simp only [decide_eq_true_eq] at h1 ⊢
  rcases hf.bit c hc with h2 | h2
  · rw [hs c hc h2] at h1; cases h1
  · exact h2

theorem pending_clear {h0 h3 h h' : Heap} {L : List Nat} (hf : Fixing h0 h3 L h)
    (hs : Shrinks L h h') {d : Nat} (hd : d ∈ L) (hd1 : h.markOf d = 1)
    (hd0 : h'.markOf d = 0) : pending h' L < pending h L := by
  apply countP_lt_of_imp _ _ _ _ d hd
  · simp only [decide_eq_true_eq]; exact hd1
  · simp only [decide_eq_true_eq, hd0]; omega
  · intro c hc h1
    simp only [decide_eq_true_eq] at h1 ⊢
    rcases hf.bit c hc with h2 | h2
    · rw [hs c hc h2] at h1; cases h1
    · exact h2

/-- The function `fix_minor` as a chain of its steps. -/
theorem fix_minor_eq (vis : ObjVisitor) (fuel : Nat) (h : Heap) (ref : Slot) :
    fix_minor vis (fuel + 1) h ref =
      (h.loadRef ref >>= fun r => chunk_of r >>= fun chunk =>
        h.load32 (chunk + 8) >>= fun addr =>
        (if addr ≠ 0 then h.storeRef ref (h.heap + addr + CHUNK) else pure h) >>= fun h =>
        h.load8 chunk >>= fun mark =>
        if mark = 0 then pure h
        else h.store8 chunk (mark ^^^ 1) >>= fun h => vis h ref (fix_minor vis fuel)) := by
  rw [fix_minor]
  beta_reduce
  cases h.loadRef ref with
  | error e => rfl
  | ok r =>
    simp only [ok_bind]
    cases chunk_of r with
    | error e => rfl
    | ok chunk =>
      simp only [ok_bind]
      cases h.load32 (chunk + 8) with
      | error e => rfl
      | ok addr =>
        simp only [ok_bind]
        by_cases ha : addr ≠ 0
        · simp only [ha, if_true, ne_eq, not_false_eq_true]
          cases h.storeRef ref (h.heap + addr + CHUNK) with
          | error e => rfl
          | ok h2 =>
            simp only [ok_bind]
            cases h2.load8 chunk with
            | error e => rfl
            | ok mark =>
              simp only [ok_bind]
              by_cases hm : mark = 0
              · simp only [hm, if_true]
              · simp only [hm, if_false, pure_bind]
        · simp only [ha, if_false, pure_bind]

theorem fwd_of_zero {h : Heap} {c : Nat} (hz : h.addrOf c = 0) : h.fwd c = c := by
  unfold Heap.fwd; rw [if_pos hz]

theorem fwd_of_pos {h : Heap} {c : Nat} (hz : h.addrOf c ≠ 0) :
    h.fwd c = h.heap + h.addrOf c := by
  unfold Heap.fwd; rw [if_neg hz]

theorem fwdRef_add (h : Heap) (d : Nat) : h.fwdRef (d + 12) = h.fwd d + 12 := by
  simp [Heap.fwdRef]

theorem slot_in_arena {h0 h3 : Heap} {L : List Nat} (hw : FixWorld h0 h3 L) {h : Heap}
    (hf : Fixing h0 h3 L h) {x : Nat} (hx : x ∈ L) {i : Nat} (hi : i < h0.countOf x) :
    h.inArena (h3.fwd x + 20 + 8 * i) 8 := by
  have hax := hw.arena x hx
  have hfx := hw.fits x hx
  have e1 := hf.same.heap
  have e2 := hf.same.heap_max_size
  constructor <;> omega

/-- The first half of `fix_minor`: the slot is rewritten when the chunk it points at has
a forward offset. -/
theorem fix_write {h0 h3 h : Heap} {L : List Nat} (hw : FixWorld h0 h3 L)
    (hf : Fixing h0 h3 L h) {s : Slot} {d : Nat} (hd : d ∈ L)
    (hs : FixSlot h0 h3 L h s d) :
    ∃ ha, (if h3.addrOf d ≠ 0 then h.storeRef s (h.heap + h3.addrOf d + CHUNK) else pure h)
        = .ok ha ∧
      Fixing h0 h3 L ha ∧ (∀ c ∈ L, ha.markOf c = h.markOf c) ∧
      ha.slotVal s = h3.fwd d + 12 ∧
      (∀ y ∈ L, ∀ j, j < h0.countOf y → s ≠ .cell (h3.fwd y + 20 + 8 * j) →
        ha.refOf (h3.fwd y) j = h.refOf (h3.fwd y) j) ∧
      (s ≠ .root → ha.root = h.root) := by
  by_cases hz : h3.addrOf d = 0
  · refine ⟨h, ?_, hf, fun _ _ => rfl, ?_, fun _ _ _ _ _ => rfl, fun _ => rfl⟩
    · simp only [hz, ne_eq, not_true_eq_false, if_false]; rfl
    · rw [fwd_of_zero hz]
      rcases hs with ⟨rfl, hr, _⟩ | ⟨x, hx, i, hi, rfl, hr, _, _⟩
      · exact hr
      · show h.rd _ 8 = _
        rw [← refOf_eq_rd]; exact hr
  · have hv : h.heap + h3.addrOf d + CHUNK = h3.fwd d + 12 := by
      rw [fwd_of_pos hz, hf.same.heap]; rfl
    rw [if_pos hz, hv]
    rcases hs with ⟨rfl, hr, hr3⟩ | ⟨x, hx, i, hi, rfl, hr, hr0, hx0⟩
    · refine ⟨{ h with root := h3.fwd d + 12 }, rfl, hf.fixing_set_root hr3, fun _ _ => rfl, rfl,
        fun _ _ _ _ _ => rfl, fun hne => absurd rfl hne⟩
    · obtain ⟨g1, g2, g3, g4, g5⟩ := hf.poke_slot hw hx hi hd hr0 hx0 _ rfl
      refine ⟨_, ?_, g1, g2, ?_, ?_, fun _ => g5⟩
      · exact store64_ok.2 ⟨slot_in_arena hw hf hx hi, rfl⟩
      · show Heap.rd _ _ 8 = _
        rw [← refOf_eq_rd]; exact g3
      · intro y hy j hj hne
        apply g4 y hy j hj
        by_contra hc
        push_neg at hc
        obtain ⟨rfl, rfl⟩ := hc
        exact hne rfl

/-- The loop of the visitor of `test.c` over the reference fields `i, i + 1, ...` of
the object of `x`, with `fix_minor` as the reference visitor. -/
theorem fix_loop_spec {h0 h3 : Heap} {L : List Nat} (hw : FixWorld h0 h3 L) (fuel : Nat)
    (ih : FixSpec h0 h3 L fuel) (x : Nat) (hx : x ∈ L) :
    ∀ (n i k : Nat) (h : Heap), Fixing h0 h3 L h → h.markOf x = 0 → pending h L < fuel →
      i + n = h0.countOf x → n < k →
      (∀ j, i ≤ j → j < h0.countOf x → h.refOf (h3.fwd x) j = h0.refOf x j) →
      ∃ h', object_visitor_loop (fix_minor object_visitor fuel) (h3.fwd x + 12) k i h = .ok h' ∧
        Fixing h0 h3 L h' ∧ Shrinks L h h' ∧
        (∀ j, i ≤ j → j < h0.countOf x →
          h'.refOf (h3.fwd x) j = h3.fwdRef (h0.refOf x j) ∧
          (h0.refOf x j ≠ 0 → ∃ e ∈ L, h0.refOf x j = e + 12 ∧ h'.markOf e = 0)) ∧
        (∀ y ∈ L, h.markOf y = 0 → ∀ j, j < h0.countOf y → (y ≠ x ∨ j < i) →
          h'.refOf (h3.fwd y) j = h.refOf (h3.fwd y) j) ∧
        h'.root = h.root ∧
        ∀ y ∈ L, h.markOf y = 1 → h'.markOf y = 0 → Fixed h0 h3 L h' y := by
  have hax := hw.arena x hx
  have hfx := hw.fits x hx
  intro n
  induction n with
  | zero =>
    intro i k h hf hx0 _ hcount hk _
    obtain ⟨k, rfl⟩ : ∃ k', k = k' + 1 := ⟨k - 1, by omega⟩
    have e1 := hf.same.heap
    have e2 := hf.same.heap_max_size
    have hc : h.load32 (h3.fwd x + 12 + 4) = .ok (h0.countOf x) := by
      rw [load32_rd ⟨by omega, by omega⟩, ← hf.fixing_countOf_eq hw hx, countOf_eq_rd]
    refine ⟨h, ?_, hf, fun _ _ hh => hh, ?_, fun _ _ _ _ _ _ => rfl, rfl, ?_⟩
    · rw [object_visitor_loop]
      beta_reduce
      rw [hc, ok_bind, if_neg (by omega)]
      rfl
    · intro j h1 h2; omega
    · intro y _ h1 h2; rw [h1] at h2; cases h2
  | succ n ihn =>
    intro i k h hf hx0 hfuel hcount hk hold
    obtain ⟨k, rfl⟩ : ∃ k', k = k' + 1 := ⟨k - 1, by omega⟩
    have e1 := hf.same.heap
    have e2 := hf.same.heap_max_size
    have hi : i < h0.countOf x := by omega
    have hc : h.load32 (h3.fwd x + 12 + 4) = .ok (h0.countOf x) := by
      rw [load32_rd ⟨by omega, by omega⟩, ← hf.fixing_countOf_eq hw hx, countOf_eq_rd]
    have hr : h.load64 (h3.fwd x + 12 + 8 + 8 * i) = .ok (h0.refOf x i) := by
      have e3 : h3.fwd x + 12 + 8 + 8 * i = h3.fwd x + 20 + 8 * i := by omega
      rw [e3, load64_rd (slot_in_arena hw hf hx hi), ← hold i (Nat.le_refl _) hi, refOf_eq_rd]
    by_cases hz : h0.refOf x i = 0
    · -- a nil field is skipped
      obtain ⟨h', hl, hf', hs', hch, hun, hrt, hnew⟩ :=
        ihn (i + 1) k h hf hx0 hfuel (by omega) (by omega)
          (fun j h1 h2 => hold j (by omega) h2)
      refine ⟨h', ?_, hf', hs', ?_, ?_, hrt, hnew⟩
      · rw [object_visitor_loop]
        beta_reduce
        rw [hc, ok_bind, if_pos hi, hr, ok_bind]
        simp only [hz, ne_eq, not_true_eq_false, if_false, pure_bind]
        exact hl
      · intro j h1 h2
        rcases Nat.eq_or_lt_of_le h1 with rfl | h4
        · refine ⟨?_, fun h3' => absurd hz h3'⟩
          rw [hun x hx hx0 i hi (Or.inr (by omega)), hold i (Nat.le_refl _) hi, hz]
          simp [Heap.fwdRef]
        · exact hch j h4 h2
      · intro y hy hy0 j hj hne
        exact hun y hy hy0 j hj (by rcases hne with h1 | h1; exact Or.inl h1; exact Or.inr (by omega))
    · obtain ⟨e, he, hre⟩ := hw.closed x hx i hi hz
      have hslot : FixSlot h0 h3 L h (.cell (h3.fwd x + 20 + 8 * i)) e :=
        Or.inr ⟨x, hx, i, hi, rfl, by rw [hold i (Nat.le_refl _) hi, hre], hre, hx0⟩
      obtain ⟨h1, hcall, hf1, hs1, hme, hval, hun1, hrt1, hnew1⟩ :=
        ih h (.cell (h3.fwd x + 20 + 8 * i)) e hf he hslot hfuel
      have hfuel1 : pending h1 L < fuel := lt_of_le_of_lt (pending_mono hf hs1) hfuel
      have hx1 : h1.markOf x = 0 := hs1 x hx hx0
      have hne_slot : ∀ y ∈ L, ∀ j, j < h0.countOf y → (y ≠ x ∨ j ≠ i) →
          Slot.cell (h3.fwd x + 20 + 8 * i) ≠ Slot.cell (h3.fwd y + 20 + 8 * j) := by
        intro y hy j hj hne hc
        injection hc with hc
        have hfy := hw.fits y hy
        by_cases hyx : y = x
        · subst hyx
          rcases hne with h1' | h1'
          · exact h1' rfl
          · omega
        · rcases hw.apart y hy x hx hyx with h1' | h1' <;> omega
      have hold1 : ∀ j, i + 1 ≤ j → j < h0.countOf x → h1.refOf (h3.fwd x) j = h0.refOf x j := by
        intro j h2 h3'
        rw [hun1 x hx hx0 j h3' (hne_slot x hx j h3' (Or.inr (by omega)))]
        exact hold j (by omega) h3'
      obtain ⟨h', hl, hf', hs', hch, hun, hrt, hnew⟩ :=
        ihn (i + 1) k h1 hf1 hx1 hfuel1 (by omega) (by omega) hold1
      refine ⟨h', ?_, hf', fun c hc hh => hs' c hc (hs1 c hc hh), ?_, ?_, ?_, ?_⟩
      · rw [object_visitor_loop]
        beta_reduce
        rw [hc, ok_bind, if_pos hi, hr, ok_bind]
        simp only [hz, ne_eq, not_false_eq_true, if_true]
        have e3 : h3.fwd x + 12 + 8 + 8 * i = h3.fwd x + 20 + 8 * i := by omega
        rw [e3, hcall, ok_bind]
        exact hl
      · intro j h2 h3'
        rcases Nat.eq_or_lt_of_le h2 with rfl | h5
        · refine ⟨?_, fun _ => ⟨e, he, hre, hs' e he hme⟩⟩
          rw [hun x hx hx1 i hi (Or.inr (by omega)), hre, fwdRef_add]
          have : h1.slotVal (.cell (h3.fwd x + 20 + 8 * i)) = h1.refOf (h3.fwd x) i := by
            rw [refOf_eq_rd]; rfl
          rw [← this, hval]
        · exact hch j h5 h3'
      · intro y hy hy0 j hj hne
        rw [hun y hy (hs1 y hy hy0) j hj (by rcases hne with h1' | h1'; exact Or.inl h1'; exact Or.inr (by omega))]
        exact hun1 y hy hy0 j hj
          (hne_slot y hy j hj (by rcases hne with h1' | h1'; exact Or.inl h1'; exact Or.inr (by omega)))
      · rw [hrt]; exact hrt1 (by intro hc; cases hc)
      · intro y hy hy1 hy0
        rcases hf1.bit y hy with h6 | h6
        · -- cleared by the call
          have hfix := hnew1 y hy hy1 h6
          have hyx : y ≠ x := by
            intro e'; rw [e', hx0] at hy1; cases hy1
          intro j hj
          obtain ⟨p1, p2⟩ := hfix j hj
          refine ⟨?_, fun hnz => ?_⟩
          · rw [hun y hy h6 j hj (Or.inl hyx)]; exact p1
          · obtain ⟨e', he', q1, q2⟩ := p2 hnz
            exact ⟨e', he', q1, hs' e' he' q2⟩
        · exact hnew y hy h6 hy0

theorem fix_slot_load {h0 h3 h : Heap} {L : List Nat} (hw : FixWorld h0 h3 L)
    (hf : Fixing h0 h3 L h) {s : Slot} {d : Nat} (hs : FixSlot h0 h3 L h s d) :
    h.loadRef s = .ok (d + 12) := by
  rcases hs with ⟨rfl, hr, _⟩ | ⟨x, hx, i, hi, rfl, hr, _, _⟩
  · simp only [Heap.loadRef, hr]
  · simp only [Heap.loadRef]
    rw [load64_rd (slot_in_arena hw hf hx hi), ← refOf_eq_rd, hr]

/-- The traversal `fix_minor` on a slot that holds a reference to a chunk of `L`. -/
theorem fix_minor_spec {h0 h3 : Heap} {L : List Nat} (hw : FixWorld h0 h3 L) :
    ∀ fuel, FixSpec h0 h3 L fuel := by
  intro fuel
  induction fuel with
  | zero => intro h s d _ _ _ hf; omega
  | succ fuel ih =>
    intro h s d hf hd hs hfuel
    have had := hw.arena d hd
    have hfd := hw.fits d hd
    have e1 := hf.same.heap
    have e2 := hf.same.heap_max_size
    have hload := fix_slot_load hw hf hs
    have hchunk : chunk_of (d + 12) = .ok d := by simp [chunk_of, CHUNK]
    have haddr : h.load32 (d + 8) = .ok (h3.addrOf d) := by
      rw [load32_rd ⟨by omega, by omega⟩, ← hf.addrOf_eq hw hd, addrOf_eq_rd]
    obtain ⟨ha, hwr, hfa, hma, hva, hua, hra⟩ := fix_write hw hf hd hs
    have ea1 := hfa.same.heap
    have ea2 := hfa.same.heap_max_size
    have hmark : ha.load8 d = .ok (h.markOf d) := by
      rw [load8_rd ⟨by omega, by omega⟩, ← hma d hd, markOf_eq_rd]
    rw [FixSpec] at ih
    rcases hf.bit d hd with hm0 | hm1
    · -- the chunk was visited before: only the slot is rewritten
      refine ⟨ha, ?_, hfa, fun c hc hh => by rw [hma c hc]; exact hh, by rw [hma d hd]; exact hm0,
        hva, fun x hx _ i hi hne => hua x hx i hi hne, hra, ?_⟩
      · rw [fix_minor_eq, hload, ok_bind, hchunk, ok_bind, haddr, ok_bind, hwr, ok_bind, hmark,
          ok_bind, if_pos hm0]
        rfl
      · intro x hx hx1 hx0
        rw [hma x hx, hx1] at hx0; cases hx0
    · -- the chunk is visited now
      obtain ⟨hfb, hmb, hob, hsb, hrb⟩ := hfa.poke_mark hw hd
        (ha.withMem (poke ha.mem (d - ha.heap) 1 0)) rfl
      have hstore : ha.store8 d (h.markOf d ^^^ 1) =
          .ok (ha.withMem (poke ha.mem (d - ha.heap) 1 0)) := by
        rw [hm1]
        exact store8_ok.2 ⟨⟨by omega, by omega⟩, rfl⟩
      have hsab : Shrinks L h (ha.withMem (poke ha.mem (d - ha.heap) 1 0)) := by
        intro c hc hc0
        by_cases hcd : c = d
        · rw [hcd]; exact hmb
        · rw [hob c hc hcd, hma c hc]; exact hc0
      have hfuelb : pending (ha.withMem (poke ha.mem (d - ha.heap) 1 0)) L < fuel := by
        have := pending_clear hf hsab hd hm1 hmb
        omega
      have hsd : ∀ i, i < h0.countOf d → s ≠ .cell (h3.fwd d + 20 + 8 * i) := by
        intro i hi hc
        rcases hs with ⟨rfl, _, _⟩ | ⟨x, hx, j, hj, rfl, _, _, hx0⟩
        · cases hc
        · injection hc with hc
          have hfx := hw.fits x hx
          by_cases hxd : x = d
          · rw [hxd, hm1] at hx0; cases hx0
          · rcases hw.apart x hx d hd hxd with h1' | h1' <;> omega
      have holdb : ∀ j, 0 ≤ j → j < h0.countOf d →
          (ha.withMem (poke ha.mem (d - ha.heap) 1 0)).refOf (h3.fwd d) j = h0.refOf d j := by
        intro j _ hj
        rw [hsb d hd j hj, hua d hd j hj (hsd j hj)]
        exact hf.fresh d hd hm1 j hj
      have hvb : (ha.withMem (poke ha.mem (d - ha.heap) 1 0)).slotVal s = h3.fwd d + 12 := by
        rw [← hva]
        rcases hs with ⟨rfl, _, _⟩ | ⟨x, hx, j, hj, rfl, _, _, hx0⟩
        · exact hrb
        · show Heap.rd _ _ 8 = Heap.rd _ _ 8
          rw [← refOf_eq_rd, ← refOf_eq_rd]
          exact hsb x hx j hj
      have hloadb : (ha.withMem (poke ha.mem (d - ha.heap) 1 0)).loadRef s
          = .ok (h3.fwd d + 12) := by
        rw [← hvb]
        rcases hs with ⟨rfl, _, _⟩ | ⟨x, hx, j, hj, rfl, _, _, hx0⟩
        · rfl
        · simp only [Heap.loadRef]
          rw [load64_rd (slot_in_arena hw hfb hx hj)]
          rfl
      have hdata : ∃ v, (ha.withMem (poke ha.mem (d - ha.heap) 1 0)).load32 (h3.fwd d + 12)
          = .ok v := by
        refine ⟨_, load32_rd ⟨?_, ?_⟩⟩
        · simp only [withMem_heap]; omega
        · simp only [withMem_heap, withMem_heap_max_size]; omega
      obtain ⟨v, hdata⟩ := hdata
      have hcnt : h0.countOf d < 4294967296 := by
        unfold Heap.countOf
        exact peek_lt _ _ 4
      obtain ⟨h', hl, hf', hs', hch, hun, hrt, hnew⟩ :=
        fix_loop_spec hw fuel ih d hd (h0.countOf d) 0 4294967296 _ hfb hmb hfuelb
          (by omega) hcnt holdb
      have hxd0 : ∀ x ∈ L, h.markOf x = 0 → x ≠ d := by
        intro x _ hx0 e'
        rw [e', hm1] at hx0; cases hx0
      refine ⟨h', ?_, hf', fun c hc hh => hs' c hc (hsab c hc hh), hs' d hd hmb, ?_, ?_, ?_, ?_⟩
      · rw [fix_minor_eq, hload, ok_bind, hchunk, ok_bind, haddr, ok_bind, hwr, ok_bind, hmark,
          ok_bind, if_neg (by rw [hm1]; omega), hstore, ok_bind]
        simp only [object_visitor]
        rw [hloadb, ok_bind]
        simp only [Nat.add_eq_zero, OfNat.ofNat_ne_zero, and_false, if_false]
        rw [hdata]
        exact hl
      · rw [← hvb]
        rcases hs with ⟨rfl, _, _⟩ | ⟨x, hx, j, hj, rfl, _, _, hx0⟩
        · exact hrt
        · show Heap.rd _ _ 8 = Heap.rd _ _ 8
          rw [← refOf_eq_rd, ← refOf_eq_rd]
          exact hun x hx (hsab x hx hx0) j hj (Or.inl (hxd0 x hx hx0))
      · intro x hx hx0 i hi hne
        rw [hun x hx (hsab x hx hx0) i hi (Or.inl (hxd0 x hx hx0)), hsb x hx i hi]
        exact hua x hx i hi hne
      · intro hne
        rw [hrt, hrb]; exact hra hne
      · intro x hx hx1 hx0
        by_cases hxd : x = d
        · rw [hxd]
          intro i hi
          exact hch i (Nat.zero_le i) hi
        · exact hnew x hx (by rw [hob x hx hxd, hma x hx]; exact hx1) hx0

/-- The reference rewrite of `minor_gc`: `fix_minor` on the root slot returns, clears
the mark of every live chunk, rewrites the root and every reference field of every live
object, and touches nothing else. -/
theorem fix_phase {h0 h3 : Heap} {L : List Nat} (hw : FixWorld h0 h3 L) {r : Nat}
    (hr : r ∈ L) (hroot : h3.root = r + 12) (hreach : ∀ x ∈ L, h0.Path r x)
    (fuel : Nat) (hfuel : L.length < fuel) :
    ∃ h4, fix_minor object_visitor fuel h3 .root = .ok h4 ∧ Fixing h0 h3 L h4 ∧
      h4.root = h3.fwd r + 12 ∧ (∀ x ∈ L, h4.markOf x = 0) ∧
      ∀ x ∈ L, ∀ i, i < h0.countOf x → h4.refOf (h3.fwd x) i = h3.fwdRef (h0.refOf x i) := by
  have hf0 := Fixing.fixing_start hw
  have hp : pending h3 L < fuel := lt_of_le_of_lt (List.countP_le_length _) hfuel
  obtain ⟨h4, hrun, hf4, hs4, hm4, hv4, -, -, hnew⟩ :=
    fix_minor_spec hw fuel h3 .root r hf0 hr (Or.inl ⟨rfl, hroot, hroot⟩) hp
  have key : ∀ x, h0.Path r x → x ∈ L ∧ h4.markOf x = 0 := by
    intro x hpx
    induction hpx with
    | refl => exact ⟨hr, hm4⟩
    | step d e i _ hi hre ihd =>
      obtain ⟨hd, hd0⟩ := ihd
      obtain ⟨-, h2⟩ := hnew d hd (hw.marks d hd) hd0 i hi
      obtain ⟨e2, he2, q1, q2⟩ := h2 (by omega)
      have : e2 = e := by omega
      subst this
      exact ⟨he2, q2⟩
  refine ⟨h4, hrun, hf4, hv4, fun x hx => (key x (hreach x hx)).2, ?_⟩
  intro x hx i hi
  exact (hnew x hx (hw.marks x hx) (key x (hreach x hx)).2 i hi).1

/-! ## From a well-formed heap to the scans -/

theorem Heap.Valid.valid_withMem {h : Heap} (hv : h.Valid) (m : Nat) : (h.withMem m).Valid :=
  ⟨⟨hv.layout.base_pos, hv.layout.eden_at, hv.layout.s0_at, hv.layout.s1_at,
      hv.layout.tenured_at, hv.layout.perm_at, hv.layout.total, hv.layout.bound⟩,
    hv.eden_le, hv.survivor_le, hv.tenured_le, hv.perm_le, hv.heap_size_eq, hv.survivor_bit,
    hv.gc_byte, hv.age_cycles_byte, hv.gc_delay_byte⟩

/-- Where the two survivor spaces lie. -/
theorem Heap.Valid.spaces {h : Heap} (hv : h.Valid) :
    (h.sfrom = h.heap + h.eden_max_size ∧
        h.sto = h.heap + h.eden_max_size + h.survivor_max_size) ∨
      (h.sto = h.heap + h.eden_max_size ∧
        h.sfrom = h.heap + h.eden_max_size + h.survivor_max_size) := by
  have hb := hv.survivor_bit
  have h0 := hv.layout.s0_at
  have h1 := hv.layout.s1_at
  unfold Heap.sfrom Heap.sto
  by_cases hs : h.survivor = 0
  · left; rw [if_pos hs, if_pos hs]; exact ⟨h0, h1⟩
  · right; rw [if_neg hs, if_neg hs]; exact ⟨h0, h1⟩

/-- The region a chunk of a tiled heap lies in. -/
theorem chunk_region {g : Heap} {es ss ts ps : List Nat}
    (he : Tiling g g.eden_ptr (g.eden_ptr + g.eden_size) es)
    (hs : Tiling g g.sfrom (g.sfrom + g.survivor_size) ss)
    (ht : Tiling g g.tenured_ptr (g.tenured_ptr + g.tenured_size) ts)
    (hp : Tiling g g.perm_ptr (g.perm_ptr + g.perm_size) ps)
    {c : Nat} (hc : c ∈ es ++ ss ++ ts ++ ps) :
    12 ≤ g.sizeOf c ∧
      ((c ∈ es ∧ g.eden_ptr ≤ c ∧ c + g.sizeOf c ≤ g.eden_ptr + g.eden_size) ∨
        (c ∈ ss ∧ g.sfrom ≤ c ∧ c + g.sizeOf c ≤ g.sfrom + g.survivor_size) ∨
        (c ∈ ts ∧ g.tenured_ptr ≤ c ∧ c + g.sizeOf c ≤ g.tenured_ptr + g.tenured_size) ∨
        (c ∈ ps ∧ g.perm_ptr ≤ c ∧ c + g.sizeOf c ≤ g.perm_ptr + g.perm_size)) := by
  simp only [List.mem_append] at hc
  rcases hc with ((hc | hc) | hc) | hc
  · obtain ⟨a, b, c'⟩ := he.mem c hc
    exact ⟨c', Or.inl ⟨hc, a, b⟩⟩
  · obtain ⟨a, b, c'⟩ := hs.mem c hc
    exact ⟨c', Or.inr (Or.inl ⟨hc, a, b⟩)⟩
  · obtain ⟨a, b, c'⟩ := ht.mem c hc
    exact ⟨c', Or.inr (Or.inr (Or.inl ⟨hc, a, b⟩))⟩
  · obtain ⟨a, b, c'⟩ := hp.mem c hc
    exact ⟨c', Or.inr (Or.inr (Or.inr ⟨hc, a, b⟩))⟩

/-- The chunks of a tiled heap, as the scans need them. -/
theorem sources_of_tilings {g : Heap} {es ss ts ps : List Nat} (hv : g.Valid)
    (he : Tiling g g.eden_ptr (g.eden_ptr + g.eden_size) es)
    (hs : Tiling g g.sfrom (g.sfrom + g.survivor_size) ss)
    (ht : Tiling g g.tenured_ptr (g.tenured_ptr + g.tenured_size) ts)
    (hp : Tiling g g.perm_ptr (g.perm_ptr + g.perm_size) ps) :
    Sources g g.sto (es ++ ss ++ ts ++ ps) := by
  have hl := hv.layout
  have l1 := hl.eden_at
  have l4 := hl.tenured_at
  have l5 := hl.perm_at
  have l6 := hl.total
  have v1 := hv.eden_le
  have v2 := hv.survivor_le
  have v3 := hv.tenured_le
  have v4 := hv.perm_le
  have hsp := hv.spaces
  refine ⟨hv, ?_, ?_, ?_, ?_, ?_, ?_⟩
  · rcases hsp with ⟨a, b⟩ | ⟨a, b⟩ <;> omega
  · intro c hc; exact (chunk_region he hs ht hp hc).1
  · intro c hc
    obtain ⟨-, hr⟩ := chunk_region he hs ht hp hc
    rcases hsp with ⟨a, b⟩ | ⟨a, b⟩ <;>
      rcases hr with ⟨-, r1, r2⟩ | ⟨-, r1, r2⟩ | ⟨-, r1, r2⟩ | ⟨-, r1, r2⟩ <;> omega
  · intro c hc
    obtain ⟨-, hr⟩ := chunk_region he hs ht hp hc
    rcases hsp with ⟨a, b⟩ | ⟨a, b⟩ <;>
      rcases hr with ⟨-, r1, r2⟩ | ⟨-, r1, r2⟩ | ⟨-, r1, r2⟩ | ⟨-, r1, r2⟩ <;> omega
  · intro c hc
    obtain ⟨-, hr⟩ := chunk_region he hs ht hp hc
    rcases hsp with ⟨a, b⟩ | ⟨a, b⟩ <;>
      rcases hr with ⟨-, r1, r2⟩ | ⟨-, r1, r2⟩ | ⟨-, r1, r2⟩ | ⟨-, r1, r2⟩ <;> omega
  · intro c hc d hd hne
    obtain ⟨c12, hr⟩ := chunk_region he hs ht hp hc
    obtain ⟨d12, hq⟩ := chunk_region he hs ht hp hd
    rcases hr with ⟨m1, r1, r2⟩ | ⟨m1, r1, r2⟩ | ⟨m1, r1, r2⟩ | ⟨m1, r1, r2⟩ <;>
      rcases hq with ⟨m2, q1, q2⟩ | ⟨m2, q1, q2⟩ | ⟨m2, q1, q2⟩ | ⟨m2, q1, q2⟩
    · exact he.apart c m1 d m2 hne
    · rcases hsp with ⟨a, b⟩ | ⟨a, b⟩ <;> omega
    · omega
    · omega
    · rcases hsp with ⟨a, b⟩ | ⟨a, b⟩ <;> omega
    · exact hs.apart c m1 d m2 hne
    · rcases hsp with ⟨a, b⟩ | ⟨a, b⟩ <;> omega
    · rcases hsp with ⟨a, b⟩ | ⟨a, b⟩ <;> omega
    · omega
    · rcases hsp with ⟨a, b⟩ | ⟨a, b⟩ <;> omega
    · exact ht.apart c m1 d m2 hne
    · omega
    · omega
    · rcases hsp with ⟨a, b⟩ | ⟨a, b⟩ <;> omega
    · omega
    · exact hp.apart c m1 d m2 hne

/-- Reading the heap after the mark phase, away from the mark bytes. -/
theorem Marked.rd_eq {h0 h : Heap} {cs : List Nat} (hm : Marked h0 cs h) (ho : h0.Objects cs)
    {a k : Nat} (ha : h0.heap ≤ a) (hout : ∀ c ∈ cs, c < a ∨ a + k ≤ c) :
    h.rd a k = h0.rd a k := by
  unfold Heap.rd
  rw [hm.heap_eq]
  apply hm.frame
  intro c hc
  have := (ho.inside c hc).1
  rcases hout c hc with h1 | h1
  · left; omega
  · right; omega

/-- The mark phase on a well-formed heap. -/
theorem mark_phase_spec {h : Heap} {es ss ts ps cs : List Nat}
    (hwf : h.WellFormed es ss ts ps cs) (fuel : Nat) (hfuel : cs.length < fuel) :
    ∃ h1 r m, mark_chunk object_visitor fuel h .root = .ok h1 ∧ r ∈ cs ∧ h.root = r + 12 ∧
      h1 = h.withMem m ∧ h1.markOf r = 1 ∧
      (∀ c ∈ es ++ ss ++ ts ++ ps, h1.markOf c = 0 ∨ h1.markOf c = 1) ∧
      (∀ c ∈ es ++ ss ++ ts ++ ps, h1.markOf c = 1 → c ∈ cs ∧ h.Path r c ∧ Closed h cs h1 c) ∧
      (∀ c ∈ cs, h.Reach c → h1.markOf c = 1) ∧
      (∀ c ∈ es ++ ss ++ ts ++ ps, ∀ o k, 1 ≤ o → o + k ≤ h.sizeOf c →
        h1.rd (c + o) k = h.rd (c + o) k) := by
  obtain ⟨r, hr, hrr⟩ := hwf.root
  have ho := hwf.objects
  have hz : ∀ c ∈ cs, h.markOf c = 0 := fun c hc => hwf.marks c (hwf.sub c hc)
  have hm0 : Marked h cs h := Marked.start hz
  obtain ⟨h1, hrun, hm1, _, hmr, hnew⟩ :=
    mark_chunk_spec h cs ho fuel h .root r hm0 hr (Or.inl ⟨rfl, hrr⟩)
      (lt_of_le_of_lt (unmarked_le_length h cs) hfuel)
  have hS := sources_of_tilings hwf.valid hwf.eden hwf.survivor hwf.tenured hwf.perm
  have hframe : ∀ c ∈ es ++ ss ++ ts ++ ps, ∀ o k, 1 ≤ o → o + k ≤ h.sizeOf c →
      h1.rd (c + o) k = h.rd (c + o) k := by
    intro c hc o k ho1 hok
    have hin := hS.inside c hc
    apply hm1.rd_eq ho (by omega)
    intro d hd
    by_cases hdc : d = c
    · left; omega
    · rcases hS.apart d (hwf.sub d hd) c hc hdc with h2 | h2
      · left
        have := hS.size_ge d (hwf.sub d hd)
        omega
      · right; omega
  have hout : ∀ c ∈ es ++ ss ++ ts ++ ps, c ∉ cs → h1.markOf c = 0 := by
    intro c hc hnc
    rw [← hwf.marks c hc, markOf_eq_rd, markOf_eq_rd]
    have hin := hS.inside c hc
    apply hm1.rd_eq ho (by omega)
    intro d hd
    have hdc : d ≠ c := fun e => hnc (e ▸ hd)
    have h12 := hS.size_ge d (hwf.sub d hd)
    have h12' := hS.size_ge c hc
    rcases hS.apart d (hwf.sub d hd) c hc hdc with h2 | h2
    · left; omega
    · right; omega
  refine ⟨h1, r, h1.mem, hrun, hr, hrr, hm1.same, hmr, ?_, ?_, ?_, hframe⟩
  · intro c hc
    by_cases hcs : c ∈ cs
    · exact hm1.bit c hcs
    · exact Or.inl (hout c hc hcs)
  · intro c hc hc1
    by_cases hcs : c ∈ cs
    · obtain ⟨p1, p2⟩ := hnew c hcs hc1 (hz c hcs)
      exact ⟨hcs, p1, p2⟩
    · rw [hout c hc hcs] at hc1; cases hc1
  · rintro c hc ⟨r', hr', hp⟩
    have hrr' : r' = r := by omega
    subst hrr'
    have key : ∀ x, h.Path r' x → x ∈ cs ∧ h1.markOf x = 1 := by
      intro x hpx
      induction hpx with
      | refl => exact ⟨hr, hmr⟩
      | step d e i _ hi hre ihd =>
        obtain ⟨hd, hd1⟩ := ihd
        obtain ⟨e2, he2, h2, h3⟩ := (hnew d hd hd1 (hz d hd)).2 i hi (by omega)
        have : e2 = e := by omega
        subst this
        exact ⟨he2, h3⟩
    exact (key c hp).2

/-! ## The two scans, from the marked heap -/

theorem Scan.scan_congr {h1 h g : Heap} {sto n : Nat} {mv : List (Nat × Nat)}
    (hsc : Scan h1 sto h n mv) (hmem : g.mem = h.mem) (hsame : ScanSame h1 g)
    (ht : g.tenured_size = h.tenured_size) : Scan h1 sto g n mv := by
  have hheap : g.heap = h.heap := hsame.heap.trans hsc.same.heap.symm
  have hrd : ∀ a k, g.rd a k = h.rd a k := by
    intro a k; unfold Heap.rd; rw [hmem, hheap]
  refine ⟨hsame, hsc.n_le, by rw [ht]; exact hsc.t_ge, by rw [ht]; exact hsc.t_le, ?_, ?_,
    hsc.apart⟩
  · intro a k h1' h2 h3 h4
    rw [hrd, ht] at *
    exact hsc.frame a k h1' h2 (by rw [ht] at h3; exact h3) h4
  · intro p hp
    obtain ⟨z, a, m, b⟩ := hsc.moved p hp
    refine ⟨by rw [ht]; exact z, ?_, ?_, ?_⟩
    · rw [addrOf_eq_rd, hrd, ← addrOf_eq_rd]; exact a
    · rw [markOf_eq_rd, hrd, ← markOf_eq_rd]; exact m
    · intro o k ho hok; rw [hrd]; exact b o k ho hok

theorem Placed.placed_congr {h1 h g : Heap} {sto n : Nat} {ag : Nat → Nat} {mv : List (Nat × Nat)}
    {sv tn : List Nat} (hpl : Placed h1 sto ag h n mv sv tn) (hmem : g.mem = h.mem)
    (hheap : g.heap = h.heap) (ht : g.tenured_size = h.tenured_size) :
    Placed h1 sto ag g n mv sv tn := by
  have hrd : ∀ a k, g.rd a k = h.rd a k := by
    intro a k; unfold Heap.rd; rw [hmem, hheap]
  have hsz : ∀ c, g.sizeOf c = h.sizeOf c := by
    intro c; rw [sizeOf_eq_rd, hrd, ← sizeOf_eq_rd]
  refine ⟨?_, ?_, ?_, ?_, hpl.copies, hpl.origin⟩
  · intro p hp; rw [ageOf_eq_rd, hrd, ← ageOf_eq_rd]; exact hpl.age p hp
  · intro p hp; rw [hsz]; exact hpl.size p hp
  · exact Tiling.tiling_congr (fun c _ => hsz c) hpl.tile_s
  · rw [ht]; exact Tiling.tiling_congr (fun c _ => hsz c) hpl.tile_t

theorem s_ptr_from {h : Heap} (hv : h.Valid) : h.s_ptr h.survivor = .ok h.sfrom := by
  have hb := hv.survivor_bit
  unfold Heap.s_ptr Heap.sfrom
  by_cases hs : h.survivor = 0
  · rw [if_pos hs, if_pos hs]
  · have h1 : h.survivor = 1 := by omega
    rw [if_neg hs, if_pos h1, if_neg hs]

theorem s_ptr_to {h : Heap} (hv : h.Valid) : h.s_ptr (h.survivor ^^^ 1) = .ok h.sto := by
  have hb := hv.survivor_bit
  unfold Heap.s_ptr Heap.sto
  by_cases hs : h.survivor = 0
  · rw [hs]; simp
  · have h1 : h.survivor = 1 := by omega
    rw [h1]; simp

/-- A tiling of an empty range has no chunk. -/
theorem Tiling.eq_nil {h : Heap} {l : List Nat} {a : Nat} (ht : Tiling h a a l) : l = [] := by
  cases l with
  | nil => rfl
  | cons c l =>
    obtain ⟨_, h12, ht'⟩ := ht
    have := ht'.le
    omega

theorem Scan.scan_start {h1 : Heap} (sto : Nat) (hv : h1.Valid) : Scan h1 sto h1 0 [] :=
  ⟨ScanSame.same_refl h1, Nat.zero_le _, Nat.le_refl _, hv.tenured_le, fun _ _ _ _ _ _ => rfl,
    fun p hp => absurd hp (List.not_mem_nil p), fun p hp => absurd hp (List.not_mem_nil p)⟩

theorem Placed.placed_start {h1 : Heap} (sto : Nat) (ag : Nat → Nat) :
    Placed h1 sto ag h1 0 [] [] [] :=
  ⟨fun p hp => absurd hp (List.not_mem_nil p), fun p hp => absurd hp (List.not_mem_nil p),
    rfl, rfl, fun p hp => absurd hp (List.not_mem_nil p),
    fun d hd => by rcases hd with hd | hd <;> exact absurd hd (List.not_mem_nil d)⟩

/-- A chunk of Eden is not a chunk of the active survivor space. -/
theorem eden_not_survivor {g : Heap} {es ss : List Nat} (hv : g.Valid)
    (he : Tiling g g.eden_ptr (g.eden_ptr + g.eden_size) es)
    (hs : Tiling g g.sfrom (g.sfrom + g.survivor_size) ss) {c : Nat} (hc : c ∈ es) :
    c ∉ ss := by
  intro hc'
  obtain ⟨a1, a2, a3⟩ := he.mem c hc
  obtain ⟨b1, b2, b3⟩ := hs.mem c hc'
  have l1 := hv.layout.eden_at
  have v1 := hv.eden_le
  rcases hv.spaces with ⟨a, b⟩ | ⟨a, b⟩ <;> omega

/-- A chunk of Tenured or Permanent is not a chunk of Eden or of the active survivor
space. -/
theorem old_not_young {g : Heap} {es ss ts ps : List Nat} (hv : g.Valid)
    (he : Tiling g g.eden_ptr (g.eden_ptr + g.eden_size) es)
    (hs : Tiling g g.sfrom (g.sfrom + g.survivor_size) ss)
    (ht : Tiling g g.tenured_ptr (g.tenured_ptr + g.tenured_size) ts)
    (hp : Tiling g g.perm_ptr (g.perm_ptr + g.perm_size) ps) {c : Nat} (hc : c ∈ ts ++ ps) :
    c ∉ es ++ ss := by
  intro hc'
  have l1 := hv.layout.eden_at
  have l4 := hv.layout.tenured_at
  have l5 := hv.layout.perm_at
  have v1 := hv.eden_le
  have v2 := hv.survivor_le
  have hsp := hv.spaces
  have hlow : c + 12 ≤ g.tenured_ptr := by
    rcases List.mem_append.1 hc' with h' | h'
    · obtain ⟨a1, a2, a3⟩ := he.mem c h'
      omega
    · obtain ⟨a1, a2, a3⟩ := hs.mem c h'
      rcases hsp with ⟨a, b⟩ | ⟨a, b⟩ <;> omega
  rcases List.mem_append.1 hc with h' | h'
  · obtain ⟨a1, a2, a3⟩ := ht.mem c h'
    omega
  · obtain ⟨a1, a2, a3⟩ := hp.mem c h'
    omega

/-- The two scans of `minor_gc` on the marked heap `h1`, when the second one does not
reach its fallback. -/
theorem scan_phase (vis : ObjVisitor) {h1 : Heap} {es ss ts ps : List Nat} (hv : h1.Valid)
    (he : Tiling h1 h1.eden_ptr (h1.eden_ptr + h1.eden_size) es)
    (hs : Tiling h1 h1.sfrom (h1.sfrom + h1.survivor_size) ss)
    (ht : Tiling h1 h1.tenured_ptr (h1.tenured_ptr + h1.tenured_size) ts)
    (hp : Tiling h1 h1.perm_ptr (h1.perm_ptr + h1.perm_size) ps)
    (fuel : Nat) (hfuel : es.length + ss.length < fuel) (s t : Nat)
    (hplan : eden_plan h1 es (survivor_plan h1 ss h1.tenured_size 0).2
      (survivor_plan h1 ss h1.tenured_size 0).1 = some (s, t)) :
    ∃ h3 mv sv tn,
      ((if h1.survivor_size > 0 then
            (h1.s_ptr h1.survivor >>= fun sfrom =>
              survivor_loop sfrom h1.sto fuel h1 sfrom 0 >>= fun p =>
              pure { p.1 with survivor_size := p.2 })
          else pure h1) >>= fun h2 =>
        eden_loop vis h1.sto fuel { h2 with survivor := h2.survivor ^^^ 1 } h2.eden_ptr 0)
        = .ok h3 ∧
      Scan h1 h1.sto h3 s mv ∧ Placed h1 h1.sto (new_age h1 ss) h3 s mv sv tn ∧
      h3.survivor = h1.survivor ^^^ 1 ∧ h3.survivor_size = s ∧ h3.tenured_size = t ∧
      (∀ p ∈ mv, p.1 ∈ es ++ ss ∧ h1.markOf p.1 ≠ 0) ∧
      (∀ c ∈ es ++ ss, h1.markOf c ≠ 0 → ∃ d, (c, d) ∈ mv) := by
  have hS := sources_of_tilings hv he hs ht hp
  have hall_s : ∀ c ∈ ss, c ∈ es ++ ss ++ ts ++ ps := by
    intro c hc; simp only [List.mem_append]; exact Or.inl (Or.inl (Or.inr hc))
  have hall_e : ∀ c ∈ es, c ∈ es ++ ss ++ ts ++ ps := by
    intro c hc; simp only [List.mem_append]; exact Or.inl (Or.inl (Or.inl hc))
  have hag_s : ∀ c ∈ ss, new_age h1 ss c = if h1.ageOf c = 255 then 255 else h1.ageOf c + 1 := by
    intro c hc; unfold new_age; rw [if_pos hc]
  have hag_e : ∀ c ∈ es, new_age h1 ss c = 1 := by
    intro c hc; unfold new_age; rw [if_neg (eden_not_survivor hv he hs hc)]
  -- the first scan
  have first : ∃ h2 n mv1 sv1 tn1,
      (if h1.survivor_size > 0 then
            (h1.s_ptr h1.survivor >>= fun sfrom =>
              survivor_loop sfrom h1.sto fuel h1 sfrom 0 >>= fun p =>
              pure { p.1 with survivor_size := p.2 })
          else pure h1) = .ok h2 ∧
        Scan h1 h1.sto h2 n mv1 ∧ Placed h1 h1.sto (new_age h1 ss) h2 n mv1 sv1 tn1 ∧
        h2.survivor_size = n ∧ h2.survivor = h1.survivor ∧
        (h2.tenured_size, n) = survivor_plan h1 ss h1.tenured_size 0 ∧
        (∀ p ∈ mv1, p.1 ∈ ss ∧ h1.markOf p.1 ≠ 0) ∧
        (∀ c ∈ ss, h1.markOf c ≠ 0 → ∃ d, (c, d) ∈ mv1) := by
    by_cases hz : h1.survivor_size > 0
    · obtain ⟨h', n', mv', sv', tn', r1, r2, r3, r4, r5, r6, r7, r8, r9, r10⟩ :=
        @survivor_loop_spec h1 h1.sto h1.sfrom (es ++ ss ++ ts ++ ps) (new_age h1 ss) hS ss fuel h1 h1.sfrom 0 []
          [] [] (by omega) hs hall_s (Scan.scan_start _ hv) (Placed.placed_start _ _)
          (fun p hp => absurd hp (List.not_mem_nil p))
          (fun c _ p hp => absurd hp (List.not_mem_nil p)) rfl rfl (by omega) hag_s
      refine ⟨{ h' with survivor_size := n' }, n', mv', sv', tn', ?_,
        r2.scan_congr rfl ⟨r2.same.1, r2.same.2, r2.same.3, r2.same.4, r2.same.5, r2.same.6,
          r2.same.7, r2.same.8, r2.same.9, r2.same.10, r2.same.11, r2.same.12, r2.same.13,
          r2.same.14, r2.same.15, r2.same.16, r2.same.17⟩ rfl,
        r3.placed_congr rfl rfl rfl, rfl, r5, r6, ?_, r9⟩
      · rw [if_pos hz, s_ptr_from hv, ok_bind, r1, ok_bind]
        rfl
      · intro p hp
        rcases r7 p hp with h0 | h0
        · exact absurd h0 (List.not_mem_nil p)
        · exact h0
    · have hz' : h1.survivor_size = 0 := by omega
      have hnil : ss = [] := by
        have := hs
        rw [hz', Nat.add_zero] at this
        exact this.eq_nil
      subst hnil
      refine ⟨h1, 0, [], [], [], ?_, Scan.scan_start _ hv, Placed.placed_start _ _, hz', rfl, rfl,
        fun p hp => absurd hp (List.not_mem_nil p), fun c hc => absurd hc (List.not_mem_nil c)⟩
      rw [if_neg hz]
      rfl
  obtain ⟨h2, n, mv1, sv1, tn1, e1, sc1, pl1, q1, q2, q3, q4, q5⟩ := first
  have hplan2 : eden_plan h1 es n h2.tenured_size = some (s, t) := by
    rw [← q3] at hplan; exact hplan
  have sc2 : Scan h1 h1.sto { h2 with survivor := h2.survivor ^^^ 1 }
      ({ h2 with survivor := h2.survivor ^^^ 1 } : Heap).survivor_size mv1 := by
    show Scan h1 h1.sto _ h2.survivor_size mv1
    rw [q1]
    exact sc1.scan_congr rfl ⟨sc1.same.1, sc1.same.2, sc1.same.3, sc1.same.4, sc1.same.5, sc1.same.6,
      sc1.same.7, sc1.same.8, sc1.same.9, sc1.same.10, sc1.same.11, sc1.same.12, sc1.same.13,
      sc1.same.14, sc1.same.15, sc1.same.16, sc1.same.17⟩ rfl
  have pl2 : Placed h1 h1.sto (new_age h1 ss) { h2 with survivor := h2.survivor ^^^ 1 }
      ({ h2 with survivor := h2.survivor ^^^ 1 } : Heap).survivor_size mv1 sv1 tn1 := by
    show Placed h1 h1.sto _ _ h2.survivor_size mv1 sv1 tn1
    rw [q1]
    exact pl1.placed_congr rfl rfl rfl
  have hplan3 : eden_plan h1 es ({ h2 with survivor := h2.survivor ^^^ 1 } : Heap).survivor_size
      ({ h2 with survivor := h2.survivor ^^^ 1 } : Heap).tenured_size = some (s, t) := by
    show eden_plan h1 es h2.survivor_size h2.tenured_size = some (s, t)
    rw [q1]; exact hplan2
  obtain ⟨h3, mv, sv, tn, r1, r2, r3, r4, r5, r6, r7, r8, r9⟩ :=
    eden_loop_spec vis hS es fuel { h2 with survivor := h2.survivor ^^^ 1 } h1.eden_ptr 0 mv1
      sv1 tn1 s t (by omega) he hall_e sc2 pl2
      (fun p hp => hall_s p.1 (q4 p hp).1)
      (fun c hc p hp hpc => eden_not_survivor hv he hs hc (by rw [← hpc]; exact (q4 p hp).1))
      (Nat.le_refl _) hag_e hplan3
  refine ⟨h3, mv, sv, tn, ?_, by rw [← r5]; exact r2, by rw [← r5]; exact r3, ?_, r5, r6, ?_, ?_⟩
  · rw [e1, ok_bind]
    have : h2.eden_ptr = h1.eden_ptr := sc1.same.eden_ptr
    rw [← this] at r1
    exact r1
  · rw [r4]
    show h2.survivor ^^^ 1 = _
    rw [q2]
  · intro p hp
    rcases r7 p hp with h0 | ⟨h0, h0'⟩
    · exact ⟨List.mem_append_right _ (q4 p h0).1, (q4 p h0).2⟩
    · exact ⟨List.mem_append_left _ h0, h0'⟩
  · intro c hc hm
    rcases List.mem_append.1 hc with h0 | h0
    · exact r9 c h0 hm
    · obtain ⟨d, hd⟩ := q5 c h0 hm
      exact ⟨d, r8 _ hd⟩

/-! ## From the scans to the reference rewrite -/

/-- A chunk and a copy do not overlap. -/
theorem Scan.old_copy {h1 h : Heap} {sto n : Nat} {mv : List (Nat × Nat)} {all : List Nat}
    (hsc : Scan h1 sto h n mv) (hS : Sources h1 sto all) {c : Nat} (hc : c ∈ all)
    {p : Nat × Nat} (hp : p ∈ mv) :
    c + h1.sizeOf c ≤ p.2 ∨ p.2 + h1.sizeOf p.1 ≤ c := by
  have hoS := hS.off_s c hc
  have hoT := hS.off_t c hc
  have hn := hsc.n_le
  have ht := hsc.t_le
  obtain ⟨hz, -, -, -⟩ := hsc.moved p hp
  rcases hz with hz | hz
  · rcases hoS with h' | h'
    · left; omega
    · right; omega
  · rcases hoT with h' | h'
    · left; omega
    · right; omega

/-- A copy lies in the arena, above its base. -/
theorem Scan.copy_inside {h1 h : Heap} {n : Nat} {mv : List (Nat × Nat)} {all : List Nat}
    (hsc : Scan h1 h1.sto h n mv) (hS : Sources h1 h1.sto all) (hpos : 0 < h1.eden_max_size)
    {p : Nat × Nat} (hp : p ∈ mv) :
    h1.heap < p.2 ∧ p.2 + h1.sizeOf p.1 ≤ h1.heap + h1.heap_max_size := by
  have hn := hsc.n_le
  have ht := hsc.t_le
  have hsto := hS.sto_in
  have hl := hS.valid.layout
  have l4 := hl.tenured_at
  have l6 := hl.total
  have hsp := hS.valid.spaces
  obtain ⟨hz, -, -, -⟩ := hsc.moved p hp
  rcases hz with hz | hz
  · constructor
    · rcases hsp with ⟨a, b⟩ | ⟨a, b⟩ <;> omega
    · omega
  · constructor <;> omega

/-- The forward offset of a moved chunk leads to its copy. -/
theorem Scan.fwd_moved {h1 h : Heap} {n : Nat} {mv : List (Nat × Nat)} {all : List Nat}
    (hsc : Scan h1 h1.sto h n mv) (hS : Sources h1 h1.sto all) (hpos : 0 < h1.eden_max_size)
    {p : Nat × Nat} (hp : p ∈ mv) : h.fwd p.1 = p.2 ∧ h.addrOf p.1 ≠ 0 := by
  obtain ⟨-, ha, -, -⟩ := hsc.moved p hp
  have hin := (hsc.copy_inside hS hpos hp).1
  have hne : h.addrOf p.1 ≠ 0 := by omega
  refine ⟨?_, hne⟩
  rw [fwd_of_pos hne, hsc.same.heap]
  omega

/-- Two moves of the same chunk are the same move. -/
theorem Scan.functional {h1 h : Heap} {sto n : Nat} {mv : List (Nat × Nat)}
    (hsc : Scan h1 sto h n mv) {p q : Nat × Nat} (hp : p ∈ mv) (hq : q ∈ mv)
    (hpq : p.1 = q.1) : p.2 = q.2 := by
  obtain ⟨-, ha, -, -⟩ := hsc.moved p hp
  obtain ⟨-, hb, -, -⟩ := hsc.moved q hq
  rw [hpq] at ha
  omega

/-- The forward offset of a chunk that was not moved is the one it had. -/
theorem Scan.addr_kept {h1 h : Heap} {sto n : Nat} {mv : List (Nat × Nat)} {all : List Nat}
    (hsc : Scan h1 sto h n mv) (hS : Sources h1 sto all) (hsrc : ∀ p ∈ mv, p.1 ∈ all)
    {c : Nat} (hc : c ∈ all) (hfresh : ∀ p ∈ mv, p.1 ≠ c) : h.addrOf c = h1.addrOf c := by
  have hsz := hS.size_ge c hc
  have := hsc.field hS hsrc hc (show 8 + 4 ≤ h1.sizeOf c by omega)
    (fun p hp hpc => absurd hpc (hfresh p hp))
  rw [addrOf_eq_rd, addrOf_eq_rd]
  exact this

/-- The mark of a chunk is not touched by the scans. -/
theorem Scan.mark_kept {h1 h : Heap} {sto n : Nat} {mv : List (Nat × Nat)} {all : List Nat}
    (hsc : Scan h1 sto h n mv) (hS : Sources h1 sto all) (hsrc : ∀ p ∈ mv, p.1 ∈ all)
    {c : Nat} (hc : c ∈ all) : h.markOf c = h1.markOf c := by
  have hsz := hS.size_ge c hc
  have := hsc.field hS hsrc hc (show 0 + 1 ≤ h1.sizeOf c by omega)
    (fun p hp hpc => Or.inl (by omega))
  rw [markOf_eq_rd, markOf_eq_rd]
  simpa using this

/-- The bytes of a chunk outside its forward field are not touched by the scans. -/
theorem Scan.body_kept {h1 h : Heap} {sto n : Nat} {mv : List (Nat × Nat)} {all : List Nat}
    (hsc : Scan h1 sto h n mv) (hS : Sources h1 sto all) (hsrc : ∀ p ∈ mv, p.1 ∈ all)
    {c : Nat} (hc : c ∈ all) {o k : Nat} (hok : o + k ≤ h1.sizeOf c)
    (hout : o + k ≤ 8 ∨ 12 ≤ o) : h.rd (c + o) k = h1.rd (c + o) k :=
  hsc.field hS hsrc hc hok (fun _ _ _ => hout)

theorem mem_live_list {h1 : Heap} {cs : List Nat} {x : Nat} :
    x ∈ live_list h1 cs ↔ x ∈ cs ∧ h1.markOf x = 1 := by
  unfold live_list
  simp [List.mem_filter]

theorem Scanned.all_of_live {h h1 h3 : Heap} {es ss ts ps cs : List Nat} {s : Nat}
    {mv : List (Nat × Nat)} (hs : Scanned h h1 h3 es ss ts ps cs s mv) {x : Nat}
    (hx : x ∈ live_list h1 cs) : x ∈ es ++ ss ++ ts ++ ps :=
  hs.wf.sub x (mem_live_list.1 hx).1

theorem Scanned.size_eq {h h1 h3 : Heap} {es ss ts ps cs : List Nat} {s : Nat}
    {mv : List (Nat × Nat)} (hs : Scanned h h1 h3 es ss ts ps cs s mv) {c : Nat}
    (hc : c ∈ es ++ ss ++ ts ++ ps) : h1.sizeOf c = h.sizeOf c := by
  have h12 := (chunk_region hs.wf.eden hs.wf.survivor hs.wf.tenured hs.wf.perm hc).1
  rw [sizeOf_eq_rd, sizeOf_eq_rd]
  exact hs.frame1 c hc 4 4 (by omega) (by omega)

theorem Scanned.sources_all {h h1 h3 : Heap} {es ss ts ps cs : List Nat} {s : Nat}
    {mv : List (Nat × Nat)} (hs : Scanned h h1 h3 es ss ts ps cs s mv) :
    ∀ p ∈ mv, p.1 ∈ es ++ ss ++ ts ++ ps := by
  intro p hp
  have := (hs.origin p hp).1
  simp only [List.mem_append] at this ⊢
  rcases this with h' | h'
  · exact Or.inl (Or.inl (Or.inl h'))
  · exact Or.inl (Or.inl (Or.inr h'))

/-- Where the object of a live chunk is after the scans: at its copy when the chunk was
in Eden or in the active survivor space, and in place otherwise. -/
theorem Scanned.loc {h h1 h3 : Heap} {es ss ts ps cs : List Nat} {s : Nat}
    {mv : List (Nat × Nat)} (hs : Scanned h h1 h3 es ss ts ps cs s mv) {x : Nat}
    (hx : x ∈ live_list h1 cs) :
    (x ∈ es ++ ss ∧ (x, h3.fwd x) ∈ mv) ∨
      (x ∈ ts ++ ps ∧ (∀ p ∈ mv, p.1 ≠ x) ∧ h3.fwd x = x) := by
  have hall := hs.all_of_live hx
  obtain ⟨hcs, hm⟩ := mem_live_list.1 hx
  have hpos : 0 < h1.eden_max_size := by rw [hs.kept.eden_max_size]; exact hs.wf.eden_pos
  have hsplit : x ∈ es ++ ss ∨ x ∈ ts ++ ps := by
    simp only [List.mem_append] at hall ⊢
    rcases hall with ((h' | h') | h') | h'
    · exact Or.inl (Or.inl h')
    · exact Or.inl (Or.inr h')
    · exact Or.inr (Or.inl h')
    · exact Or.inr (Or.inr h')
  rcases hsplit with hy | ho
  · left
    obtain ⟨d, hd⟩ := hs.complete x hy (by rw [hm]; omega)
    have := (hs.scan.fwd_moved hs.src hpos hd).1
    simp only at this
    rw [this]
    exact ⟨hy, hd⟩
  · right
    have hny := old_not_young hs.wf.valid hs.wf.eden hs.wf.survivor hs.wf.tenured hs.wf.perm ho
    have hfresh : ∀ p ∈ mv, p.1 ≠ x := by
      intro p hp e
      exact hny (e ▸ (hs.origin p hp).1)
    refine ⟨ho, hfresh, ?_⟩
    apply fwd_of_zero
    rw [hs.scan.addr_kept hs.src hs.sources_all hall hfresh, ← hs.wf.addrs x ho hcs,
      addrOf_eq_rd, addrOf_eq_rd]
    have h12 := (chunk_region hs.wf.eden hs.wf.survivor hs.wf.tenured hs.wf.perm hall).1
    exact hs.frame1 x hall 8 4 (by omega) (by omega)

/-- The object of a live chunk after the scans holds the bytes the chunk held. -/
theorem Scanned.content {h h1 h3 : Heap} {es ss ts ps cs : List Nat} {s : Nat}
    {mv : List (Nat × Nat)} (hs : Scanned h h1 h3 es ss ts ps cs s mv) {x : Nat}
    (hx : x ∈ live_list h1 cs) {o k : Nat} (ho : 12 ≤ o) (hok : o + k ≤ h.sizeOf x) :
    h3.rd (h3.fwd x + o) k = h.rd (x + o) k := by
  have hall := hs.all_of_live hx
  have hsz := hs.size_eq hall
  rw [← hs.frame1 x hall o k (by omega) hok]
  rcases hs.loc hx with ⟨_, hmv⟩ | ⟨_, hfresh, hf⟩
  · obtain ⟨-, -, -, hb⟩ := hs.scan.moved _ hmv
    exact hb o k (by omega) (by simp only; omega)
  · rw [hf]
    exact hs.scan.body_kept hs.src hs.sources_all hall (by omega) (Or.inr ho)

/-- The heap after the scans, as the reference rewrite needs it. -/
theorem Scanned.world {h h1 h3 : Heap} {es ss ts ps cs : List Nat} {s : Nat}
    {mv : List (Nat × Nat)} (hs : Scanned h h1 h3 es ss ts ps cs s mv) :
    FixWorld h h3 (live_list h1 cs) := by
  have hpos : 0 < h1.eden_max_size := by rw [hs.kept.eden_max_size]; exact hs.wf.eden_pos
  have e1 : h3.heap = h.heap := hs.scan.same.heap.trans hs.kept.heap
  have e2 : h3.heap_max_size = h.heap_max_size :=
    hs.scan.same.heap_max_size.trans hs.kept.heap_max_size
  have e3 : h1.heap = h.heap := hs.kept.heap
  have e4 : h1.heap_max_size = h.heap_max_size := hs.kept.heap_max_size
  have hsrc := hs.sources_all
  -- the block of a live chunk after the scans
  have block : ∀ x ∈ live_list h1 cs,
      (h3.fwd x = x ∧ ∀ p ∈ mv, p.1 ≠ x) ∨ (x, h3.fwd x) ∈ mv := by
    intro x hx
    rcases hs.loc hx with ⟨_, hmv⟩ | ⟨_, hfresh, hf⟩
    · exact Or.inr hmv
    · exact Or.inl ⟨hf, hfresh⟩
  have hbody : ∀ x ∈ live_list h1 cs, ∀ y ∈ es ++ ss ++ ts ++ ps,
      y = h3.fwd x ∨ y + h.sizeOf y ≤ h3.fwd x ∨ h3.fwd x + h.sizeOf x ≤ y := by
    intro x hx y hy
    have hxa := hs.all_of_live hx
    have sx := hs.size_eq hxa
    have sy := hs.size_eq hy
    rcases block x hx with ⟨hf, _⟩ | hmv
    · rw [hf]
      by_cases hyx : y = x
      · exact Or.inl hyx
      · rcases hs.src.apart y hy x hxa hyx with h' | h'
        · right; left; omega
        · right; right; omega
    · have := hs.scan.old_copy hs.src hy hmv
      simp only at this
      rcases this with h' | h'
      · right; left; omega
      · right; right; omega
  refine ⟨by rw [e1, e2]; exact hs.wf.wide, ?_, ?_, ?_, ?_, ?_, ?_, ?_, ?_, ?_⟩
  · -- arena
    intro x hx
    have hxa := hs.all_of_live hx
    have hin := hs.src.inside x hxa
    have h12 := hs.src.size_ge x hxa
    have sx := hs.size_eq hxa
    refine ⟨by omega, by omega, ?_⟩
    rcases block x hx with ⟨hf, _⟩ | hmv
    · rw [hf]; constructor <;> omega
    · have := hs.scan.copy_inside hs.src hpos hmv
      simp only at this
      constructor <;> omega
  · intro x hx
    exact hs.wf.objects.fits x (mem_live_list.1 hx).1
  · intro x hx
    have hfit := hs.wf.objects.fits x (mem_live_list.1 hx).1
    rw [countOf_eq_rd, countOf_eq_rd]
    exact hs.content hx (by omega) (by omega)
  · intro x hx i hi
    have hfit := hs.wf.objects.fits x (mem_live_list.1 hx).1
    rw [refOf_eq_rd, refOf_eq_rd]
    have e : h3.fwd x + 20 + 8 * i = h3.fwd x + (20 + 8 * i) := by omega
    have e' : x + 20 + 8 * i = x + (20 + 8 * i) := by omega
    rw [e, e']
    exact hs.content hx (by omega) (by omega)
  · intro x hx i hi hne
    obtain ⟨hcs, hm⟩ := mem_live_list.1 hx
    obtain ⟨-, hcl⟩ := hs.live x (hs.all_of_live hx) hm
    obtain ⟨e, he, q1, q2⟩ := hcl i hi hne
    exact ⟨e, mem_live_list.2 ⟨he, q2⟩, q1⟩
  · intro x hx
    rw [hs.scan.mark_kept hs.src hsrc (hs.all_of_live hx)]
    exact (mem_live_list.1 hx).2
  · intro x hx y hy hne
    have hxa := hs.all_of_live hx
    have hya := hs.all_of_live hy
    have h12 := hs.src.size_ge x hxa
    have h12' := hs.src.size_ge y hya
    rcases hs.src.apart x hxa y hya hne with h' | h'
    · left; omega
    · right; omega
  · intro x hx y hy
    have h12 := hs.src.size_ge x (hs.all_of_live hx)
    have sx := hs.size_eq (hs.all_of_live hx)
    rcases hbody y hy x (hs.all_of_live hx) with h' | h' | h'
    · left; omega
    · left; omega
    · right; omega
  · intro x hx y hy hne
    have hxa := hs.all_of_live hx
    have hya := hs.all_of_live hy
    have sx := hs.size_eq hxa
    have sy := hs.size_eq hya
    rcases block x hx with ⟨hf, hfr⟩ | hmv
    · rcases hbody y hy x hxa with h' | h' | h'
      · -- the object of `y` would sit on the chunk `x`
        rcases block y hy with ⟨hf', _⟩ | hmv'
        · rw [hf'] at h'; exact absurd h' hne
        · have := hs.scan.old_copy hs.src hxa hmv'
          simp only at this
          have h12 := hs.src.size_ge x hxa
          have h12' := hs.src.size_ge y hya
          omega
      · rw [hf]; left; omega
      · rw [hf]; right; omega
    · rcases block y hy with ⟨hf', _⟩ | hmv'
      · have := hs.scan.old_copy hs.src hya hmv
        simp only at this
        rw [hf']
        rcases this with h' | h'
        · right; omega
        · left; omega
      · have := hs.scan.apart _ hmv _ hmv' hne
        simp only at this
        rcases this with h' | h'
        · left; omega
        · right; omega

/-- A chunk and the object of a live chunk after the scans: the same block, or apart. -/
theorem Scanned.body_apart {h h1 h3 : Heap} {es ss ts ps cs : List Nat} {s : Nat}
    {mv : List (Nat × Nat)} (hs : Scanned h h1 h3 es ss ts ps cs s mv) {x : Nat}
    (hx : x ∈ live_list h1 cs) {y : Nat} (hy : y ∈ es ++ ss ++ ts ++ ps) :
    (y = x ∧ h3.fwd x = x) ∨ y + h.sizeOf y ≤ h3.fwd x ∨ h3.fwd x + h.sizeOf x ≤ y := by
  have hxa := hs.all_of_live hx
  have sx := hs.size_eq hxa
  have sy := hs.size_eq hy
  rcases hs.loc hx with ⟨_, hmv⟩ | ⟨_, hfresh, hf⟩
  · have := hs.scan.old_copy hs.src hy hmv
    simp only at this
    rcases this with h' | h'
    · right; left; omega
    · right; right; omega
  · rw [hf]
    by_cases hyx : y = x
    · exact Or.inl ⟨hyx, rfl⟩
    · rcases hs.src.apart y hy x hxa hyx with h' | h'
      · right; left; omega
      · right; right; omega

/-- The reference rewrite leaves the header of a copy as the scans made it. -/
theorem Scanned.copy_header {h h1 h3 h4 : Heap} {es ss ts ps cs : List Nat} {s : Nat}
    {mv : List (Nat × Nat)} (hs : Scanned h h1 h3 es ss ts ps cs s mv)
    (hf : Fixing h h3 (live_list h1 cs) h4) {p : Nat × Nat} (hp : p ∈ mv) {o k : Nat}
    (hok : o + k ≤ 12) : h4.rd (p.2 + o) k = h3.rd (p.2 + o) k := by
  have hw := hs.world
  have hpos : 0 < h1.eden_max_size := by rw [hs.kept.eden_max_size]; exact hs.wf.eden_pos
  have hin := hs.scan.copy_inside hs.src hpos hp
  have e1 : h3.heap = h1.heap := hs.scan.same.heap
  have hpa := hs.sources_all p hp
  have h12 := hs.src.size_ge p.1 hpa
  have sp := hs.size_eq hpa
  apply hf.frame _ _ (by omega)
  · intro y hy
    have hya := hs.all_of_live hy
    have sy := hs.size_eq hya
    have h12' := hs.src.size_ge y hya
    rcases hs.scan.old_copy hs.src hya hp with h' | h'
    · right; omega
    · left; omega
  · intro y hy
    have hfit := hw.fits y hy
    rcases hs.loc hy with ⟨_, hmv⟩ | ⟨_, hfresh, hfy⟩
    · by_cases hpy : p.1 = y
      · have := hs.scan.functional hp hmv hpy
        simp only at this
        left; omega
      · have := hs.scan.apart p hp _ hmv hpy
        simp only at this
        have sy := hs.size_eq (hs.all_of_live hy)
        rcases this with h' | h'
        · left; omega
        · right; omega
    · rw [hfy]
      have hya := hs.all_of_live hy
      have sy := hs.size_eq hya
      rcases hs.scan.old_copy hs.src hya hp with h' | h'
      · right; omega
      · left; omega

/-- The reference rewrite leaves the object of a live chunk untouched outside its
reference fields. -/
theorem Scanned.payload_kept {h h1 h3 h4 : Heap} {es ss ts ps cs : List Nat} {s : Nat}
    {mv : List (Nat × Nat)} (hs : Scanned h h1 h3 es ss ts ps cs s mv)
    (hf : Fixing h h3 (live_list h1 cs) h4) {x : Nat} (hx : x ∈ live_list h1 cs) {o k : Nat}
    (ho : 12 ≤ o) (hok : o + k ≤ h.sizeOf x)
    (hout : o + k ≤ 20 ∨ 20 + 8 * h.countOf x ≤ o) :
    h4.rd (h3.fwd x + o) k = h3.rd (h3.fwd x + o) k := by
  have hw := hs.world
  have hax := hw.arena x hx
  apply hf.frame _ _ (by omega)
  · intro y hy
    rcases hw.head y hy x hx with h' | h'
    · right; omega
    · left; omega
  · intro y hy
    by_cases hyx : y = x
    · rw [hyx]
      rcases hout with h' | h'
      · left; omega
      · right; omega
    · have hfy := hw.fits y hy
      rcases hw.apart y hy x hx hyx with h' | h'
      · right; omega
      · left; omega

/-- After the reference rewrite every chunk has mark 0 again. -/
theorem Scanned.marks_cleared {h h1 h3 h4 : Heap} {es ss ts ps cs : List Nat} {s : Nat}
    {mv : List (Nat × Nat)} (hs : Scanned h h1 h3 es ss ts ps cs s mv)
    (hf : Fixing h h3 (live_list h1 cs) h4)
    (hz : ∀ x ∈ live_list h1 cs, h4.markOf x = 0) {c : Nat}
    (hc : c ∈ es ++ ss ++ ts ++ ps) : h4.markOf c = 0 := by
  have hw := hs.world
  by_cases hl : c ∈ live_list h1 cs
  · exact hz c hl
  · have hm1 : h1.markOf c = 0 := by
      rcases hs.bit c hc with h' | h'
      · exact h'
      · exact absurd (mem_live_list.2 ⟨(hs.live c hc h').1, h'⟩) hl
    have hin := hs.src.inside c hc
    have e1 : h3.heap = h1.heap := hs.scan.same.heap
    have h12 := hs.src.size_ge c hc
    have sc := hs.size_eq hc
    rw [← hm1, ← hs.scan.mark_kept hs.src hs.sources_all hc, markOf_eq_rd, markOf_eq_rd]
    apply hf.frame _ _ (by omega)
    · intro y hy
      have hyc : y ≠ c := fun e => hl (e ▸ hy)
      have hya := hs.all_of_live hy
      have h12' := hs.src.size_ge y hya
      rcases hs.src.apart y hya c hc hyc with h' | h'
      · right; omega
      · left; omega
    · intro y hy
      have hfy := hw.fits y hy
      rcases hs.body_apart hy hc with ⟨h', _⟩ | h' | h'
      · exact absurd (h' ▸ hy) hl
      · left; omega
      · right; omega

/-! ## One minor collection -/

theorem bind_chain {α β γ : Type} (x : M α) (f : α → M β) (g : β → M γ) (b : β)
    (h : (x >>= f) = .ok b) : (x >>= fun a => f a >>= g) = g b := by
  cases x with
  | error e => cases h
  | ok a =>
    rw [ok_bind] at h
    rw [ok_bind, h, ok_bind]

/-- A minor collection of a well-formed heap, when the second scan does not reach its
fallback: `minor_gc` returns, and the heap it returns is the one `Collected` describes. -/
theorem minor_gc_spec (h : Heap) (es ss ts ps cs : List Nat)
    (hwf : h.WellFormed es ss ts ps cs) (fuel : Nat)
    (hfuel : es.length + ss.length + cs.length < fuel) (h1 : Heap)
    (hmark : mark_chunk object_visitor fuel h .root = .ok h1) (s t : Nat)
    (hplan : eden_plan h1 es (survivor_plan h1 ss h.tenured_size 0).2
      (survivor_plan h1 ss h.tenured_size 0).1 = some (s, t)) :
    ∃ h' mv sv tn, minor_gc object_visitor fuel h = .ok h' ∧
      Collected h h1 h' es ss ts ps cs mv sv tn := by
  obtain ⟨h1', r, m, hrun, hr, hroot, h1eq, hmr, hbit, hlive, hreach, hframe⟩ :=
    mark_phase_spec hwf fuel (by omega)
  have : h1' = h1 := by rw [hrun] at hmark; injection hmark
  subst this
  subst h1eq
  have hv1 : (h.withMem m).Valid := hwf.valid.valid_withMem m
  have hS0 := sources_of_tilings hwf.valid hwf.eden hwf.survivor hwf.tenured hwf.perm
  have hsize : ∀ c ∈ es ++ ss ++ ts ++ ps, (h.withMem m).sizeOf c = h.sizeOf c := by
    intro c hc
    have h12 := hS0.size_ge c hc
    rw [sizeOf_eq_rd, sizeOf_eq_rd]
    exact hframe c hc 4 4 (by omega) (by omega)
  have mem_e : ∀ c ∈ es, c ∈ es ++ ss ++ ts ++ ps := by
    intro c hc; simp only [List.mem_append]; exact Or.inl (Or.inl (Or.inl hc))
  have mem_s : ∀ c ∈ ss, c ∈ es ++ ss ++ ts ++ ps := by
    intro c hc; simp only [List.mem_append]; exact Or.inl (Or.inl (Or.inr hc))
  have mem_t : ∀ c ∈ ts, c ∈ es ++ ss ++ ts ++ ps := by
    intro c hc; simp only [List.mem_append]; exact Or.inl (Or.inr hc)
  have mem_p : ∀ c ∈ ps, c ∈ es ++ ss ++ ts ++ ps := by
    intro c hc; simp only [List.mem_append]; exact Or.inr hc
  have te : Tiling (h.withMem m) (h.withMem m).eden_ptr
      ((h.withMem m).eden_ptr + (h.withMem m).eden_size) es :=
    Tiling.tiling_congr (fun c hc => hsize c (mem_e c hc)) hwf.eden
  have tss : Tiling (h.withMem m) (h.withMem m).sfrom
      ((h.withMem m).sfrom + (h.withMem m).survivor_size) ss :=
    Tiling.tiling_congr (fun c hc => hsize c (mem_s c hc)) hwf.survivor
  have tt : Tiling (h.withMem m) (h.withMem m).tenured_ptr
      ((h.withMem m).tenured_ptr + (h.withMem m).tenured_size) ts :=
    Tiling.tiling_congr (fun c hc => hsize c (mem_t c hc)) hwf.tenured
  have tp : Tiling (h.withMem m) (h.withMem m).perm_ptr
      ((h.withMem m).perm_ptr + (h.withMem m).perm_size) ps :=
    Tiling.tiling_congr (fun c hc => hsize c (mem_p c hc)) hwf.perm
  obtain ⟨h3, mv, sv, tn, escan, hsc, hpl, g1, g2, g3, g4, g5⟩ :=
    scan_phase object_visitor hv1 te tss tt tp fuel (by omega) s t hplan
  have hs : Scanned h (h.withMem m) h3 es ss ts ps cs s mv :=
    ⟨hwf, (Kept.kept_refl h).kept_withMem m, rfl, hframe, hbit, fun c hc hm => ⟨(hlive c hc hm).1,
      (hlive c hc hm).2.2⟩, sources_of_tilings hv1 te tss tt tp, hsc, g4, g5⟩
  have hw := hs.world
  have hrL : r ∈ live_list (h.withMem m) cs := mem_live_list.2 ⟨hr, hmr⟩
  have hroot3 : h3.root = r + 12 := by rw [hsc.same.root]; exact hroot
  have hpath : ∀ x ∈ live_list (h.withMem m) cs, h.Path r x := by
    intro x hx
    exact (hlive x (hs.all_of_live hx) (mem_live_list.1 hx).2).2.1
  have hlen : (live_list (h.withMem m) cs).length < fuel := by
    have : (live_list (h.withMem m) cs).length ≤ cs.length := List.length_filter_le _ _
    omega
  obtain ⟨h4, efix, hf4, hroot4, hmark4, hrefs4⟩ := fix_phase hw hrL hroot3 hpath fuel hlen
  refine ⟨compute_heap_size { h4 with eden_size := 0 }, mv, sv, tn, ?_, ?_⟩
  · rw [minor_gc_eq, hrun, ok_bind, s_ptr_to hv1, ok_bind]
    refine (bind_chain _ _ _ _ escan).trans ?_
    rw [efix, ok_bind]
    rfl
  · have hL : ∀ x ∈ cs, h.Reach x → x ∈ live_list (h.withMem m) cs :=
      fun x hx hR => mem_live_list.2 ⟨hx, hreach x hx hR⟩
    have hk := hf4.same
    have hss := hsc.same
    have hS1 := hs.src
    have haddr : ∀ x ∈ live_list (h.withMem m) cs, h4.addrOf x = h3.addrOf x :=
      fun x hx => Fixing.addrOf_eq hw hf4 hx
    have hfwd : ∀ x ∈ live_list (h.withMem m) cs, h4.fwd x = h3.fwd x := by
      intro x hx
      unfold Heap.fwd
      rw [haddr x hx, hk.heap]
    have hmvL : ∀ p ∈ mv, p.1 ∈ live_list (h.withMem m) cs := by
      intro p hp
      have a := g4 p hp
      have hall : p.1 ∈ es ++ ss ++ ts ++ ps := hs.sources_all p hp
      have hm1 : (h.withMem m).markOf p.1 = 1 := by
        rcases hbit p.1 hall with h0 | h0
        · exact absurd h0 a.2
        · exact h0
      exact mem_live_list.2 ⟨(hlive p.1 hall hm1).1, hm1⟩
    have hsz4 : ∀ p ∈ mv, h4.sizeOf p.2 = h3.sizeOf p.2 := by
      intro p hp
      rw [sizeOf_eq_rd, sizeOf_eq_rd]
      exact hs.copy_header hf4 hp (by omega)
    have hflip : h4.survivor = h.survivor ^^^ 1 := by rw [hk.survivor, g1]; rfl
    have hto : h4.sfrom = (h.withMem m).sto := by
      have hb := hwf.valid.survivor_bit
      unfold Heap.sfrom Heap.sto
      rw [hflip, hk.s_ptr0, hk.s_ptr1, hss.s_ptr0, hss.s_ptr1]
      show (if h.survivor ^^^ 1 = 0 then h.s_ptr0 else h.s_ptr1) =
        if h.survivor = 0 then h.s_ptr1 else h.s_ptr0
      by_cases hz : h.survivor = 0
      · rw [hz]; simp
      · have h1 : h.survivor = 1 := by omega
        rw [h1]; simp
    refine
      { config := ?_, flip := hflip, eden_size := rfl, plan := ?_, total := rfl,
        room_s := ?_, grow_t := ?_, room_t := ?_, moved := ?_,
        complete := ?_, forward := ?_, stay := ?_, copy := ?_, place := hpl.copies,
        origin := hpl.origin, tile_s := ?_, tile_t := ?_, payload := ?_, refs := ?_,
        root := ?_, marks := ?_ }
    · exact
        ⟨hk.eden_max_size.trans hss.eden_max_size,
          hk.survivor_max_size.trans hss.survivor_max_size,
          hk.tenured_max_size.trans hss.tenured_max_size,
          hk.perm_max_size.trans hss.perm_max_size,
          hk.heap_max_size.trans hss.heap_max_size,
          hk.age_cycles.trans hss.age_cycles,
          hk.gc_delay.trans hss.gc_delay,
          hk.perm_size.trans hss.perm_size,
          hk.heap.trans hss.heap,
          hk.eden_ptr.trans hss.eden_ptr,
          hk.s_ptr0.trans hss.s_ptr0,
          hk.s_ptr1.trans hss.s_ptr1,
          hk.tenured_ptr.trans hss.tenured_ptr,
          hk.perm_ptr.trans hss.perm_ptr⟩
    · show _ = some (h4.survivor_size, h4.tenured_size)
      rw [hk.survivor_size, hk.tenured_size, g2, g3]
      exact hplan
    · show h4.survivor_size ≤ _
      rw [hk.survivor_size, g2]
      exact hsc.n_le
    · show _ ≤ h4.tenured_size
      rw [hk.tenured_size]
      exact hsc.t_ge
    · show h4.tenured_size ≤ _
      rw [hk.tenured_size]
      exact hsc.t_le
    · intro p hp
      have hx := hmvL p hp
      have hall := hs.all_of_live hx
      have hl := hlive p.1 hall (mem_live_list.1 hx).2
      exact ⟨(g4 p hp).1, hl.1, r, hroot, hl.2.1⟩
    · intro c hc hcs hR
      refine g5 c hc ?_
      rw [hreach c hcs hR]
      decide
    · intro p hp
      have a := hsc.fwd_moved hS1 hwf.eden_pos hp
      have e1 : h4.addrOf p.1 = h3.addrOf p.1 := haddr p.1 (hmvL p hp)
      refine ⟨?_, ?_⟩
      · show h4.addrOf p.1 ≠ 0
        rw [e1]; exact a.2
      · show h4.heap + h4.addrOf p.1 = p.2
        rw [e1, hk.heap, ← fwd_of_pos a.2]
        exact a.1
    · intro c hc hcs hR
      show h4.addrOf c = 0
      have hcall : c ∈ es ++ ss ++ ts ++ ps := hwf.sub c hcs
      have h12 := hS0.size_ge c hcall
      rw [haddr c (hL c hcs hR)]
      have hfresh : ∀ p ∈ mv, p.1 ≠ c := by
        intro p hp e
        have := old_not_young hwf.valid hwf.eden hwf.survivor hwf.tenured hwf.perm hc
        exact this (e ▸ (g4 p hp).1)
      rw [hsc.addr_kept hS1 hs.sources_all hcall hfresh, addrOf_eq_rd,
        hframe c hcall 8 4 (by omega) (by omega), ← addrOf_eq_rd]
      exact hwf.addrs c hc hcs
    · intro p hp
      have hall : p.1 ∈ es ++ ss ++ ts ++ ps := hs.sources_all p hp
      have h12 := hS0.size_ge p.1 hall
      refine ⟨?_, ?_, ?_⟩
      · show h4.markOf p.2 = 0
        have := hs.copy_header hf4 hp (show 0 + 1 ≤ 12 by omega)
        rw [markOf_eq_rd, ← Nat.add_zero p.2, this, Nat.add_zero, ← markOf_eq_rd]
        exact (hsc.moved p hp).2.2.1
      · show h4.ageOf p.2 = _
        have := hs.copy_header hf4 hp (show 1 + 1 ≤ 12 by omega)
        rw [ageOf_eq_rd, this, ← ageOf_eq_rd, hpl.age p hp]
        unfold new_age
        rw [ageOf_eq_rd, ageOf_eq_rd, hframe p.1 hall 1 1 (by omega) (by omega)]
      · show h4.sizeOf p.2 = _
        rw [hsz4 p hp, hpl.size p hp]
        exact hsize p.1 hall
    · show Tiling _ h4.sfrom (h4.sfrom + h4.survivor_size) sv
      rw [hto, hk.survivor_size, g2]
      refine Tiling.tiling_congr ?_ hpl.tile_s
      intro d hd
      obtain ⟨p, hp, rfl⟩ := hpl.origin d (Or.inl hd)
      exact hsz4 p hp
    · show Tiling _ _ (h.tenured_ptr + h4.tenured_size) tn
      rw [hk.tenured_size]
      refine Tiling.tiling_congr ?_ hpl.tile_t
      intro d hd
      obtain ⟨p, hp, rfl⟩ := hpl.origin d (Or.inr hd)
      exact hsz4 p hp
    · intro x hx hR o k ho hok hout
      have hxL := hL x hx hR
      show h4.rd (h4.fwd x + o) k = _
      rw [hfwd x hxL, hs.payload_kept hf4 hxL ho hok hout]
      exact hs.content hxL ho hok
    · intro x hx hR i hi
      have hxL := hL x hx hR
      show h4.refOf (h4.fwd x) i = h4.fwdRef (h.refOf x i)
      rw [hfwd x hxL, hrefs4 x hxL i hi]
      unfold Heap.fwdRef
      by_cases hz : h.refOf x i = 0
      · rw [if_pos hz, if_pos hz]
      · rw [if_neg hz, if_neg hz]
        have hcl := (hlive x (hs.all_of_live hxL) (mem_live_list.1 hxL).2).2.2
        obtain ⟨e, he, hre, hme⟩ := hcl i hi hz
        rw [hre, Nat.add_sub_cancel, hfwd e (mem_live_list.2 ⟨he, hme⟩)]
    · show h4.root = h4.fwdRef h.root
      rw [hroot4, hroot, fwdRef_add, hfwd r hrL]
    · intro c hc
      show h4.markOf c = 0
      exact hs.marks_cleared hf4 hmark4 hc

/-! ## The fallback of the second scan -/

theorem error_bind {α β : Type} (e : Fault) (f : α → M β) :
    ((Except.error e : M α) >>= f) = Except.error e := rfl

/-- A round of the second scan on a marked chunk that fits neither in the survivor target
space nor in Tenured does not return. -/
theorem eden_step_stuck (vis : ObjVisitor) (fuel : Nat) (h : Heap) (sto c dst : Nat)
    (hmark : h.rd c 1 ≠ 0) (hc : h.heap ≤ c) (hcin : c + 12 ≤ h.heap + h.heap_max_size)
    (hsum : h.tenured_size + h.rd (c + 4) 4 < 4294967296)
    (hn : h.survivor_size + h.rd (c + 4) 4 < 4294967296)
    (h1 : ¬ h.rd (c + 4) 4 + h.survivor_size < h.survivor_max_size)
    (h2 : ¬ h.tenured_size + h.rd (c + 4) 4 < h.tenured_max_size) :
    ∃ e, eden_step vis fuel sto h c dst = .error e := by
  unfold eden_step
  rw [load8_rd ⟨hc, by omega⟩, ok_bind]
  simp only [hmark, ne_eq, not_false_eq_true, if_true]
  rw [load32_rd ⟨by omega, by omega⟩]
  simp only [ok_bind]
  have hr1 : ¬ (h.rd (c + 4) 4 + h.survivor_size) % 4294967296 < h.survivor_max_size := by
    rw [Nat.mod_eq_of_lt (by omega)]; exact h1
  have hr2 : ¬ (h.tenured_size + h.rd (c + 4) 4) % 4294967296 < h.tenured_max_size := by
    rw [Nat.mod_eq_of_lt hsum]; exact h2
  simp only [hr1, hr2, if_false]
  cases fix_minor vis fuel h .root with
  | error e => exact ⟨e, rfl⟩
  | ok a =>
    simp only [ok_bind]
    cases mark_chunk vis fuel a .root with
    | error e => exact ⟨e, rfl⟩
    | ok b => exact ⟨.assertion, rfl⟩

/-- The second scan of `minor_gc` does not return when a marked chunk of Eden fits
neither in the survivor target space nor in Tenured. -/
theorem eden_loop_stuck (vis : ObjVisitor) {h1 : Heap} {sto : Nat} {all : List Nat}
    (hS : Sources h1 sto all) :
    ∀ (l : List Nat) (fuel : Nat) (h : Heap) (src dst : Nat) (mv : List (Nat × Nat)),
      Tiling h1 src (h1.eden_ptr + h1.eden_size) l → (∀ c ∈ l, c ∈ all) →
      Scan h1 sto h h.survivor_size mv →
      (∀ p ∈ mv, p.1 ∈ all) → (∀ c ∈ l, ∀ p ∈ mv, p.1 ≠ c) →
      h1.eden_ptr ≤ src →
      eden_plan h1 l h.survivor_size h.tenured_size = none →
      ∃ e, eden_loop vis sto fuel h src dst = .error e := by
  intro l
  induction l with
  | nil =>
    intro fuel h src dst mv ht hl hsc hsrc hfresh hle hplan
    simp only [eden_plan] at hplan
    cases hplan
  | cons c l ih =>
    intro fuel h src dst mv ht hl hsc hsrc hfresh hle hplan
    cases fuel with
    | zero => exact ⟨.fuel, by unfold eden_loop; rfl⟩
    | succ k =>
      have hnd := ht.head_fresh
      obtain ⟨hcs, h12, ht'⟩ := ht
      subst hcs
      have hend := ht'.le
      have hc : c ∈ all := hl c (List.mem_cons_self _ _)
      have hfc : ∀ p ∈ mv, p.1 ≠ c := hfresh c (List.mem_cons_self _ _)
      have hel := hS.valid.eden_le
      have hcond : c - h.eden_ptr < h.eden_size := by
        rw [hsc.same.eden_ptr, hsc.same.eden_size]; omega
      unfold eden_loop
      rw [if_pos hcond]
      rcases eden_round vis k dst hsc hS hsrc hc hfc (by omega) with ⟨hm, e⟩ | ⟨hm, hlive⟩
      · rw [e, ok_bind]
        simp only [eden_plan, hm, if_true] at hplan
        exact ih k h (c + h1.sizeOf c) dst mv ht'
          (fun x hx => hl x (List.mem_cons_of_mem _ hx)) hsc hsrc
          (fun x hx => hfresh x (List.mem_cons_of_mem _ hx)) (by omega) hplan
      · simp only [eden_plan, hm, if_false] at hplan
        by_cases hroom : h1.sizeOf c + h.survivor_size < h1.survivor_max_size ∨
            h.tenured_size + h1.sizeOf c < h1.tenured_max_size
        · obtain ⟨g, d, e, hmv, g2, hres⟩ := hlive hroom
          rw [e, ok_bind]
          have hsc' := scan_move hmv hsc hS hsrc hc hfc
          have hsrc' : ∀ p ∈ (c, d) :: mv, p.1 ∈ all := by
            intro p hp
            rcases List.mem_cons.1 hp with rfl | hp
            · exact hc
            · exact hsrc p hp
          have hfresh' : ∀ x ∈ l, ∀ p ∈ (c, d) :: mv, p.1 ≠ x := by
            intro x hx p hp
            rcases List.mem_cons.1 hp with rfl | hp
            · intro hxc
              have hxc' : c = x := hxc
              exact hnd (hxc' ▸ hx)
            · exact hfresh x (List.mem_cons_of_mem _ hx) p hp
          have hplan' : eden_plan h1 l g.survivor_size g.tenured_size = none := by
            by_cases ha : h1.sizeOf c + h.survivor_size < h1.survivor_max_size
            · rw [if_pos ha] at hplan hres
              injection hres with p1 p2
              rw [p1, p2]; exact hplan
            · rw [if_neg ha] at hplan hres
              have hb : h.tenured_size + h1.sizeOf c < h1.tenured_max_size := by
                rcases hroom with h' | h'
                · exact absurd h' ha
                · exact h'
              rw [if_pos hb] at hplan
              injection hres with p1 p2
              rw [p1, p2]; exact hplan
          exact ih k g (c + h1.sizeOf c) d ((c, d) :: mv) ht'
            (fun x hx => hl x (List.mem_cons_of_mem _ hx)) hsc' hsrc' hfresh' (by omega) hplan'
        · obtain ⟨em, ea, es⟩ := hsc.header hS hsrc hc hfc
          have hin := hS.inside c hc
          have hsz := hS.size_ge c hc
          have hn := hsc.n_le
          have ht := hsc.t_le
          have hl := hS.valid.layout
          have hb := hl.bound
          have htot := hl.total
          have e1 := hsc.same.heap
          have e2 := hsc.same.heap_max_size
          have e4 := hsc.same.tenured_max_size
          have e5 := hsc.same.survivor_max_size
          obtain ⟨e, he⟩ := eden_step_stuck vis k h sto c dst (by rw [em]; exact hm) (by omega)
            (by omega) (by omega) (by omega) (by rw [es, e5]; exact fun h' => hroom (Or.inl h'))
            (by rw [es, e4]; exact fun h' => hroom (Or.inr h'))
          exact ⟨e, by rw [he]; rfl⟩

/-- The first scan of `minor_gc` on the marked heap `h1`. -/
theorem survivor_phase {h1 : Heap} {es ss ts ps : List Nat} (hv : h1.Valid)
    (he : Tiling h1 h1.eden_ptr (h1.eden_ptr + h1.eden_size) es)
    (hs : Tiling h1 h1.sfrom (h1.sfrom + h1.survivor_size) ss)
    (ht : Tiling h1 h1.tenured_ptr (h1.tenured_ptr + h1.tenured_size) ts)
    (hp : Tiling h1 h1.perm_ptr (h1.perm_ptr + h1.perm_size) ps)
    (fuel : Nat) (hfuel : ss.length < fuel) :
    ∃ h2 n mv1,
      (if h1.survivor_size > 0 then
            (h1.s_ptr h1.survivor >>= fun sfrom =>
              survivor_loop sfrom h1.sto fuel h1 sfrom 0 >>= fun p =>
              pure { p.1 with survivor_size := p.2 })
          else pure h1) = .ok h2 ∧
        Scan h1 h1.sto h2 n mv1 ∧ h2.survivor_size = n ∧
        (h2.tenured_size, n) = survivor_plan h1 ss h1.tenured_size 0 ∧
        (∀ p ∈ mv1, p.1 ∈ ss) := by
  have hS := sources_of_tilings hv he hs ht hp
  have hall_s : ∀ c ∈ ss, c ∈ es ++ ss ++ ts ++ ps := by
    intro c hc; simp only [List.mem_append]; exact Or.inl (Or.inl (Or.inr hc))
  have hag_s : ∀ c ∈ ss, new_age h1 ss c = if h1.ageOf c = 255 then 255 else h1.ageOf c + 1 := by
    intro c hc; unfold new_age; rw [if_pos hc]
  by_cases hz : h1.survivor_size > 0
  · obtain ⟨h', n', mv', sv', tn', r1, r2, r3, r4, r5, r6, r7, r8, r9, r10⟩ :=
      @survivor_loop_spec h1 h1.sto h1.sfrom (es ++ ss ++ ts ++ ps) (new_age h1 ss) hS ss fuel h1 h1.sfrom 0 []
        [] [] (by omega) hs hall_s (Scan.scan_start _ hv) (Placed.placed_start _ _)
        (fun p hp => absurd hp (List.not_mem_nil p))
        (fun c _ p hp => absurd hp (List.not_mem_nil p)) rfl rfl (by omega) hag_s
    refine ⟨{ h' with survivor_size := n' }, n', mv', ?_,
      r2.scan_congr rfl ⟨r2.same.1, r2.same.2, r2.same.3, r2.same.4, r2.same.5, r2.same.6,
        r2.same.7, r2.same.8, r2.same.9, r2.same.10, r2.same.11, r2.same.12, r2.same.13,
        r2.same.14, r2.same.15, r2.same.16, r2.same.17⟩ rfl, rfl, r6, ?_⟩
    · rw [if_pos hz, s_ptr_from hv, ok_bind, r1, ok_bind]
      rfl
    · intro p hp
      rcases r7 p hp with h0 | h0
      · exact absurd h0 (List.not_mem_nil p)
      · exact h0.1
  · have hz' : h1.survivor_size = 0 := by omega
    have hnil : ss = [] := by
      have := hs
      rw [hz', Nat.add_zero] at this
      exact this.eq_nil
    subst hnil
    refine ⟨h1, 0, [], ?_, Scan.scan_start _ hv, hz', rfl,
      fun p hp => absurd hp (List.not_mem_nil p)⟩
    rw [if_neg hz]
    rfl

/-- The two scans of `minor_gc` on the marked heap `h1` do not return when the second one
reaches its fallback. -/
theorem scan_phase_stuck (vis : ObjVisitor) {h1 : Heap} {es ss ts ps : List Nat}
    (hv : h1.Valid)
    (he : Tiling h1 h1.eden_ptr (h1.eden_ptr + h1.eden_size) es)
    (hs : Tiling h1 h1.sfrom (h1.sfrom + h1.survivor_size) ss)
    (ht : Tiling h1 h1.tenured_ptr (h1.tenured_ptr + h1.tenured_size) ts)
    (hp : Tiling h1 h1.perm_ptr (h1.perm_ptr + h1.perm_size) ps)
    (fuel : Nat) (hfuel : ss.length < fuel)
    (hplan : eden_plan h1 es (survivor_plan h1 ss h1.tenured_size 0).2
      (survivor_plan h1 ss h1.tenured_size 0).1 = none) :
    ∃ e,
      ((if h1.survivor_size > 0 then
            (h1.s_ptr h1.survivor >>= fun sfrom =>
              survivor_loop sfrom h1.sto fuel h1 sfrom 0 >>= fun p =>
              pure { p.1 with survivor_size := p.2 })
          else pure h1) >>= fun h2 =>
        eden_loop vis h1.sto fuel { h2 with survivor := h2.survivor ^^^ 1 } h2.eden_ptr 0)
        = .error e := by
  have hS := sources_of_tilings hv he hs ht hp
  have hall_s : ∀ c ∈ ss, c ∈ es ++ ss ++ ts ++ ps := by
    intro c hc; simp only [List.mem_append]; exact Or.inl (Or.inl (Or.inr hc))
  have hall_e : ∀ c ∈ es, c ∈ es ++ ss ++ ts ++ ps := by
    intro c hc; simp only [List.mem_append]; exact Or.inl (Or.inl (Or.inl hc))
  obtain ⟨h2, n, mv1, e1, sc1, q1, q3, q4⟩ := survivor_phase hv he hs ht hp fuel hfuel
  have hplan2 : eden_plan h1 es n h2.tenured_size = none := by
    rw [← q3] at hplan; exact hplan
  have sc2 : Scan h1 h1.sto { h2 with survivor := h2.survivor ^^^ 1 }
      ({ h2 with survivor := h2.survivor ^^^ 1 } : Heap).survivor_size mv1 := by
    show Scan h1 h1.sto _ h2.survivor_size mv1
    rw [q1]
    exact sc1.scan_congr rfl ⟨sc1.same.1, sc1.same.2, sc1.same.3, sc1.same.4, sc1.same.5, sc1.same.6,
      sc1.same.7, sc1.same.8, sc1.same.9, sc1.same.10, sc1.same.11, sc1.same.12, sc1.same.13,
      sc1.same.14, sc1.same.15, sc1.same.16, sc1.same.17⟩ rfl
  have hplan3 : eden_plan h1 es ({ h2 with survivor := h2.survivor ^^^ 1 } : Heap).survivor_size
      ({ h2 with survivor := h2.survivor ^^^ 1 } : Heap).tenured_size = none := by
    show eden_plan h1 es h2.survivor_size h2.tenured_size = none
    rw [q1]; exact hplan2
  obtain ⟨e, r1⟩ :=
    eden_loop_stuck vis hS es fuel { h2 with survivor := h2.survivor ^^^ 1 } h1.eden_ptr 0 mv1
      he hall_e sc2 (fun p hp => hall_s p.1 (q4 p hp))
      (fun c hc p hp hpc => eden_not_survivor hv he hs hc (by rw [← hpc]; exact q4 p hp))
      (Nat.le_refl _) hplan3
  refine ⟨e, ?_⟩
  rw [e1, ok_bind]
  have : h2.eden_ptr = h1.eden_ptr := sc1.same.eden_ptr
  rw [← this] at r1
  exact r1

theorem bind_chain_error {α β γ : Type} (x : M α) (f : α → M β) (g : β → M γ) (e : Fault)
    (h : (x >>= f) = .error e) : (x >>= fun a => f a >>= g) = .error e := by
  cases x with
  | error e' =>
    rw [error_bind] at h
    rw [error_bind]
    injection h with h
    rw [h]
  | ok a =>
    rw [ok_bind] at h
    rw [ok_bind, h]
    rfl

/-- A minor collection of a well-formed heap does not return when the second scan
reaches its fallback. -/
theorem minor_gc_stuck (h : Heap) (es ss ts ps cs : List Nat)
    (hwf : h.WellFormed es ss ts ps cs) (fuel : Nat)
    (hfuel : es.length + ss.length + cs.length < fuel) (h1 : Heap)
    (hmark : mark_chunk object_visitor fuel h .root = .ok h1)
    (hplan : eden_plan h1 es (survivor_plan h1 ss h.tenured_size 0).2
      (survivor_plan h1 ss h.tenured_size 0).1 = none) :
    ∃ e, minor_gc object_visitor fuel h = .error e := by
  obtain ⟨h1', r, m, hrun, hr, hroot, h1eq, hmr, hbit, hlive, hreach, hframe⟩ :=
    mark_phase_spec hwf fuel (by omega)
  have : h1' = h1 := by rw [hrun] at hmark; injection hmark
  subst this
  subst h1eq
  have hv1 : (h.withMem m).Valid := hwf.valid.valid_withMem m
  have hS0 := sources_of_tilings hwf.valid hwf.eden hwf.survivor hwf.tenured hwf.perm
  have hsize : ∀ c ∈ es ++ ss ++ ts ++ ps, (h.withMem m).sizeOf c = h.sizeOf c := by
    intro c hc
    have h12 := hS0.size_ge c hc
    rw [sizeOf_eq_rd, sizeOf_eq_rd]
    exact hframe c hc 4 4 (by omega) (by omega)
  have mem_e : ∀ c ∈ es, c ∈ es ++ ss ++ ts ++ ps := by
    intro c hc; simp only [List.mem_append]; exact Or.inl (Or.inl (Or.inl hc))
  have mem_s : ∀ c ∈ ss, c ∈ es ++ ss ++ ts ++ ps := by
    intro c hc; simp only [List.mem_append]; exact Or.inl (Or.inl (Or.inr hc))
  have mem_t : ∀ c ∈ ts, c ∈ es ++ ss ++ ts ++ ps := by
    intro c hc; simp only [List.mem_append]; exact Or.inl (Or.inr hc)
  have mem_p : ∀ c ∈ ps, c ∈ es ++ ss ++ ts ++ ps := by
    intro c hc; simp only [List.mem_append]; exact Or.inr hc
  have te : Tiling (h.withMem m) (h.withMem m).eden_ptr
      ((h.withMem m).eden_ptr + (h.withMem m).eden_size) es :=
    Tiling.tiling_congr (fun c hc => hsize c (mem_e c hc)) hwf.eden
  have tss : Tiling (h.withMem m) (h.withMem m).sfrom
      ((h.withMem m).sfrom + (h.withMem m).survivor_size) ss :=
    Tiling.tiling_congr (fun c hc => hsize c (mem_s c hc)) hwf.survivor
  have tt : Tiling (h.withMem m) (h.withMem m).tenured_ptr
      ((h.withMem m).tenured_ptr + (h.withMem m).tenured_size) ts :=
    Tiling.tiling_congr (fun c hc => hsize c (mem_t c hc)) hwf.tenured
  have tp : Tiling (h.withMem m) (h.withMem m).perm_ptr
      ((h.withMem m).perm_ptr + (h.withMem m).perm_size) ps :=
    Tiling.tiling_congr (fun c hc => hsize c (mem_p c hc)) hwf.perm
  obtain ⟨e, escan⟩ :=
    scan_phase_stuck object_visitor hv1 te tss tt tp fuel (by omega) hplan
  refine ⟨e, ?_⟩
  rw [minor_gc_eq, hrun, ok_bind, s_ptr_to hv1, ok_bind]
  exact bind_chain_error _ _ _ _ escan

/-- A minor collection of a well-formed heap that returns: the second scan did not reach
its fallback, and the heap returned is the one `Collected` describes. -/
theorem minor_gc_complete (h : Heap) (es ss ts ps cs : List Nat)
    (hwf : h.WellFormed es ss ts ps cs) (fuel : Nat)
    (hfuel : es.length + ss.length + cs.length < fuel) (h' : Heap)
    (hret : minor_gc object_visitor fuel h = .ok h') :
    ∃ h1 mv sv tn, mark_chunk object_visitor fuel h .root = .ok h1 ∧
      Collected h h1 h' es ss ts ps cs mv sv tn := by
  obtain ⟨h1, r, m, hrun, _⟩ := mark_phase_spec hwf fuel (show cs.length < fuel by omega)
  cases hplan : eden_plan h1 es (survivor_plan h1 ss h.tenured_size 0).2
      (survivor_plan h1 ss h.tenured_size 0).1 with
  | none =>
    obtain ⟨e, he⟩ := minor_gc_stuck h es ss ts ps cs hwf fuel hfuel h1 hrun hplan
    rw [he] at hret
    cases hret
  | some st =>
    obtain ⟨g, mv, sv, tn, hg, hcol⟩ :=
      minor_gc_spec h es ss ts ps cs hwf fuel hfuel h1 hrun st.1 st.2 hplan
    rw [hg] at hret
    injection hret with hret
    subst hret
    exact ⟨h1, mv, sv, tn, hrun, hcol⟩

/-! ## Consequences for the heap after a minor collection -/

theorem ageOf_lt (h : Heap) (c : Nat) : h.ageOf c < 256 := by
  rw [ageOf_eq_rd]
  exact peek_lt _ _ 1

theorem no_fallback_plan {fuel : Nat} {h : Heap} {es ss : List Nat}
    (hf : no_fallback fuel h es ss = true) :
    ∃ h1 s t, mark_chunk object_visitor fuel h .root = .ok h1 ∧
      eden_plan h1 es (survivor_plan h1 ss h.tenured_size 0).2
        (survivor_plan h1 ss h.tenured_size 0).1 = some (s, t) := by
  unfold no_fallback at hf
  cases hm : mark_chunk object_visitor fuel h .root with
  | error e => rw [hm] at hf; cases hf
  | ok h1 =>
    rw [hm] at hf
    have hf' : (eden_plan h1 es (survivor_plan h1 ss h.tenured_size 0).2
        (survivor_plan h1 ss h.tenured_size 0).1).isSome = true := hf
    cases hp : eden_plan h1 es (survivor_plan h1 ss h.tenured_size 0).2
        (survivor_plan h1 ss h.tenured_size 0).1 with
    | none => rw [hp] at hf'; cases hf'
    | some st => exact ⟨h1, st.1, st.2, rfl, hp⟩

/-- A minor collection of a well-formed heap returns when the second scan does not reach
its fallback. -/
theorem minor_gc_returns (h : Heap) (es ss ts ps cs : List Nat)
    (hwf : h.WellFormed es ss ts ps cs) (fuel : Nat)
    (hfuel : es.length + ss.length + cs.length < fuel)
    (hfree : no_fallback fuel h es ss = true) :
    ∃ h' h1 mv sv tn, minor_gc object_visitor fuel h = .ok h' ∧
      Collected h h1 h' es ss ts ps cs mv sv tn := by
  obtain ⟨h1, s, t, hm, hp⟩ := no_fallback_plan hfree
  obtain ⟨h', mv, sv, tn, hg, hc⟩ := minor_gc_spec h es ss ts ps cs hwf fuel hfuel h1 hm s t hp
  exact ⟨h', h1, mv, sv, tn, hg, hc⟩

/-- A live chunk of Eden or Survivor-From has a forward offset after the collection; it
leads to the copy. -/
theorem Collected.young {h h1 h' : Heap} {es ss ts ps cs : List Nat} {mv : List (Nat × Nat)}
    {sv tn : List Nat} (hc : Collected h h1 h' es ss ts ps cs mv sv tn) {c : Nat}
    (hy : c ∈ es ++ ss) (hcs : c ∈ cs) (hR : h.Reach c) :
    h'.addrOf c ≠ 0 ∧ h'.fwd c = h'.heap + h'.addrOf c ∧ (c, h'.fwd c) ∈ mv := by
  obtain ⟨d, hd⟩ := hc.complete c hy hcs hR
  obtain ⟨a, b⟩ := hc.forward (c, d) hd
  have hf := fwd_of_pos a
  refine ⟨a, hf, ?_⟩
  rw [hf]
  have b' : h'.heap + h'.addrOf c = d := b
  rw [b']
  exact hd

/-- The object count of a live object is kept in its place after the collection. -/
theorem Collected.count {h h1 h' : Heap} {es ss ts ps cs : List Nat}
    {mv : List (Nat × Nat)} {sv tn : List Nat}
    (hc : Collected h h1 h' es ss ts ps cs mv sv tn) (hwf : h.WellFormed es ss ts ps cs)
    {x : Nat} (hx : x ∈ cs) (hR : h.Reach x) : h'.countOf (h'.fwd x) = h.countOf x := by
  have hf := hwf.objects.fits x hx
  rw [countOf_eq_rd, countOf_eq_rd]
  exact hc.payload x hx hR 16 4 (by omega) (by omega) (Or.inl (by omega))

/-- The header of the copy of a live chunk of Eden or Survivor-From. -/
theorem Collected.copy_of {h h1 h' : Heap} {es ss ts ps cs : List Nat}
    {mv : List (Nat × Nat)} {sv tn : List Nat}
    (hc : Collected h h1 h' es ss ts ps cs mv sv tn) {c : Nat}
    (hy : c ∈ es ++ ss) (hcs : c ∈ cs) (hR : h.Reach c) :
    h'.markOf (h'.heap + h'.addrOf c) = 0 ∧
      h'.ageOf (h'.heap + h'.addrOf c) = new_age h ss c ∧
      h'.sizeOf (h'.heap + h'.addrOf c) = h.sizeOf c ∧
      (h'.heap + h'.addrOf c ∈ sv ∨ h'.heap + h'.addrOf c ∈ tn) := by
  obtain ⟨a, b, m⟩ := hc.young hy hcs hR
  rw [← b]
  obtain ⟨c1, c2, c3⟩ := hc.copy _ m
  exact ⟨c1, c2, c3, hc.place _ m⟩

/-- The active survivor space after the flip is the other space. -/
theorem Collected.sfrom_eq {h h1 h' : Heap} {es ss ts ps cs : List Nat}
    {mv : List (Nat × Nat)} {sv tn : List Nat}
    (hc : Collected h h1 h' es ss ts ps cs mv sv tn) (hv : h.Valid) : h'.sfrom = h.sto := by
  have hb := hv.survivor_bit
  unfold Heap.sfrom Heap.sto
  rw [hc.flip, hc.config.s_ptr0, hc.config.s_ptr1]
  by_cases hz : h.survivor = 0
  · rw [hz]; simp
  · have h1 : h.survivor = 1 := by omega
    rw [h1]; simp

/-! ## The slow path of `chunk_alloc` -/

/-- The bump allocation in an empty Eden. -/
theorem eden_alloc_empty (g : Heap) (n : Nat) (hz : g.eden_size = 0) (hp : g.eden_ptr = g.heap)
    (h12 : 12 ≤ n) (hn : n < g.eden_max_size) (hmax : g.eden_max_size ≤ g.heap_max_size)
    (hb : g.heap_max_size < 4294967296) (hsum : g.heap_size + n < 4294967296) :
    chunk_eden_alloc g n = .ok (g.eden_ptr,
      { g.withMem (poke (poke (poke g.mem (g.eden_ptr + 4 - g.heap) 4 n)
                (g.eden_ptr + 1 - g.heap) 1 0) (g.eden_ptr - g.heap) 1 0) with
        eden_size := n
        heap_size := g.heap_size + n }) := by
  have e1 : (g.eden_size + n) % 4294967296 = n := by
    rw [hz, Nat.zero_add]; exact Nat.mod_eq_of_lt (by omega)
  have e2 : (g.heap_size + n) % 4294967296 = g.heap_size + n := Nat.mod_eq_of_lt hsum
  have a1 : g.inArena (g.eden_ptr + 4) 4 := by
    constructor <;> omega
  have a2 : g.inArena (g.eden_ptr + 1) 1 := by
    constructor <;> omega
  have a3 : g.inArena g.eden_ptr 1 := by
    constructor <;> omega
  unfold chunk_eden_alloc
  rw [e1, if_neg (by omega)]
  simp only [Heap.store32, Heap.store8, bind, Except.bind, hz, Nat.add_zero, a1, a2, a3, if_true,
    withMem_inArena, withMem_heap, withMem_mem, withMem_eden_size, withMem_heap_size, e2,
    withMem_withMem, Nat.zero_add, Nat.mod_eq_of_lt (show n < 4294967296 by omega)]

/-- The heap that a minor collection of a well-formed heap returns is valid and its Eden
is empty. -/
theorem Collected.valid {h h1 h' : Heap} {es ss ts ps cs : List Nat}
    {mv : List (Nat × Nat)} {sv tn : List Nat}
    (hc : Collected h h1 h' es ss ts ps cs mv sv tn) (hv : h.Valid) :
    h'.Layout ∧ h'.eden_size = 0 ∧ h'.survivor_size ≤ h'.survivor_max_size ∧
      h'.tenured_size ≤ h'.tenured_max_size ∧ h'.perm_size ≤ h'.perm_max_size ∧
      h'.heap_size = h'.survivor_size + h'.tenured_size + h'.perm_size := by
  have hl := hv.layout
  have c := hc.config
  have hs := hc.room_s
  have ht := hc.room_t
  have hp := hv.perm_le
  have htot := hc.total
  have hz := hc.eden_size
  have b1 := hl.total
  have b2 := hl.bound
  refine ⟨⟨?_, ?_, ?_, ?_, ?_, ?_, ?_, ?_⟩, hz, ?_, ?_, ?_, ?_⟩
  · rw [c.heap]; exact hl.base_pos
  · rw [c.eden_ptr, c.heap]; exact hl.eden_at
  · rw [c.s_ptr0, c.heap, c.eden_max_size]; exact hl.s0_at
  · rw [c.s_ptr1, c.heap, c.eden_max_size, c.survivor_max_size]; exact hl.s1_at
  · rw [c.tenured_ptr, c.heap, c.eden_max_size, c.survivor_max_size]; exact hl.tenured_at
  · rw [c.perm_ptr, c.heap, c.eden_max_size, c.survivor_max_size, c.tenured_max_size]
    exact hl.perm_at
  · rw [c.heap_max_size, c.eden_max_size, c.survivor_max_size, c.tenured_max_size,
      c.perm_max_size]
    exact hl.total
  · rw [c.heap_max_size]; exact hl.bound
  · rw [c.survivor_max_size]; exact hs
  · rw [c.tenured_max_size]; exact ht
  · rw [c.perm_size, c.perm_max_size]; exact hp
  · rw [htot]
    unfold Heap.used_sum
    rw [hz, Nat.zero_add, c.perm_size]
    exact Nat.mod_eq_of_lt (by omega)
theorem heap_alloc_zeroed_witness :
    ∃ r h', heap_alloc object_visitor 0 (test_heap (256 ^ 6656 - 1)) 16 = .ok (r, h') ∧ r ≠ 0 ∧
      ∃ c h1, chunk_alloc object_visitor 0 (test_heap (256 ^ 6656 - 1))
          ((16 + CHUNK) % 4294967296) = .ok (c, h1) ∧
        r = c + CHUNK ∧ h'.load32 (c + 4) = .ok ((16 + CHUNK) % 4294967296) ∧
        h'.load8 c = .ok 0 ∧ h'.load8 (c + 1) = .ok 0 ∧
        ∀ i, i < 16 → h'.load8 (r + i) = .ok 0 := by
  have h1 : (heap_alloc object_visitor 0 (test_heap (256 ^ 6656 - 1)) 16).map Prod.fst
      = .ok 4108 := by decide!
  rcases hx : heap_alloc object_visitor 0 (test_heap (256 ^ 6656 - 1)) 16 with e | ⟨r, h'⟩
  · rw [hx] at h1; cases h1
  · rw [hx] at h1
    have hr : r = 4108 := by injection h1
    have hne : r ≠ 0 := by omega
    exact ⟨r, h', rfl, hne, heap_alloc_zeroed object_visitor 0 _ 16 r h' hx hne⟩

/-- Claim C3 (code defect): the run of `main` of `test.c` does not reach its end.  The
first list of 101 nodes is built, every allocation returning a node; later, during the
second list, a minor collection finds a live Eden chunk that fits neither the survivor
space nor Tenured, enters the compaction fallback and stops in the `assert(heap && 0)`
of `address_region`. -/
theorem stress_run_aborts :
    ((do
        let h ← heap_init (config 1024 512 2048 2560 2 3) 4096 0
        let (root, h) ← object_alloc object_visitor 1000 h 100 1
        main_inner 1000 1 101 1 { h with root := root }).map Prod.fst = .ok 0) ∧
    faultOf (main 1000 4096 0) = some Fault.assertion := by
  constructor <;> decide!

/-- Claim C4 (code defect): a request that fits nowhere is not answered with nil.  With
four capacities of 64 bytes and a payload of 200 bytes, `heap_alloc` stops in
`mark_chunk` at address `nil - 12` when no root is installed, and in the `assert` of
`address_region` (reached from `major_gc`) when a small object is the root.  In fact no
call of `heap_alloc`, on any heap, returns nil. -/
theorem oom_request_never_returns_nil :
    heap_init (config 64 64 64 64 2 3) 4096 0 = .ok oom_heap ∧
    heap_alloc object_visitor 100 oom_heap 200 = .error .segv ∧
    (object_alloc object_visitor 100 oom_heap 7 0).map
        (fun p => (decide (p.1 ≠ 0),
          heap_alloc object_visitor 100 { p.2 with root := p.1 } 200))
      = .ok (true, .error .assertion) ∧
    ∀ (vis : ObjVisitor) (fuel : Nat) (h : Heap) (size : Nat) (h' : Heap),
      heap_alloc vis fuel h size ≠ .ok (0, h') := by
  refine ⟨by decide!, by decide!, by decide!, ?_⟩
  intro vis fuel h size h' hc
  obtain ⟨c, h1, _, _, hr, _⟩ := heap_alloc_ok vis fuel h size 0 h' hc
  simp [CHUNK] at hr

/-- Claim C5 (code defect): the test `eden_size + size >= eden_max_size` is computed
modulo `2^32`.  On the heap of `test.c` after one allocation of 88 bytes (`eden_size` is
100, the heap is valid), a payload of `2^32 - 62` bytes gives the chunk size
`n = 2^32 - 50` without overflow, Tenured has no room, and although
`eden_size + n` exceeds `eden_max_size` the attempt in Eden succeeds: it returns the
chunk at `eden_ptr + 100` and leaves `eden_size = 50`.  `heap_alloc` then clears
`2^32 - 62` bytes and leaves the arena. -/
theorem eden_bound_wraps :
    (heap_alloc object_visitor 0 (test_heap 0) 88).map
        (fun p => (p.2.eden_size, p.2.tenured_size, decide p.2.Valid)) = .ok (100, 0, true) ∧
    (heap_alloc object_visitor 0 (test_heap 0) 88).bind
        (fun p => (chunk_tenured_alloc p.2 4294967246).map Prod.fst) = .ok 0 ∧
    (heap_alloc object_visitor 0 (test_heap 0) 88).bind
        (fun p => (chunk_eden_alloc p.2 4294967246).map (fun q => (q.1, q.2.eden_size)))
      = .ok (4196, 50) ∧
    (heap_alloc object_visitor 0 (test_heap 0) 88).bind
        (fun p => heap_alloc object_visitor 100 p.2 4294967234) = .error .segv := by
  refine ⟨by decide!, by decide!, by decide!, by decide!⟩

/-- Claim C1 (code defect): a minor collection that completes can change the graph
reachable from the root.  On a heap reached from `heap_init` by nine allocations, each
new node pointing at the old root and becoming the root, the chain from the root holds
the words 9, 8, ..., 1 before `minor_gc` and only 9, 8, 7, 3, 2, 1 after it. -/
theorem minor_gc_loses_nodes :
    (stale_heap.bind fun h => (minor_gc object_visitor 100 h).map fun h' =>
        (decide (h.root ≠ 0), list_data h 20 h.root, list_data h' 20 h'.root))
      = .ok (true, [9, 8, 7, 6, 5, 4, 3, 2, 1], [9, 8, 7, 3, 2, 1]) := by
  decide!

set_option maxHeartbeats 4000000 in
/-- Claim C9 (code defect): `gc` is a `uint8_t` and `heap->gc += ...` wraps.  On a
valid heap reached from `heap_init`, with two live survivors and `gc = 254`, the first
scan of `minor_gc` processes the first survivor and leaves `gc = 255`; the second
survivor is marked, its age 129 reaches `age_cycles = 2`, Tenured has no room
(`52 + 28 >= 64`), and the round copies it to the survivor target space (`new_size`
grows by 28) and leaves `gc = 0`, not 256.  The whole collection ends with `gc = 0`.
The first list is `gc`, the survivor bit, `survivor_size`, `age_cycles` and
`tenured_max_size` before the collection and `gc` after it; the second is mark, age and
size of the second survivor, `tenured_size` and `gc` before its round, and `gc` and the
growth of `new_size` after it. -/
theorem pressure_counter_wraps :
    (pressure_heap.bind fun h => (minor_gc object_visitor 100 h).map fun h' =>
        (decide h.Valid,
          [h.gc, h.survivor, h.survivor_size, h.age_cycles, h.tenured_max_size, h'.gc]))
      = .ok (true, [254, 1, 56, 2, 64, 0]) ∧
    (pressure_heap.bind fun h => (mark_chunk object_visitor 100 h .root).bind fun h1 =>
      (survivor_rounds h1.s_ptr0 1 h1 h1.s_ptr1 0).bind fun p =>
      (p.1.load8 p.2.1).bind fun mark => (p.1.load8 (p.2.1 + 1)).bind fun age =>
      (p.1.load32 (p.2.1 + 4)).bind fun size =>
      (survivor_step h1.s_ptr0 p.1 p.2.1 p.2.2).map fun q =>
        [mark, age, size, p.1.tenured_size, p.1.gc, q.1.gc, q.2.2 - p.2.2])
      = .ok [1, 129, 28, 52, 255, 0, 28] := by
  refine ⟨by decide!, by decide!⟩

/-- Claim C8 as stated fails when the root is nil: the heap below has one chunk, mark 0,
no reference that is not nil, and `mark_chunk` on the root slot faults at `nil - 12`
whatever the budget. -/
theorem mark_phase_nil_root :
    unrooted_heap.Objects [4096] ∧ (∀ c ∈ [4096], unrooted_heap.markOf c = 0) ∧
      unrooted_heap.root = 0 ∧
      ∀ fuel, ∃ e, mark_chunk object_visitor fuel unrooted_heap .root = .error e := by
  refine ⟨by decide!, by decide!, by decide!, ?_⟩
  intro fuel
  cases fuel with
  | zero => exact ⟨.fuel, rfl⟩
  | succ n =>
    refine ⟨.segv, ?_⟩
    have hr : unrooted_heap.root = 0 := by decide!
    simp [mark_chunk, Heap.loadRef, hr, chunk_of, CHUNK, bind, Except.bind]

theorem mark_phase_marks_live_witness :
    (cyclic_heap.Objects [4096, 4124, 4152] ∧
      (∀ c ∈ [4096, 4124, 4152], cyclic_heap.markOf c = 0) ∧
      (∃ r ∈ [4096, 4124, 4152], cyclic_heap.root = r + 12) ∧
      cyclic_heap.refOf 4096 0 = 4124 + 12 ∧ cyclic_heap.refOf 4124 0 = 4096 + 12 ∧
      (mark_chunk object_visitor 4 cyclic_heap .root).map
        (fun h' => [h'.markOf 4096, h'.markOf 4124, h'.markOf 4152]) = .ok [1, 1, 0]) ∧
    ∃ h', mark_chunk object_visitor 4 cyclic_heap .root = .ok h' ∧
      (∀ c ∈ [4096, 4124, 4152], h'.markOf c = 1 ↔ cyclic_heap.Reach c) ∧
      (∀ c ∈ [4096, 4124, 4152], h'.markOf c = 0 ∨ h'.markOf c = 1) ∧
      h' = cyclic_heap.withMem h'.mem ∧
      ∀ o n, (∀ c ∈ [4096, 4124, 4152], c - cyclic_heap.heap < o ∨ o + n ≤ c - cyclic_heap.heap) →
        peek h'.mem o n = peek cyclic_heap.mem o n :=
  ⟨by refine ⟨by decide!, by decide!, by decide!, by decide!, by decide!, by decide!⟩,
    mark_phase_marks_live cyclic_heap [4096, 4124, 4152] (by decide!) (by decide!) (by decide!)
      4 (by decide)⟩

/-- Claim C14 (total size): on every heap a host reaches from `heap_init` by calls of
`heap_alloc` that return, with writes to the arena and to the root between them,
`heap_size` is the sum of the four used sizes as the code computes it, in `uint32_t`.
This holds for every visitor and on every path: the two bump allocators add the same
number to a region and to the total, and `minor_gc` ends in `compute_heap_size`. -/
theorem heap_size_is_sum (vis : ObjVisitor) (cfg : Heap) (base mem0 : Nat) (l : List Action)
    (h : Heap) (hrun : (heap_init cfg base mem0 >>= run vis l) = .ok h) :
    h.heap_size =
      (h.eden_size + h.survivor_size + h.tenured_size + h.perm_size) % 4294967296 := by
  rw [bind_ok_iff] at hrun
  obtain ⟨h0, hi, hr⟩ := hrun
  exact run_keeps vis (fun h => h.heap_size = h.used_sum) (fun _ _ hP => hP) (fun _ _ hP => hP)
    eden_alloc_sum tenured_alloc_sum (fun fuel h hg _ hm => minor_gc_sum vis fuel h hg hm)
    l h0 h (heap_init_sum cfg base mem0 h0 hi) hr

theorem heap_size_is_sum_witness :
    ∃ h, (heap_init (config 100 58 2048 64 2 3) 1000 0 >>= run object_visitor short_run) = .ok h ∧
      [h.eden_size, h.survivor_size, h.tenured_size, h.perm_size, h.heap_size, h.survivor]
        = [28, 28, 0, 0, 56, 1] ∧
      h.heap_size =
        (h.eden_size + h.survivor_size + h.tenured_size + h.perm_size) % 4294967296 := by
  have h1 : (heap_init (config 100 58 2048 64 2 3) 1000 0 >>= run object_visitor short_run).map
      (fun h => [h.eden_size, h.survivor_size, h.tenured_size, h.perm_size, h.heap_size,
        h.survivor]) = .ok [28, 28, 0, 0, 56, 1] := by decide!
  rcases hx : (heap_init (config 100 58 2048 64 2 3) 1000 0 >>= run object_visitor short_run)
    with e | h
  · rw [hx] at h1; cases h1
  · rw [hx] at h1
    refine ⟨h, rfl, ?_, heap_size_is_sum object_visitor _ 1000 0 short_run h hx⟩
    injection h1

/-- Claim C16 (code defect): the forward field is never cleared.  From `heap_init` on a
zeroed arena, four allocations of 16 bytes with the first object installed as the root:
before the fourth allocation every chunk has mark 0 and forward 0; the fourth runs a
minor collection, which records the forward offset 158 in the old chunk of the root at
the base of Eden, and then places the new chunk at that very address.  After the call
returns, Eden holds this one chunk (`eden_size = 28`, the reference returned is
`eden_ptr + 12`), with mark 0, size 28 and forward 158. -/
theorem forward_field_survives_allocation :
    (heap_init (config 100 58 2048 64 2 3) 1000 0 >>= run object_visitor (short_run.take 4)).map
      (fun h => (decide h.Valid, [h.eden_size, h.survivor_size, h.tenured_size, h.root],
        [h.addrOf 1000, h.addrOf 1028, h.addrOf 1056],
        [h.markOf 1000, h.markOf 1028, h.markOf 1056]))
      = .ok (true, [84, 0, 0, 1012], [0, 0, 0], [0, 0, 0]) ∧
    (heap_init (config 100 58 2048 64 2 3) 1000 0 >>= run object_visitor (short_run.take 4) >>=
      fun h => (heap_alloc object_visitor 100 h 16).map fun p =>
          (decide p.2.Valid, [p.1, p.2.eden_ptr, p.2.eden_size],
            [p.2.markOf p.2.eden_ptr, p.2.sizeOf p.2.eden_ptr, p.2.addrOf p.2.eden_ptr]))
      = .ok (true, [1012, 1000, 28], [0, 28, 158]) := by
  refine ⟨by decide!, by decide!⟩

/-- Claim C17 (chunk size): whenever `heap_alloc` returns a reference `r` for a 32-bit
payload size, on a heap whose arena size is a 32-bit number, the sum `size + 12` does
not wrap, and the size field of the chunk at `r - 12` holds exactly `size + 12`, header
plus payload, whatever path produced the chunk. -/
theorem chunk_size_covers_request (vis : ObjVisitor) (fuel : Nat) (h : Heap) (size r : Nat)
    (h' : Heap) (hr : heap_alloc vis fuel h size = .ok (r, h')) (_hne : r ≠ 0)
    (hmax : h'.heap_max_size < 4294967296) :
    (size + CHUNK) % 4294967296 = size + 12 ∧ h'.load32 (r - 12 + 4) = .ok (size + 12) ∧
      12 + size ≤ h'.sizeOf (r - 12) := by
  obtain ⟨c, h1, hc, hne, rfl, hm⟩ := heap_alloc_ok vis fuel h size r h' hr
  obtain ⟨_, h0, ho⟩ := chunk_alloc_origin vis fuel h _ c h1 hc
  obtain ⟨b1, b2, f1, f2, f3⟩ :=
    fresh_header h0 _ c h1 hne (Nat.mod_lt _ (by norm_num)) ho
  obtain ⟨am, rfl⟩ := memset0_ok.1 hm
  unfold Heap.inArena at am
  simp only [CHUNK, withMem_heap_max_size] at am f1 hmax ⊢
  have hsz : (size + 12) % 4294967296 = size + 12 := Nat.mod_eq_of_lt (by omega)
  have hc12 : c + 12 - 12 = c := by omega
  rw [hc12]
  rw [hsz] at f1
  have hval : (h1.withMem (poke h1.mem (c + 12 - h1.heap) size 0)).sizeOf c = size + 12 := by
    unfold Heap.sizeOf
    simp only [withMem_heap, withMem_mem]
    rw [peek_poke_below _ _ _ _ _ _ (by omega)]
    have : c + 4 - h1.heap = c - h1.heap + 4 := by omega
    rw [this, f1]
  refine ⟨hsz, ?_, by omega⟩
  rw [load32_ok]
  refine ⟨⟨by simp only [withMem_heap]; omega,
    by simp only [withMem_heap, withMem_heap_max_size]; omega⟩, ?_⟩
  exact hval.symm

theorem chunk_size_covers_request_witness :
    ∃ r h', heap_alloc object_visitor 0 (test_heap 0) 600 = .ok (r, h') ∧ r ≠ 0 ∧
      h'.heap_max_size < 4294967296 ∧
      (600 + CHUNK) % 4294967296 = 600 + 12 ∧ h'.load32 (r - 12 + 4) = .ok (600 + 12) ∧
      12 + 600 ≤ h'.sizeOf (r - 12) := by
  have h1 : (heap_alloc object_visitor 0 (test_heap 0) 600).map
      (fun p => (p.1, p.2.heap_max_size)) = .ok (6156, 6656) := by decide!
  rcases hx : heap_alloc object_visitor 0 (test_heap 0) 600 with e | ⟨r, h'⟩
  · rw [hx] at h1; cases h1
  · rw [hx] at h1
    have hr : r = 6156 ∧ h'.heap_max_size = 6656 := by
      injection h1 with h1; injection h1 with e1 e2; exact ⟨e1, e2⟩
    have hne : r ≠ 0 := by omega
    have hmax : h'.heap_max_size < 4294967296 := by omega
    exact ⟨r, h', rfl, hne, hmax,
      chunk_size_covers_request object_visitor 0 _ 600 r h' hx hne hmax⟩

/-- Claim C18 (code defect): a major collection never completes.  `address_region` and
`compact_region` are `assert(heap && 0)`, so `major_gc` returns on no heap, for no
visitor and no budget; on the heap with two live nodes that point at each other and one
dead node, the mark phase completes and the run stops in the assertion. -/
theorem major_gc_never_completes :
    (∀ (vis : ObjVisitor) (fuel : Nat) (h h' : Heap), major_gc vis fuel h ≠ .ok h') ∧
    (mark_chunk object_visitor 100 cyclic_heap .root).map
        (fun h => [h.markOf 4096, h.markOf 4124, h.markOf 4152]) = .ok [1, 1, 0] ∧
    major_gc object_visitor 100 cyclic_heap = .error .assertion := by
  refine ⟨fun vis fuel h h' => major_gc_ne_ok vis fuel h h', by decide!, by decide!⟩

/-- Claim C19 (code defect): `heap_max_size` is computed in `uint32_t`.  With the
positive capacities `2^31`, `2^30`, 1 and 1 the sum is `2^32 + 2`, and `heap_init`
records `heap_max_size = 2` (the number of bytes it asks `malloc` for) while it places
the survivor spaces, Tenured and Permanent at the offsets `2^31`, `3 * 2^30`, `2^32` and
`2^32 + 1`, all outside the buffer; the first allocation then writes a header outside
the buffer. -/
theorem heap_init_size_wraps :
    [wide_config.eden_max_size, wide_config.survivor_max_size, wide_config.tenured_max_size,
      wide_config.perm_max_size] = [2147483648, 1073741824, 1, 1] ∧
    (heap_init wide_config 4096 0).map (fun h =>
        [h.heap_max_size, h.eden_ptr - h.heap, h.s_ptr0 - h.heap, h.s_ptr1 - h.heap,
          h.tenured_ptr - h.heap, h.perm_ptr - h.heap])
      = .ok [2, 0, 2147483648, 3221225472, 4294967296, 4294967297] ∧
    (heap_init wide_config 4096 0 >>= fun h => heap_alloc object_visitor 0 h 16)
      = .error .segv := by
  refine ⟨by decide!, by decide!, by decide!⟩

/-- Claim C20 (code defect): `heap_init` does not look at the visitor.  With the four
positive capacities of `test.c` and a null visitor it returns an initialised heap, the
one it returns with the visitor of `test.c`; it fails its assertion when a capacity is
zero and also, with four positive capacities and the visitor set, when `malloc` returns
null. -/
theorem heap_init_accepts_null_visitor :
    (heap_init_struct none (config 1024 512 2048 2560 2 3) 4096 0).map
        (fun p => (p.2.isNone, decide (p.1 = test_heap 0), decide p.1.Valid))
      = .ok (true, true, true) ∧
    (heap_init_struct (some object_visitor) (config 1024 512 2048 2560 2 3) 4096 0).map
        (fun p => (p.2.isSome, decide (p.1 = test_heap 0))) = .ok (true, true) ∧
    (heap_init_struct (some object_visitor) (config 1024 0 2048 2560 2 3) 4096 0).map
        (fun p => p.1) = .error .assertion ∧
    (heap_init_struct (some object_visitor) (config 1024 512 2048 2560 2 3) 0 0).map
        (fun p => p.1) = .error .assertion := by
  refine ⟨by decide!, by decide!, by decide!, by decide!⟩

/-! ## Claims about one minor collection -/

/-- The ages after a minor collection of a well-formed heap.  Let `h` be a well-formed
heap (tiled regions, every mark 0, forward offset 0 on the live chunks of Tenured and
Perm) and let `minor_gc` return `h'`.  The copy of a live chunk `c` lies at
`heap + addr`, with `addr` the forward offset recorded in `c`.  When `c` was in
Survivor-From the age of the copy is `min (age + 1) 255`; when `c` was in Eden the age
of the copy is 1.  Both hold wherever the copy went, the survivor target space or
Tenured. -/
theorem minor_gc_ages (h : Heap) (es ss ts ps cs : List Nat)
    (hwf : h.WellFormed es ss ts ps cs) (fuel : Nat)
    (hfuel : es.length + ss.length + cs.length < fuel) (h' : Heap)
    (hret : minor_gc object_visitor fuel h = .ok h') :
    (∀ c ∈ ss, c ∈ cs → h.Reach c →
      h'.addrOf c ≠ 0 ∧ h'.ageOf (h'.heap + h'.addrOf c) = min (h.ageOf c + 1) 255 ∧
      (h.ageOf c < h'.ageOf (h'.heap + h'.addrOf c) ∨
        (h.ageOf c = 255 ∧ h'.ageOf (h'.heap + h'.addrOf c) = 255))) ∧
    (∀ c ∈ es, c ∈ cs → h.Reach c →
      h'.addrOf c ≠ 0 ∧ h'.ageOf (h'.heap + h'.addrOf c) = 1 ∧
      (h.ageOf c = 0 → h.ageOf c < h'.ageOf (h'.heap + h'.addrOf c))) := by
  obtain ⟨h1, mv, sv, tn, _, hc⟩ := minor_gc_complete h es ss ts ps cs hwf fuel hfuel h' hret
  refine ⟨?_, ?_⟩
  · intro c hs hcs hR
    have hy : c ∈ es ++ ss := List.mem_append_right _ hs
    have ha := (hc.copy_of hy hcs hR).2.1
    have hlt := ageOf_lt h c
    unfold new_age at ha
    rw [if_pos hs] at ha
    refine ⟨(hc.young hy hcs hR).1, ?_, ?_⟩
    · rw [ha]
      by_cases h255 : h.ageOf c = 255
      · rw [if_pos h255, h255]; rfl
      · rw [if_neg h255, Nat.min_eq_left (by omega)]
    · rw [ha]
      by_cases h255 : h.ageOf c = 255
      · rw [if_pos h255]; exact Or.inr ⟨h255, rfl⟩
      · rw [if_neg h255]; exact Or.inl (by omega)
  · intro c he hcs hR
    have hy : c ∈ es ++ ss := List.mem_append_left _ he
    have ha := (hc.copy_of hy hcs hR).2.1
    unfold new_age at ha
    rw [if_neg (eden_not_survivor hwf.valid hwf.eden hwf.survivor he)] at ha
    refine ⟨(hc.young hy hcs hR).1, ha, fun h0 => ?_⟩
    rw [ha, h0]
    exact Nat.zero_lt_one

/-- An instance: the second collection of the pair A, B, with a node C in Eden as the
root.  The copies of A and B go from age 1 to age 2, the copy of C has age 1. -/
theorem minor_gc_ages_witness :
    aged_heap.WellFormed [4096] [5632, 5660] [] [] [4096, 5632, 5660] ∧
    minor_gc object_visitor 8 aged_heap = .ok (collected 8 aged_heap) ∧
    aged_heap.ageOf 5632 = 1 ∧ aged_heap.ageOf 4096 = 0 ∧
    ((∀ c ∈ [5632, 5660], c ∈ [4096, 5632, 5660] → aged_heap.Reach c →
      (collected 8 aged_heap).addrOf c ≠ 0 ∧
      (collected 8 aged_heap).ageOf ((collected 8 aged_heap).heap +
        (collected 8 aged_heap).addrOf c) = min (aged_heap.ageOf c + 1) 255 ∧
      (aged_heap.ageOf c < (collected 8 aged_heap).ageOf ((collected 8 aged_heap).heap +
          (collected 8 aged_heap).addrOf c) ∨
        (aged_heap.ageOf c = 255 ∧ (collected 8 aged_heap).ageOf ((collected 8 aged_heap).heap +
          (collected 8 aged_heap).addrOf c) = 255))) ∧
    (∀ c ∈ [4096], c ∈ [4096, 5632, 5660] → aged_heap.Reach c →
      (collected 8 aged_heap).addrOf c ≠ 0 ∧
      (collected 8 aged_heap).ageOf ((collected 8 aged_heap).heap +
        (collected 8 aged_heap).addrOf c) = 1 ∧
      (aged_heap.ageOf c = 0 → aged_heap.ageOf c <
        (collected 8 aged_heap).ageOf ((collected 8 aged_heap).heap +
          (collected 8 aged_heap).addrOf c)))) :=
  ⟨by decide!, by decide!, by decide!, by decide!,
    minor_gc_ages aged_heap [4096] [5632, 5660] [] [] [4096, 5632, 5660] (by decide!) 8
      (by decide) (collected 8 aged_heap) (by decide!)⟩

/-- The survivor spaces after a minor collection of a well-formed heap.  Let `h` be a
well-formed heap (tiled regions, every mark 0, forward offset 0 on the live chunks of
Tenured and Perm) and let `minor_gc` return `h'`.  The survivor bit of `h'` is the old one
XOR 1, so the active survivor space of `h'` is the space that was not active in `h`; Eden
is empty; and the copies of the live chunks of Eden and Survivor-From are the chunks `sv`,
which tile the first `survivor_size` bytes of the active survivor space of `h'`, within
its capacity, and the chunks `tn`, which tile the bytes that Tenured gained. -/
theorem minor_gc_flips_survivor (h : Heap) (es ss ts ps cs : List Nat)
    (hwf : h.WellFormed es ss ts ps cs) (fuel : Nat)
    (hfuel : es.length + ss.length + cs.length < fuel) (h' : Heap)
    (hret : minor_gc object_visitor fuel h = .ok h') :
    h'.survivor = h.survivor ^^^ 1 ∧ h'.sfrom = h.sto ∧ h'.s_ptr0 = h.s_ptr0 ∧
    h'.s_ptr1 = h.s_ptr1 ∧ h'.eden_size = 0 ∧
    h'.survivor_size ≤ h'.survivor_max_size ∧
    ∃ sv tn, Tiling h' h'.sfrom (h'.sfrom + h'.survivor_size) sv ∧
      Tiling h' (h.tenured_ptr + h.tenured_size) (h.tenured_ptr + h'.tenured_size) tn ∧
      (∀ c ∈ es ++ ss, c ∈ cs → h.Reach c →
        h'.heap + h'.addrOf c ∈ sv ∨ h'.heap + h'.addrOf c ∈ tn) ∧
      (∀ d, d ∈ sv ∨ d ∈ tn →
        ∃ c ∈ es ++ ss, c ∈ cs ∧ h.Reach c ∧ h'.heap + h'.addrOf c = d) := by
  obtain ⟨h1, mv, sv, tn, _, hc⟩ := minor_gc_complete h es ss ts ps cs hwf fuel hfuel h' hret
  refine ⟨hc.flip, hc.sfrom_eq hwf.valid, hc.config.s_ptr0, hc.config.s_ptr1, hc.eden_size,
    ?_, sv, tn, hc.tile_s, hc.tile_t, ?_, ?_⟩
  · rw [hc.config.survivor_max_size]
    exact hc.room_s
  · intro c hy hcs hR
    exact (hc.copy_of hy hcs hR).2.2.2
  · intro d hd
    obtain ⟨p, hp, hpd⟩ := hc.origin d hd
    obtain ⟨m1, m2, m3⟩ := hc.moved p hp
    refine ⟨p.1, m1, m2, m3, ?_⟩
    rw [(hc.forward p hp).2]
    exact hpd

/-- An instance: the first collection of the pair A, B, with an empty Survivor-From.  The
bit goes from 0 to 1 and the two copies fill the first 56 bytes of the survivor space 1,
at 5632. -/
theorem minor_gc_flips_survivor_witness :
    pair_heap.WellFormed [4096, 4124] [] [] [] [4096, 4124] ∧
    minor_gc object_visitor 5 pair_heap = .ok (collected 5 pair_heap) ∧
    pair_heap.survivor = 0 ∧ (collected 5 pair_heap).survivor = 1 ∧
    (collected 5 pair_heap).sfrom = 5632 ∧ (collected 5 pair_heap).survivor_size = 56 ∧
    Tiling (collected 5 pair_heap) 5632 (5632 + 56) [5632, 5660] ∧
    (collected 5 pair_heap).survivor = pair_heap.survivor ^^^ 1 ∧
    (collected 5 pair_heap).sfrom = pair_heap.sto :=
  ⟨by decide!, by decide!, by decide!, by decide!, by decide!, by decide!, by decide!,
    (minor_gc_flips_survivor pair_heap [4096, 4124] [] [] [] [4096, 4124] (by decide!) 5
      (by decide) (collected 5 pair_heap) (by decide!)).1,
    (minor_gc_flips_survivor pair_heap [4096, 4124] [] [] [] [4096, 4124] (by decide!) 5
      (by decide) (collected 5 pair_heap) (by decide!)).2.1⟩

/-- Claim C11 fails in the code.  `heap_init` takes the arena from `malloc` and no
function writes the forward field of a new chunk.  On the heap
`config 100 280 2048 64 2 3` the host of `unaged_run` allocates a large object L (served
from Tenured at 1660), installs it as the root, allocates a small object (the chunk at
1000 in Eden, age 0), stores it in the reference field of L and allocates three more;
every `heap_alloc` returns.  The chunk at 1000 is live.  The minor collection of this
heap returns: the second scan copies the chunk to 1380 with age 1, and `fix_minor` then
follows the forward field of L, which was never written (2708), to bytes of Perm that
read as an object with the reference 1393, and flips the low bit of the byte at 1381,
the age of the copy.  After the collection the copy of the live Eden chunk has age 0:
not 1, and not greater than the age before.  The allocation that runs this collection
returns with the same age in the copy. -/
theorem eden_copy_age_cleared :
    (heap_init (config 100 280 2048 64 2 3) 1000 unaged_mem >>=
      run object_visitor unaged_run) = .ok unaged_before ∧
    Tiling unaged_before unaged_before.eden_ptr
      (unaged_before.eden_ptr + unaged_before.eden_size) [1000, 1020, 1040, 1060] ∧
    unaged_before.root = 1660 + 12 ∧ unaged_before.countOf 1660 = 1 ∧
    unaged_before.refOf 1660 0 = 1000 + 12 ∧ unaged_before.Reach 1000 ∧
    (mark_chunk object_visitor 100 unaged_before .root).map (fun h => h.markOf 1000) = .ok 1 ∧
    unaged_before.ageOf 1000 = 0 ∧ unaged_before.addrOf 1660 = 2708 ∧
    minor_gc object_visitor 100 unaged_before = .ok (collected 100 unaged_before) ∧
    (collected 100 unaged_before).heap + (collected 100 unaged_before).addrOf 1000 = 1380 ∧
    (collected 100 unaged_before).sizeOf 1380 = 20 ∧
    (collected 100 unaged_before).ageOf 1380 = 0 ∧
    ¬ unaged_before.ageOf 1000 < (collected 100 unaged_before).ageOf 1380 ∧
    (heap_alloc object_visitor 100 unaged_before 8).map (fun p => (p.1, p.2.ageOf 1380))
      = .ok (1012, 0) := by
  refine ⟨by decide!, by decide!, by decide!, by decide!, by decide!, ?_, by decide!,
    by decide!, by decide!, by decide!, by decide!, by decide!, by decide!, by decide!,
    by decide!⟩
  exact ⟨1660, by decide!,
    Heap.Path.step 1660 1660 1000 0 (Heap.Path.refl 1660) (by decide!) (by decide!)⟩

/-- Claim C12 fails in the code.  The heap `overfull_before` is reached from `heap_init`
(arena from `malloc`, not initialised) by the host of `overfull_run`, whose allocations
all return; its active survivor space is space 1 and holds the chunks at 1380 and 1400,
both live.  The minor collection of this heap returns and the bit is flipped, but the
mark phase has set the second byte of the size field of the chunk at 1400 (20 becomes
276) through a reference that `fix_minor` took from the forward field, never written, of
the root chunk.  The copies lie at 1100 and 1120 in space 0; the second one has 276
bytes and ends at 1396, past the end 1380 of the new active space, in the space that
was active before: `survivor_size` is 296 with a capacity of 280, so the retained chunks
do not lie in the new active region. -/
theorem survivor_prefix_overruns_region :
    (heap_init (config 100 280 2048 64 2 3) 1000 overfull_mem >>=
      run object_visitor (overfull_run.take 13)) = .ok overfull_before ∧
    overfull_before.survivor = 1 ∧ overfull_before.survivor_size = 40 ∧
    Tiling overfull_before overfull_before.sfrom
      (overfull_before.sfrom + overfull_before.survivor_size) [1380, 1400] ∧
    (mark_chunk object_visitor 100 overfull_before .root).map
      (fun h => (h.markOf 1380, h.markOf 1400)) = .ok (1, 1) ∧
    minor_gc object_visitor 100 overfull_before = .ok (collected 100 overfull_before) ∧
    (collected 100 overfull_before).survivor = overfull_before.survivor ^^^ 1 ∧
    (collected 100 overfull_before).sfrom = 1100 ∧
    (collected 100 overfull_before).s_ptr1 = 1380 ∧
    (collected 100 overfull_before).survivor_max_size = 280 ∧
    (collected 100 overfull_before).survivor_size = 296 ∧
    Tiling (collected 100 overfull_before) 1100 (1100 + 296) [1100, 1120] ∧
    (collected 100 overfull_before).sizeOf 1120 = 276 ∧
    ¬ 1120 + (collected 100 overfull_before).sizeOf 1120 ≤
      (collected 100 overfull_before).sfrom + (collected 100 overfull_before).survivor_max_size ∧
    ¬ (collected 100 overfull_before).survivor_size ≤
      (collected 100 overfull_before).survivor_max_size := by
  refine ⟨by decide!, by decide!, by decide!, by decide!, by decide!, by decide!, by decide!,
    by decide!, by decide!, by decide!, by decide!, by decide!, by decide!, by decide!,
    by decide!⟩

/-! ## The slow path of an allocation -/

/-- Claim C21 (the slow path places the object at the Eden base).  Let `h` be a
well-formed heap (as in C2) and `n = size + 12` a chunk size that fits 32 bits.  When the
large-object path fails (the request is not large, or the test of `chunk_tenured_alloc`
finds no room), the test of `chunk_eden_alloc` finds no room, the pressure counter is below `gc_delay`, the minor collection returns `g`, and
`n < eden_max_size`, the call `heap_alloc` returns `eden_ptr + 12`; afterwards
`eden_size = n`, the other used sizes are those of `g`, and
`heap_size = n + survivor_size + tenured_size + perm_size`. -/
theorem slow_path_allocates_at_eden_base (h : Heap) (es ss ts ps cs : List Nat)
    (hwf : h.WellFormed es ss ts ps cs) (fuel : Nat)
    (hfuel : es.length + ss.length + cs.length < fuel) (size : Nat)
    (hs : size + 12 < 4294967296)
    (hlarge : (size + 12 ≥ h.eden_max_size / 2 ∨ size + 12 ≥ h.survivor_max_size / 2) →
      (h.tenured_size + (size + 12)) % 4294967296 ≥ h.tenured_max_size)
    (hfull : (h.eden_size + (size + 12)) % 4294967296 ≥ h.eden_max_size)
    (hgc : h.gc < h.gc_delay) (g : Heap)
    (hret : minor_gc object_visitor fuel h = .ok g)
    (hn : size + 12 < h.eden_max_size) :
    ∃ h', heap_alloc object_visitor fuel h size = .ok (h.eden_ptr + 12, h') ∧
      h'.eden_size = size + 12 ∧ h'.survivor_size = g.survivor_size ∧
      h'.tenured_size = g.tenured_size ∧ h'.perm_size = g.perm_size ∧
      h'.heap_size = (size + 12) + h'.survivor_size + h'.tenured_size + h'.perm_size := by
  obtain ⟨h1, mv, sv, tn, _, hc⟩ := minor_gc_complete h es ss ts ps cs hwf fuel hfuel g hret
  obtain ⟨gl, gz, gs, gt, gp, gsum⟩ := hc.valid hwf.valid
  have c := hc.config
  have hv := hwf.valid
  have hl := hv.layout
  have b1 := hl.total
  have b2 := hl.bound
  have g1 := gl.total
  have g2 := gl.bound
  have v1 := hv.eden_le
  have v2 := hv.tenured_le
  have hnmod : (size + CHUNK) % 4294967296 = size + 12 := Nat.mod_eq_of_lt hs
  have hgn : size + 12 < g.eden_max_size := by rw [c.eden_max_size]; exact hn
  obtain ⟨G, ealloc, G1, G2, G3, G4, G5, G6, G7⟩ : ∃ G : Heap,
      chunk_eden_alloc g (size + 12) = .ok (g.eden_ptr, G) ∧ G.eden_size = size + 12 ∧
      G.heap_size = g.heap_size + (size + 12) ∧ G.survivor_size = g.survivor_size ∧
      G.tenured_size = g.tenured_size ∧ G.perm_size = g.perm_size ∧ G.heap = g.heap ∧
      G.heap_max_size = g.heap_max_size :=
    ⟨_, eden_alloc_empty g (size + 12) gz gl.eden_at (by omega) hgn (by omega) g2 (by omega),
      rfl, rfl, rfl, rfl, rfl, rfl, rfl⟩
  have hne : g.eden_ptr ≠ 0 := by have := gl.base_pos; have := gl.eden_at; omega
  have hslow := (chunk_alloc_slow_ok object_visitor fuel h (size + 12) g.eden_ptr G).2
    ⟨hgc, hne, g, hret, ealloc⟩
  have hE : chunk_eden_alloc h (size + 12) = .ok (0, h) := by
    unfold chunk_eden_alloc
    rw [if_pos hfull]
  have hchunk : chunk_alloc object_visitor fuel h (size + 12) = .ok (g.eden_ptr, G) := by
    unfold chunk_alloc
    by_cases hb : size + 12 ≥ h.eden_max_size / 2 ∨ size + 12 ≥ h.survivor_max_size / 2
    · have ht : chunk_tenured_alloc h (size + 12) = .ok (0, h) := by
        unfold chunk_tenured_alloc
        rw [if_pos (hlarge hb)]
      simp only [hb, if_true, ht, hE, bind, Except.bind, ne_eq, not_true_eq_false, if_false,
        pure, Except.pure]
      exact hslow
    · simp only [hb, if_false, hE, bind, Except.bind, ne_eq, not_true_eq_false, pure,
        Except.pure]
      exact hslow
  have am : G.inArena (g.eden_ptr + CHUNK) size := by
    have := gl.eden_at
    constructor <;> simp only [CHUNK] <;> omega
  refine ⟨G.withMem (poke G.mem (g.eden_ptr + CHUNK - G.heap) size 0), ?_, ?_⟩
  · unfold heap_alloc
    rw [hnmod, hchunk]
    simp only [bind, Except.bind, ne_eq, hne, not_false_eq_true, if_true, pure, Except.pure,
      Heap.memset0]
    rw [if_pos (by exact am)]
    rw [c.eden_ptr]
    rfl
  · refine ⟨G1, G3, G4, G5, ?_⟩
    show G.heap_size = size + 12 + G.survivor_size + G.tenured_size + G.perm_size
    omega

/-- A witness: the fourth allocation of `short_run`.  Eden (100 bytes) holds three chunks
of 28 bytes; the collection moves the root object to the survivor space and the new chunk
is the first of Eden, at the arena base 1000. -/
theorem slow_path_allocates_at_eden_base_witness :
    full_heap.WellFormed [1000, 1028, 1056] [] [] [] [1000, 1028, 1056] ∧
    (full_heap.eden_size + (16 + 12)) % 4294967296 ≥ full_heap.eden_max_size ∧
    full_heap.gc < full_heap.gc_delay ∧
    minor_gc object_visitor 100 full_heap = .ok (collected 100 full_heap) ∧
    full_heap.eden_ptr = 1000 ∧ (collected 100 full_heap).survivor_size = 28 ∧
    ∃ h', heap_alloc object_visitor 100 full_heap 16 = .ok (full_heap.eden_ptr + 12, h') ∧
      h'.eden_size = 16 + 12 ∧ h'.survivor_size = (collected 100 full_heap).survivor_size ∧
      h'.tenured_size = (collected 100 full_heap).tenured_size ∧
      h'.perm_size = (collected 100 full_heap).perm_size ∧
      h'.heap_size = (16 + 12) + h'.survivor_size + h'.tenured_size + h'.perm_size :=
  ⟨by decide!, by decide!, by decide!, by decide!, by decide!, by decide!,
    slow_path_allocates_at_eden_base full_heap [1000, 1028, 1056] [] [] [] [1000, 1028, 1056]
      (by decide!) 100 (by decide) 16 (by decide) (by decide!) (by decide!) (by decide!)
      (collected 100 full_heap) (by decide!) (by decide!)⟩

/-! ## Accesses of a minor collection -/

theorem mark_chunk_nil_root (vis : ObjVisitor) (k : Nat) (g : Heap) (hr : g.root = 0) :
    mark_chunk vis (k + 1) g .root = .error .segv := by
  simp [mark_chunk, Heap.loadRef, hr, chunk_of, CHUNK, bind, Except.bind]

theorem minor_gc_nil_root (vis : ObjVisitor) (k : Nat) (g : Heap) (hr : g.root = 0) :
    minor_gc vis (k + 1) g = .error .segv := by
  rw [minor_gc_eq, mark_chunk_nil_root vis k g hr]
  rfl

theorem slow_path_nil_root (vis : ObjVisitor) (k : Nat) (g : Heap) (n : Nat) (hr : g.root = 0) :
    ∃ e, chunk_alloc_slow vis (k + 1) g n = .error e := by
  cases hx : chunk_alloc_slow vis (k + 1) g n with
  | error e => exact ⟨e, rfl⟩
  | ok p =>
    obtain ⟨c, h'⟩ := p
    obtain ⟨_, _, h1, hm, _⟩ := (chunk_alloc_slow_ok vis (k + 1) g n c h').1 hx
    rw [minor_gc_nil_root vis k g hr] at hm
    cases hm

/-- The accesses of a minor collection of a well-formed heap.  Let `h` be a well-formed
heap (tiled regions, every mark 0, references nil or at payloads of chunks, a root that
is not nil, forward offset 0 on the live chunks of Tenured and Perm).  Every load and
store of the model fails with `segv` outside the arena, so a phase that returns made all
its accesses inside the arena: the mark phase returns, and when the second scan does not
reach its fallback `minor_gc`, with its two scans and `fix_minor`, returns.  On every
heap `g` with a nil root, with every visitor, `mark_chunk` and `minor_gc` fail with
`segv` (the header is resolved at `nil - 12`), and the slow path of `chunk_alloc` does
not return. -/
theorem minor_gc_stays_in_arena (h : Heap) (es ss ts ps cs : List Nat)
    (hwf : h.WellFormed es ss ts ps cs) (fuel : Nat)
    (hfuel : es.length + ss.length + cs.length < fuel) :
    (∃ h1, mark_chunk object_visitor fuel h .root = .ok h1) ∧
    (no_fallback fuel h es ss = true → ∃ h', minor_gc object_visitor fuel h = .ok h') ∧
    ∀ (g : Heap) (vis : ObjVisitor) (k n : Nat), g.root = 0 →
      mark_chunk vis (k + 1) g .root = .error .segv ∧
      minor_gc vis (k + 1) g = .error .segv ∧
      ∃ e, chunk_alloc_slow vis (k + 1) g n = .error e := by
  refine ⟨?_, ?_, ?_⟩
  · obtain ⟨h1, r, m, hrun, _⟩ := mark_phase_spec hwf fuel (show cs.length < fuel by omega)
    exact ⟨h1, hrun⟩
  · intro hfree
    obtain ⟨h', _, _, _, _, hg, _⟩ := minor_gc_returns h es ss ts ps cs hwf fuel hfuel hfree
    exact ⟨h', hg⟩
  · intro g vis k n hr
    exact ⟨mark_chunk_nil_root vis k g hr, minor_gc_nil_root vis k g hr,
      slow_path_nil_root vis k g n hr⟩

/-- An instance: the second collection of the pair A, B with the node C as the root
returns, and on the heap with one node and no root the collection fails with `segv`. -/
theorem minor_gc_stays_in_arena_witness :
    aged_heap.WellFormed [4096] [5632, 5660] [] [] [4096, 5632, 5660] ∧
    no_fallback 8 aged_heap [4096] [5632, 5660] = true ∧
    (∃ h', minor_gc object_visitor 8 aged_heap = .ok h') ∧
    unrooted_heap.root = 0 ∧ minor_gc object_visitor 8 unrooted_heap = .error .segv :=
  ⟨by decide!, by decide!,
    (minor_gc_stays_in_arena aged_heap [4096] [5632, 5660] [] [] [4096, 5632, 5660]
      (by decide!) 8 (by decide)).2.1 (by decide!),
    by decide!,
    ((minor_gc_stays_in_arena aged_heap [4096] [5632, 5660] [] [] [4096, 5632, 5660]
      (by decide!) 8 (by decide)).2.2 unrooted_heap object_visitor 7 0 (by decide!)).2.1⟩

/-- Claim C22 fails in the code.  `heap_init` takes the arena from `malloc` and no
function writes the forward field of a new chunk.  On the heap
`config 100 58 2048 64 2 3` the host of `wild_run` allocates a large object (the chunk
at 1216, the only chunk of Tenured, with no reference field), installs it as the root
and allocates three small objects; every `heap_alloc` returns.  The heap reached is
valid, its regions are tiled by chunks, every mark is 0, the root is not nil and points
at the payload of a chunk.  In its minor collection the mark phase returns and the
scans move nothing; `fix_minor` then reads the forward field of the root chunk, which
holds what the memory held (2264), replaces the root by `heap + 2264 + 12`, the visitor
finds there a count of 1 and the reference 20000 in the slot at 3284, and `fix_minor` on
that slot reads the forward field of a header at 19988, above the arena end 3328.  The
collection, and the `heap_alloc` that runs it, stop there. -/
theorem fix_minor_leaves_arena :
    (heap_init (config 100 58 2048 64 2 3) 1000 wild_mem >>= run object_visitor wild_run)
      = .ok wild_before ∧
    wild_before.Valid ∧
    Tiling wild_before wild_before.eden_ptr (wild_before.eden_ptr + wild_before.eden_size)
      [1000, 1028, 1056] ∧
    Tiling wild_before wild_before.sfrom (wild_before.sfrom + wild_before.survivor_size) [] ∧
    Tiling wild_before wild_before.tenured_ptr
      (wild_before.tenured_ptr + wild_before.tenured_size) [1216] ∧
    Tiling wild_before wild_before.perm_ptr (wild_before.perm_ptr + wild_before.perm_size) [] ∧
    wild_before.Objects [1216, 1000, 1028, 1056] ∧
    (∀ c ∈ [1216, 1000, 1028, 1056], wild_before.markOf c = 0) ∧
    wild_before.root = 1216 + 12 ∧ wild_before.countOf 1216 = 0 ∧
    wild_before.addrOf 1216 = 2264 ∧ wild_before.countOf 3264 = 1 ∧
    wild_before.refOf 3264 0 = 20000 ∧
    wild_before.heap = 1000 ∧ wild_before.heap + wild_before.heap_max_size = 3328 ∧
    (mark_chunk object_visitor 100 wild_before .root).map (fun h1 => h1.markOf 1216) = .ok 1 ∧
    no_fallback 100 wild_before [1000, 1028, 1056] [] = true ∧
    fix_minor object_visitor 99 wild_before (.cell 3284) = .error .segv ∧
    minor_gc object_visitor 100 wild_before = .error .segv ∧
    heap_alloc object_visitor 100 wild_before 16 = .error .segv := by
  refine ⟨by decide!, by decide!, by decide!, by decide!, by decide!, by decide!, by decide!,
    by decide!, by decide!, by decide!, by decide!, by decide!, by decide!, by decide!,
    by decide!, by decide!, by decide!, by decide!, by decide!, by decide!⟩

/-! ## The invariants over a run, with an arena that is not initialised -/

/-- Claim C13 fails in the code.  `heap_init` takes the arena from `malloc` and no
function writes the forward field of a new chunk, so the forward field of a chunk of
Tenured holds what the memory held.  On the heap `config 100 280 2048 64 2 3` (all
capacities positive) the host of `overfull_run` only allocates, installs its first object
as the root and stores two references in it, and every `heap_alloc` returns.  The first
collection follows the forward field of the root chunk and leaves the root at bytes of
Perm; the second one marks through them, which sets the second byte of the size field of
the survivor at 1400 (20 becomes 276), and the first scan, which has no test of the
capacity, copies 20 + 276 bytes: before the last allocation `survivor_size` is 40, after
it 296, above `survivor_max_size = 280`. -/
theorem survivor_exceeds_capacity :
    (heap_init (config 100 280 2048 64 2 3) 1000 overfull_mem >>=
      run object_visitor (overfull_run.take 13)) = .ok overfull_before ∧
    overfull_before.survivor_size = 40 ∧ overfull_before.survivor_max_size = 280 ∧
    overfull_before.sizeOf 1380 = 20 ∧ overfull_before.sizeOf 1400 = 20 ∧
    (heap_init (config 100 280 2048 64 2 3) 1000 overfull_mem >>=
      run object_visitor overfull_run) = .ok overfull_heap ∧
    overfull_heap.survivor_size = 296 ∧ overfull_heap.survivor_max_size = 280 ∧
    ¬ overfull_heap.survivor_size ≤ overfull_heap.survivor_max_size := by
  refine ⟨by decide!, by decide!, by decide!, by decide!, by decide!, by decide!, by decide!,
    by decide!, by decide!⟩

/-- Claim C15 fails in the code, for the same reason.  On the heap
`config 100 58 2048 64 2 3` the host of `torn_run` allocates a large object (the chunk
of 32 bytes at 1216, the only chunk of Tenured), installs it as the root and allocates
four small objects; every `heap_alloc` returns.  Before the last allocation the chunk
tiles the used part of Tenured.  The collection run by the last allocation follows the
forward field of the root chunk, which was never written, to bytes of Perm, and
`fix_minor` then flips the low bit of the byte at 1220, the size field of the chunk:
afterwards the size field reads 33 while `tenured_size` is 32, and no list of chunks
tiles the used part of Tenured. -/
theorem tenured_tiling_breaks :
    (heap_init (config 100 58 2048 64 2 3) 1000 torn_mem >>=
      run object_visitor (torn_run.take 5)) = .ok torn_before ∧
    Tiling torn_before torn_before.tenured_ptr
      (torn_before.tenured_ptr + torn_before.tenured_size) [1216] ∧
    Tiling torn_before torn_before.eden_ptr
      (torn_before.eden_ptr + torn_before.eden_size) [1000, 1028, 1056] ∧
    (heap_init (config 100 58 2048 64 2 3) 1000 torn_mem >>= run object_visitor torn_run)
      = .ok torn_heap ∧
    torn_heap.tenured_ptr = 1216 ∧ torn_heap.tenured_size = 32 ∧
    torn_heap.sizeOf 1216 = 33 ∧
    ∀ l, ¬ Tiling torn_heap torn_heap.tenured_ptr
      (torn_heap.tenured_ptr + torn_heap.tenured_size) l := by
  refine ⟨by decide!, by decide!, by decide!, by decide!, by decide!, by decide!, by decide!,
    ?_⟩
  have hp : torn_heap.tenured_ptr = 1216 := by decide!
  have ht : torn_heap.tenured_size = 32 := by decide!
  have hs : torn_heap.sizeOf 1216 = 33 := by decide!
  intro l hl
  rw [hp, ht] at hl
  cases l with
  | nil =>
    have h0 : 1216 = 1216 + 32 := hl
    omega
  | cons c l =>
    obtain ⟨_, _, hl'⟩ := hl
    have := hl'.le
    rw [hs] at this
    omega

end GC
